import Mathlib

/-!
# Panther log-processing core: parser registry and AWS value scanner

A shallow embedding of

* `internal/log_analysis/log_processor/parsers/registry.go` (and the older copy of the same
  registry in `parsers/parsers.go`),
* `internal/log_analysis/log_processor/registry/registry.go`,
* `internal/log_analysis/log_processor/parsers/awslogs/extractor.go`.

Conventions of the embedding

* Go strings are Lean strings; `strings.HasPrefix` and `strings.HasSuffix` are taken on the
  character lists (for the ASCII patterns used here this agrees with the byte-wise test).
* A Go slice is a list, the nil slice being the empty list.
* A Go map is an association list with at most one pair per key; a nil map is `none`.
* A pointer to a registry entry is modelled by the entry it points to; nil is `none`.
* A call that can panic returns an `Outcome`.
* The locks of the registry are not modelled: calls are taken one after the other.
-/

namespace panther

/-! ## Go runtime values -/

/-- A formatted message, kept as the format string and the arguments handed to
`errors.Errorf` or `fmt.Sprintf`. -/
structure Fmt where
  format : String
  args : List String
deriving DecidableEq, Repr

/-- The result of a call that either returns or panics with a value. -/
inductive Outcome (α : Type) where
  | returned (a : α)
  | panicked (value : Fmt)

/-- The panic raised by calling a nil function value. -/
def nilDereference : Fmt :=
  ⟨"runtime error: invalid memory address or nil pointer dereference", []⟩

/-- A Go map with string keys: the pairs in insertion order. -/
abbrev GoMap (V : Type) := List (String × V)

namespace GoMap

/-- The value of `m[k]` with its comma-ok flag: `none` when the key is missing. -/
def get? {V : Type} : GoMap V → String → Option V
  | [], _ => none
  | (k0, v) :: rest, k => if k0 = k then some v else get? rest k

/-- The assignment `m[k] = v`: replaces the pair of an existing key, adds a pair otherwise. -/
def set {V : Type} : GoMap V → String → V → GoMap V
  | [], k, v => [(k, v)]
  | (k0, v0) :: rest, k, v => if k0 = k then (k, v) :: rest else (k0, v0) :: set rest k v

end GoMap

/-- Indexing a possibly nil map: a nil map has no keys. -/
def mapIndex {V : Type} (m : Option (GoMap V)) (k : String) : Option V :=
  match m with
  | none => none
  | some m => m.get? k

/-! ## Package parsers: log types and the registry -/

namespace parsers

/-- What `checkLogEntrySchema` needs of jsoniter for schema values of type `σ`:
`Marshal` gives the encoded bytes or the message of its error, `Unmarshal` gives the message
of the error of decoding the bytes into a `map[string]interface{}`, if there is one. -/
structure SchemaCodec (σ : Type) where
  Marshal : σ → Except String String
  Unmarshal : String → Option String

/-- A parser factory is a Go function value `func() Parser`: nil (`none`) or a function. -/
abbrev ParserFactory (π : Type) := Option (Unit → π)

/-- The call `f()` of a factory: calling a nil function panics. -/
def ParserFactory.call {π : Type} : ParserFactory π → Outcome π
  | none => .panicked nilDereference
  | some f => .returned (f ())

/-- A registry entry. `Schema` is an `interface{}`: `none` is the nil interface. -/
structure LogType (σ π : Type) where
  Name : String
  Description : String
  Schema : Option σ
  NewParser : ParserFactory π

variable {σ π : Type}

/-- The function `checkLogEntrySchema` of parsers.go. -/
def checkLogEntrySchema (codec : SchemaCodec σ) (logType : String) (schema : Option σ) :
    Option Fmt :=
  match schema with
  | none => some ⟨"nil schema for log type %q", [logType]⟩
  | some s =>
    match codec.Marshal s with
    | .error err => some ⟨"invalid schema struct for log type %q: %s", [logType, err]⟩
    | .ok data =>
      match codec.Unmarshal data with
      | some err => some ⟨"invalid schema struct for log type %q: %s", [logType, err]⟩
      | none => none

/-- The method `(*LogType).Check`. The receiver is a pointer, `none` being nil. The call of
`awsglue.LogDataHourlyTableMetadata` only builds a value that is discarded, so it does not
appear. -/
def LogType.Check (codec : SchemaCodec σ) (entry : Option (LogType σ π)) : Option Fmt :=
  match entry with
  | none => some ⟨"nil log type entry", []⟩
  | some entry =>
    if entry.Name = "" then some ⟨"missing entry log type", []⟩
    else if entry.Description = "" then
      some ⟨"missing description for log type %q", [entry.Name]⟩
    else checkLogEntrySchema codec entry.Name entry.Schema

/-- The registry: its map of entries, nil until the first successful `Register`. -/
structure Registry (σ π : Type) where
  entries : Option (GoMap (LogType σ π))

namespace Registry

/-- The zero value `Registry{}`, as of `var defaultRegistry Registry`. -/
def zero : Registry σ π := ⟨none⟩

/-- The pairs held by the map (none for a nil map). -/
def stored (r : Registry σ π) : GoMap (LogType σ π) :=
  match r.entries with
  | none => []
  | some m => m

/-- The method `(*Registry).Get`. -/
def Get (r : Registry σ π) (name : String) : Option (LogType σ π) :=
  mapIndex r.entries name

/-- The method `(*Registry).MustGet`. -/
def MustGet (r : Registry σ π) (name : String) : Outcome (LogType σ π) :=
  match r.Get name with
  | some logType => .returned logType
  | none => .panicked ⟨"unregistered log type %q", [name]⟩

/-- The method `(*Registry).LogTypes`. The `range` over the map visits every pair once in an
order Go leaves open: `rangeOrder` is that order. -/
def LogTypes (rangeOrder : GoMap (LogType σ π) → GoMap (LogType σ π)) (r : Registry σ π) :
    List (LogType σ π) :=
  match r.entries with
  | none => []
  | some m => (rangeOrder m).foldl (fun logTypes kv => logTypes ++ [kv.2]) []

/-- The method `(*Registry).Register`: the registry after the call and the error returned. -/
def Register (codec : SchemaCodec σ) (r : Registry σ π) (entry : LogType σ π) :
    Registry σ π × Option Fmt :=
  match LogType.Check codec (some entry) with
  | some err => (r, some err)
  | none =>
    match mapIndex r.entries entry.Name with
    | some _ => (r, some ⟨"duplicate log type entry %q", [entry.Name]⟩)
    | none =>
      let m : GoMap (LogType σ π) :=
        match r.entries with
        | none => []
        | some m => m
      (⟨some (m.set entry.Name entry)⟩, none)

/-- One call on a registry, as a client of the package can make it. -/
inductive Call (σ π : Type) where
  | Register (entry : LogType σ π)
  | Get (name : String)
  | MustGet (name : String)
  | LogTypes

/-- The registry after one call. Only `Register` writes to the map. -/
def step (codec : SchemaCodec σ) (r : Registry σ π) : Call σ π → Registry σ π
  | .Register entry => (r.Register codec entry).1
  | .Get _ => r
  | .MustGet _ => r
  | .LogTypes => r

/-- The registry after a sequence of calls, the first call first. -/
def run (codec : SchemaCodec σ) : Registry σ π → List (Call σ π) → Registry σ π
  | r, [] => r
  | r, c :: rest => run codec (r.step codec c) rest

/-- The names of the `Register` calls of a sequence that returned no error, in call order. -/
def registered (codec : SchemaCodec σ) : Registry σ π → List (Call σ π) → List String
  | _, [] => []
  | r, .Register entry :: rest =>
    if (r.Register codec entry).2 = none then
      entry.Name :: registered codec (r.step codec (.Register entry)) rest
    else registered codec (r.step codec (.Register entry)) rest
  | r, c :: rest => registered codec (r.step codec c) rest

end Registry

/-- The loop of `NewRegistry` over its arguments, on the registry `r` under construction. -/
def registerEach (codec : SchemaCodec σ) (r : Registry σ π) :
    List (LogType σ π) → Option (Registry σ π) × Option Fmt
  | [] => (some r, none)
  | logType :: rest =>
    match r.Register codec logType with
    | (_, some err) => (none, some err)
    | (r1, none) => registerEach codec r1 rest

/-- The function `NewRegistry`: nil and the error of the first entry that fails. -/
def NewRegistry (codec : SchemaCodec σ) (logTypes : List (LogType σ π)) :
    Option (Registry σ π) × Option Fmt :=
  registerEach codec Registry.zero logTypes

/-! The package-level functions work on the global `defaultRegistry`, passed here as state. -/

/-- The function `parsers.Get`. -/
def Get (defaultRegistry : Registry σ π) (logType : String) : Option (LogType σ π) :=
  defaultRegistry.Get logType

/-- The function `parsers.MustGet`. -/
def MustGet (defaultRegistry : Registry σ π) (logType : String) : Outcome (LogType σ π) :=
  defaultRegistry.MustGet logType

/-- The function `parsers.Register`: stops at the first entry that fails. -/
def Register (codec : SchemaCodec σ) (defaultRegistry : Registry σ π) :
    List (LogType σ π) → Registry σ π × Option Fmt
  | [] => (defaultRegistry, none)
  | entry :: rest =>
    match defaultRegistry.Register codec entry with
    | (r1, some err) => (r1, some err)
    | (r1, none) => Register codec r1 rest

/-- The function `parsers.AvailableLogTypes`. -/
def AvailableLogTypes (rangeOrder : GoMap (LogType σ π) → GoMap (LogType σ π))
    (defaultRegistry : Registry σ π) : List (LogType σ π) :=
  defaultRegistry.LogTypes rangeOrder

/-- The function `parsers.NewParser`: the parser and the error returned, or the panic of the
factory call. -/
def NewParser (defaultRegistry : Registry σ π) (logType : String) :
    Outcome (Option π × Option Fmt) :=
  match defaultRegistry.Get logType with
  | some entry =>
    match entry.NewParser.call with
    | .returned p => .returned (some p, none)
    | .panicked v => .panicked v
  | none => .returned (none, some ⟨"unregistered LogType %q", [logType]⟩)

end parsers

/-! ## Package registry -/

namespace registry

variable {σ π : Type}

/-- The function `registry.AvailableParsers`. -/
def AvailableParsers (rangeOrder : GoMap (parsers.LogType σ π) → GoMap (parsers.LogType σ π))
    (defaultRegistry : parsers.Registry σ π) : List (parsers.LogType σ π) :=
  parsers.AvailableLogTypes rangeOrder defaultRegistry

/-- The function `registry.MustGet`. -/
def MustGet (defaultRegistry : parsers.Registry σ π) (name : String) :
    Outcome (parsers.LogType σ π) :=
  parsers.MustGet defaultRegistry name

end registry

/-! ## Libraries used by the AWS scanner -/

namespace strings

/-- The function `strings.HasPrefix`. -/
def HasPrefix (s pre : String) : Bool := pre.data.isPrefixOf s.data

/-- The function `strings.HasSuffix`. -/
def HasSuffix (s suf : String) : Bool := suf.data.isSuffixOf s.data

/-- The function `strings.LastIndex` for a one-character pattern: the index of its last
occurrence, or -1. -/
def LastIndex (sep : Char) : List Char → Int
  | [] => -1
  | c :: rest =>
    if 0 ≤ LastIndex sep rest then LastIndex sep rest + 1
    else if c = sep then 0 else -1

/-- The function `strings.SplitN` for a one-character separator, on character lists:
at most `n` pieces, the last one holding the unsplit rest. -/
def SplitN (sep : Char) : List Char → Nat → List (List Char)
  | _, 0 => []
  | s, 1 => [s]
  | [], _ + 2 => [[]]
  | c :: rest, n + 2 =>
    if c = sep then [] :: SplitN sep rest (n + 1)
    else
      match SplitN sep rest (n + 2) with
      | [] => [[c]]
      | piece :: pieces => (c :: piece) :: pieces

end strings

namespace arn

/-- The struct `arn.ARN` of the AWS SDK. -/
structure ARN where
  Partition : String
  Service : String
  Region : String
  AccountID : String
  Resource : String
deriving DecidableEq, Repr

/-- The function `arn.Parse` of the AWS SDK: the text must begin with `arn:` and split at
colons into six sections, the sixth holding the rest. `none` stands for its error. -/
def Parse (text : String) : Option ARN :=
  if strings.HasPrefix text "arn:" then
    match strings.SplitN ':' text.data 6 with
    | [_, partition, service, region, account, resource] =>
      some ⟨String.mk partition, String.mk service, String.mk region, String.mk account,
        String.mk resource⟩
    | _ => none
  else none

end arn

/-- A number of a JSON text: the sign, the whole part, the digits after the point (none
when there is no point) and the exponent. Every value of the type is a number that JSON
allows, so a text such as `1.2.3` is no `Numeral`. -/
structure Numeral where
  negative : Bool
  whole : Nat
  fraction : List (Fin 10)
  exponent : Option Int
deriving DecidableEq, Repr

/-- A decoded JSON text, as the tokens jsoniter reads: an object keeps its fields in the
order of the text, repeated keys included. `invalid` stands where a value is expected and
the text is none: characters that begin no JSON value, or a number or literal that is not
made as JSON requires (`1.2.3`, `tru`). A text with an `invalid` part is not well-formed. -/
inductive JSON where
  | null
  | bool (b : Bool)
  | number (n : Numeral)
  | string (s : String)
  | array (elems : List JSON)
  | object (fields : List (String × JSON))
  | invalid (text : String)

mutual

/-- Whether a text has, where a value stands, characters that begin no JSON value. -/
def JSON.hasInvalid : JSON → Bool
  | .invalid _ => true
  | .array elems => JSON.anyInvalid elems
  | .object fields => JSON.anyFieldInvalid fields
  | _ => false

/-- Whether one of the elements of an array has an invalid part. -/
def JSON.anyInvalid : List JSON → Bool
  | [] => false
  | v :: rest => v.hasInvalid || JSON.anyInvalid rest

/-- Whether the value of one of the fields of an object has an invalid part. -/
def JSON.anyFieldInvalid : List (String × JSON) → Bool
  | [] => false
  | (_, v) :: rest => v.hasInvalid || JSON.anyFieldInvalid rest

end

namespace jsoniter

/-- An error of the iterator, as `ReportError(operation, msg)` records it (the position and
the context it adds to the message are left out). -/
structure IterError where
  operation : String
  msg : String
deriving DecidableEq, Repr

/-- The values of `jsoniter.ValueType` that `WhatIsNext` gives on a token. -/
inductive ValueType where
  | StringValue
  | NumberValue
  | NilValue
  | BoolValue
  | ArrayValue
  | ObjectValue
  | InvalidValue
deriving DecidableEq, Repr

/-- The method `Iterator.WhatIsNext`. -/
def WhatIsNext : JSON → ValueType
  | .null => .NilValue
  | .bool _ => .BoolValue
  | .number _ => .NumberValue
  | .string _ => .StringValue
  | .array _ => .ArrayValue
  | .object _ => .ObjectValue
  | .invalid _ => .InvalidValue

/-- The first character of the text of a value, which error messages quote. -/
def firstChar : JSON → String
  | .null => "n"
  | .bool true => "t"
  | .bool false => "f"
  | .number n => if n.negative then "-" else String.mk ((Nat.toDigits 10 n.whole).take 1)
  | .string _ => "\""
  | .array _ => "["
  | .object _ => "\x7b"
  | .invalid text => String.mk (text.data.take 1)

/-- The method `Iterator.ReportError`: the first error is kept. -/
def ReportError (err : Option IterError) (operation msg : String) : Option IterError :=
  match err with
  | some e => some e
  | none => some ⟨operation, msg⟩

/-- The method `Iterator.ReadString` on the next value: a string gives its text, null gives
the empty string, anything else gives the empty string and reports an error. -/
def ReadString (err : Option IterError) : JSON → String × Option IterError
  | .string s => (s, err)
  | .null => ("", err)
  | v => ("", ReportError err "ReadString" ("expects \" or n, but found " ++ firstChar v))

/-- The method `Iterator.Skip` on the next value: it reads over the whole value and reports
an error when it meets characters that begin no JSON value. -/
def Skip (err : Option IterError) (v : JSON) : Option IterError :=
  if v.hasInvalid then ReportError err "Skip" ("do not know how to skip: " ++ firstChar v)
  else err

/-- ASCII lower-casing of a field name, as `readFieldHash` does when the configuration is
not case sensitive (the default, and so for `ConfigFastest`). -/
def lowerASCII (s : String) : String :=
  String.mk (s.data.map fun c => if 'A' ≤ c ∧ c ≤ 'Z' then Char.ofNat (c.toNat + 32) else c)

end jsoniter

namespace gjson

/-- A `gjson.Result`: the value found in the text, or `none` when nothing was found. -/
abbrev Result := Option JSON

/-- The field `Result.Str`: the text of a string value, empty for every other result. -/
def Str : Result → String
  | some (.string s) => s
  | _ => ""

/-- The method `Result.Exists`. -/
def Exists (r : Result) : Bool := r.isSome

/-- The method `Result.IsArray`. -/
def IsArray : Result → Bool
  | some (.array _) => true
  | _ => false

/-- The values that `Result.ForEach` hands to its callback on an array, in order. -/
def elements : Result → List JSON
  | some (.array elems) => elems
  | _ => []

/-- The method `Result.Get` for a plain field name: the value of the first field of that
name in an object, nothing for any other result. -/
def Get (r : Result) (name : String) : Result :=
  match r with
  | some (.object fields) => (fields.find? fun f => f.1 = name).map Prod.snd
  | _ => none

end gjson

/-! ## Package pantherlog -/

namespace pantherlog

/-- Modelled from the spec: the kinds of indicator values (section 3, Indicator Value); the
declarations of package pantherlog and the kind constants of package awslogs are missing
from the sources. -/
inductive ValueKind where
  | KindIPAddress
  | KindDomainName
  | KindAWSARN
  | KindAWSAccountID
  | KindAWSInstanceID
  | KindTag
deriving DecidableEq, Repr

/-- The struct `pantherlog.Value`, a kind and its data. -/
structure Value where
  Kind : ValueKind
  Data : String
deriving DecidableEq, Repr

/-- Modelled from the spec: `pantherlog.IPAddress`, missing from the sources, constructs the
typed value with no validation (section 4.1). -/
def IPAddress (addr : String) : Value := ⟨.KindIPAddress, addr⟩

/-- Modelled from the spec: `pantherlog.DomainName`, missing from the sources, constructs the
typed value with no validation (section 4.1). -/
def DomainName (name : String) : Value := ⟨.KindDomainName, name⟩

end pantherlog

/-! ## Package awslogs: the JSON scanner of extractor.go -/

namespace awslogs

open pantherlog

/-- Modelled from the spec: `awslogs.InstanceID`, missing from the sources, constructs the
typed value with no validation (section 4.1). -/
def InstanceID (id : String) : Value := ⟨.KindAWSInstanceID, id⟩

/-- Modelled from the spec: `awslogs.AccountID`, missing from the sources, constructs the
typed value with no validation (section 4.1). -/
def AccountID (id : String) : Value := ⟨.KindAWSAccountID, id⟩

/-- The type `scanARN`, whose declaration is missing from the sources, is taken by its one
method: `ScanValues(values, input)` gives the values and an error. -/
structure scanARN where
  ScanValues : List Value → String → List Value × Option String

/-- The local struct `tagListEntry` of `Visit`. -/
structure tagListEntry where
  Key : String
  Value : String
deriving DecidableEq, Repr

/-- The fields of an object read into a `tagListEntry`: `key` and `value` (matched without
regard to ASCII case) are read with `ReadString`, every other field is skipped. Reading stops
at the first error; the fields set until then are kept. -/
def readTagFields (tag : tagListEntry) :
    List (String × JSON) → tagListEntry × Option jsoniter.IterError
  | [] => (tag, none)
  | (name, v) :: rest =>
    if jsoniter.lowerASCII name = "key" then
      match jsoniter.ReadString none v with
      | (s, none) => readTagFields { tag with Key := s } rest
      | (s, some e) => ({ tag with Key := s }, some e)
    else if jsoniter.lowerASCII name = "value" then
      match jsoniter.ReadString none v with
      | (s, none) => readTagFields { tag with Value := s } rest
      | (s, some e) => ({ tag with Value := s }, some e)
    else
      match jsoniter.Skip none v with
      | none => readTagFields tag rest
      | some e => (tag, some e)

/-- The call `iter.ReadVal(&tag)` on a zero `tagListEntry`: an object fills the fields, null
leaves them empty, any other value is an error. -/
def ReadVal (v : JSON) : tagListEntry × Option jsoniter.IterError :=
  match v with
  | .object fields => readTagFields ⟨"", ""⟩ fields
  | .null => (⟨"", ""⟩, none)
  | v => (⟨"", ""⟩, some ⟨"readObjectStart", "expect \x7b or n, but found " ++ jsoniter.firstChar v⟩)

/-- What `Visit` reads and writes: `js.Values` and the `Error` field of the iterator. -/
structure Walk where
  Values : List Value
  Error : Option jsoniter.IterError
deriving DecidableEq, Repr

/-- The loop of `Visit` over a `tags` array. -/
def visitTags (w : Walk) : List JSON → Walk
  | [] => w
  | elem :: rest =>
    match w.Error with
    | some _ => w
    | none =>
      let tag := (ReadVal elem).1
      let values :=
        if tag.Value ≠ "" ∧ tag.Key ≠ "" then
          w.Values ++ [⟨ValueKind.KindTag, tag.Key ++ ":" ++ tag.Value⟩]
        else w.Values
      visitTags ⟨values, (ReadVal elem).2⟩ rest

/-- The loop of `Visit` over an `ipv6Addresses` array. -/
def visitIPv6 (w : Walk) : List JSON → Walk
  | [] => w
  | elem :: rest =>
    match w.Error with
    | some _ => w
    | none =>
      let addr := jsoniter.ReadString w.Error elem
      visitIPv6 ⟨w.Values ++ [IPAddress addr.1], addr.2⟩ rest

/-- The string case of `Visit`: the values appended for a key and a string value. -/
def visitString (arn : scanARN) (values : List Value) (key val : String) : List Value :=
  if key = "instanceId" then values ++ [InstanceID val]
  else if key = "accountId" then values ++ [AccountID val]
  else if key = "publicIp" ∨ key = "privateIpAddress" ∨ key = "ipAddressV4" then
    values ++ [IPAddress val]
  else if key = "publicDnsName" ∨ key = "privateDnsName" ∨ key = "domain" then
    values ++ [DomainName val]
  else if strings.HasSuffix key "InstanceId" then values ++ [InstanceID val]
  else if strings.HasSuffix key "AccountId" then values ++ [AccountID val]
  else if strings.HasPrefix val "arn:" then (arn.ScanValues values val).1
  else values

mutual

/-- The method `(*scanJSON).Visit`, called with the key of a field on the value that
follows it: the flag returned and the state after the call. -/
def Visit (arn : scanARN) (w : Walk) (key : String) : JSON → Bool × Walk
  | .object fields => readFields arn w fields
  | .string val =>
    let w1 : Walk := ⟨visitString arn w.Values key val, w.Error⟩
    (w1.Error.isNone, w1)
  | .array elems =>
    if key = "tags" then
      let w1 := visitTags w elems
      (w1.Error.isNone, w1)
    else if key = "ipv6Addresses" then
      let w1 := visitIPv6 w elems
      (w1.Error.isNone, w1)
    else
      match readElements arn w elems with
      | (false, w1) => (false, w1)
      | (true, w1) => (w1.Error.isNone, w1)
  | .invalid text =>
    let w1 : Walk := ⟨w.Values, jsoniter.ReportError w.Error "Skip"
      ("do not know how to skip: " ++ jsoniter.firstChar (.invalid text))⟩
    (w1.Error.isNone, w1)
  | _ => (w.Error.isNone, w)

/-- The fields of an object under `iter.ReadObjectCB(js.Visit)`: `Visit` is called on each
field in turn, and the first call that returns false ends the reading with false. -/
def readFields (arn : scanARN) (w : Walk) : List (String × JSON) → Bool × Walk
  | [] => (true, w)
  | (key, v) :: rest =>
    match Visit arn w key v with
    | (false, w1) => (false, w1)
    | (true, w1) => readFields arn w1 rest

/-- The loop `for iter.ReadArray() { if !iter.ReadObjectCB(js.Visit) { return false } }`:
false when the loop was left by the `return false`. An element that is an object is read
field by field, null is passed over, any other element is the error of `ReadObjectCB`. -/
def readElements (arn : scanARN) (w : Walk) : List JSON → Bool × Walk
  | [] => (true, w)
  | .object fields :: rest =>
    match readFields arn w fields with
    | (false, w1) => (false, w1)
    | (true, w1) => readElements arn w1 rest
  | .null :: rest => readElements arn w rest
  | v :: _ =>
    (false, ⟨w.Values, jsoniter.ReportError w.Error "ReadObjectCB"
      ("expect \x7b or n, but found " ++ jsoniter.firstChar v)⟩)

end

/-- The call `iter.ReadObjectCB(js.Visit)` on the value the iterator reads next. -/
def ReadObjectCB (arn : scanARN) (w : Walk) : JSON → Bool × Walk
  | .object fields => readFields arn w fields
  | .null => (true, w)
  | v =>
    (false, ⟨w.Values, jsoniter.ReportError w.Error "ReadObjectCB"
      ("expect \x7b or n, but found " ++ jsoniter.firstChar v)⟩)

/-- The iterator of a scanner: its `Error` field. `ResetBytes` sets the input and leaves
`Error` as it is; an iterator borrowed from the pool has no error. -/
structure Iterator where
  Error : Option jsoniter.IterError
deriving DecidableEq, Repr

/-- The struct `scanJSON`: the ARN scanner, the iterator (nil after `Close`) and `Values`. -/
structure scanJSON where
  arn : scanARN
  iter : Option Iterator
  Values : List Value

/-- The function `JSONScanner`: a scanner with a borrowed iterator. -/
def JSONScanner (arn : scanARN) : scanJSON := ⟨arn, some ⟨none⟩, []⟩

namespace scanJSON

/-- The method `(*scanJSON).Close`. -/
def Close (js : scanJSON) : scanJSON := { js with iter := none, Values := [] }

/-- The method `(*scanJSON).ScanValues` on an input whose text reads as `input`: the scanner
after the call, the values returned and the error returned. -/
def ScanValues (js : scanJSON) (values : List Value) (input : JSON) :
    scanJSON × List Value × Option jsoniter.IterError :=
  let iter : Iterator :=
    match js.iter with
    | none => ⟨none⟩
    | some it => it
  let w := (ReadObjectCB js.arn ⟨values, iter.Error⟩ input).2
  match w.Error with
  | some err => ({ js with iter := some ⟨w.Error⟩, Values := w.Values }, values, some err)
  | none => ({ js with iter := some ⟨w.Error⟩, Values := [] }, w.Values, none)

end scanJSON

/-! ### The extractor of extractor.go -/

/-- Modelled from the spec: the struct `AWSPantherLog` and its `AppendAny...` methods are
missing from the sources. The log is taken as the list of the appends made on it, each kept
as the indicator value of its kind (section 3, Indicator Value) with the text appended. -/
abbrev AWSPantherLog := List Value

namespace AWSPantherLog

/-- Modelled from the spec: `AppendAnyAWSARNs`, missing from the sources, adds an AWSARN. -/
def AppendAnyAWSARNs (pl : AWSPantherLog) (v : String) : AWSPantherLog :=
  pl ++ [⟨ValueKind.KindAWSARN, v⟩]

/-- Modelled from the spec: `AppendAnyAWSAccountIds`, missing from the sources, adds an
AWSAccountID. -/
def AppendAnyAWSAccountIds (pl : AWSPantherLog) (v : String) : AWSPantherLog :=
  pl ++ [⟨ValueKind.KindAWSAccountID, v⟩]

/-- Modelled from the spec: `AppendAnyAWSInstanceIds`, missing from the sources, adds an
AWSInstanceID. -/
def AppendAnyAWSInstanceIds (pl : AWSPantherLog) (v : String) : AWSPantherLog :=
  pl ++ [⟨ValueKind.KindAWSInstanceID, v⟩]

/-- Modelled from the spec: `AppendAnyAWSTags`, missing from the sources, adds a Tag. -/
def AppendAnyAWSTags (pl : AWSPantherLog) (v : String) : AWSPantherLog :=
  pl ++ [⟨ValueKind.KindTag, v⟩]

/-- Modelled from the spec: `AppendAnyIPAddress`, missing from the sources, adds an
IPAddress. -/
def AppendAnyIPAddress (pl : AWSPantherLog) (v : String) : AWSPantherLog :=
  pl ++ [⟨ValueKind.KindIPAddress, v⟩]

/-- Modelled from the spec: `AppendAnyDomainNames`, missing from the sources, adds a
DomainName. -/
def AppendAnyDomainNames (pl : AWSPantherLog) (v : String) : AWSPantherLog :=
  pl ++ [⟨ValueKind.KindDomainName, v⟩]

end AWSPantherLog

/-- The instance-id part of the ARN branch of `Extract`, on the resource of the parsed ARN.
Lengths and indexes count characters; the outcome is that of the byte-wise source, since an
id is appended only when at least the two characters `i-` follow the last slash. -/
def extractInstanceID (pl : AWSPantherLog) (resource : String) : AWSPantherLog :=
  if strings.HasPrefix resource "instance/" then
    let slashIndex := strings.LastIndex '/' resource.data
    if slashIndex < (resource.data.length : Int) - 2 then
      let instanceID := String.mk (resource.data.drop (slashIndex + 1).toNat)
      if strings.HasPrefix instanceID "i-" then pl.AppendAnyAWSInstanceIds instanceID
      else pl
    else pl
  else pl

/-- The callback of `Extract` on the elements of a `tags` array. -/
def extractTag (pl : AWSPantherLog) (tagListValue : JSON) : AWSPantherLog :=
  let tagKey := gjson.Get (some tagListValue) "key"
  let tagValue := gjson.Get (some tagListValue) "value"
  if gjson.Exists tagKey ∧ gjson.Exists tagValue then
    pl.AppendAnyAWSTags (gjson.Str tagKey ++ ":" ++ gjson.Str tagValue)
  else pl

/-- The method `(*AWSExtractor).Extract`: the log `e.pl` after the call. -/
def AWSExtractor.Extract (pl : AWSPantherLog) (key value : gjson.Result) : AWSPantherLog :=
  if strings.HasPrefix (gjson.Str value) "arn:" then
    match arn.Parse (gjson.Str value) with
    | some parsedARN =>
      extractInstanceID
        ((pl.AppendAnyAWSARNs (gjson.Str value)).AppendAnyAWSAccountIds parsedARN.AccountID)
        parsedARN.Resource
    | none => pl
  else if gjson.Str key = "instanceId" ∨ strings.HasSuffix (gjson.Str key) "InstanceId" then
    if strings.HasPrefix (gjson.Str value) "i-" then
      pl.AppendAnyAWSInstanceIds (gjson.Str value)
    else pl
  else if gjson.Str key = "accountId" ∨ strings.HasSuffix (gjson.Str key) "AccountId" then
    pl.AppendAnyAWSAccountIds (gjson.Str value)
  else if gjson.Str key = "tags" then
    if gjson.IsArray value then (gjson.elements value).foldl extractTag pl else pl
  else if gjson.Str key = "ipv6Addresses" then
    if gjson.IsArray value then
      (gjson.elements value).foldl
        (fun acc v6ListValue => acc.AppendAnyIPAddress (gjson.Str (some v6ListValue))) pl
    else pl
  else if gjson.Str key = "publicIp" ∨ gjson.Str key = "privateIpAddress" ∨
      gjson.Str key = "ipAddressV4" then
    pl.AppendAnyIPAddress (gjson.Str value)
  else if gjson.Str key = "publicDnsName" ∨ gjson.Str key = "privateDnsName" ∨
      gjson.Str key = "domain" then
    pl.AppendAnyDomainNames (gjson.Str value)
  else pl

/-! ### The ARN scanner and the shapes of input the claims speak of -/

/-- Modelled from the spec: the method `scanARN.ScanValues`, missing from the sources,
follows rule 1 of section 4.2. The text is parsed into its parts; on success it emits an
AWSARN for the whole text, an AWSAccountID for the account segment and, only if the resource
is `instance/<id>` with `<id>` beginning with `i-`, an AWSInstanceID for `<id>`; when the
text does not parse nothing is emitted and an error is returned. -/
def specScanARN : scanARN where
  ScanValues := fun values input =>
    match arn.Parse input with
    | none => (values, some "arn: invalid")
    | some parsed =>
      if strings.HasPrefix parsed.Resource "instance/i-" then
        (values ++ [⟨ValueKind.KindAWSARN, input⟩, AccountID parsed.AccountID,
          InstanceID (String.mk (parsed.Resource.data.drop 9))], none)
      else (values ++ [⟨ValueKind.KindAWSARN, input⟩, AccountID parsed.AccountID], none)

/-- The key-name rules for string values of rule 2 of section 4.2 of the spec: whether a
key is one that a rule names. -/
def matchesKeyRule (key : String) : Bool :=
  key = "instanceId" || strings.HasSuffix key "InstanceId" ||
  key = "accountId" || strings.HasSuffix key "AccountId" ||
  key = "publicIp" || key = "privateIpAddress" || key = "ipAddressV4" ||
  key = "publicDnsName" || key = "privateDnsName" || key = "domain"

/-- The element `{"key": k, "value": v}` of a tags array, a field left out when it is
`none`. -/
def tagObject (k v : Option String) : JSON :=
  .object ((match k with
    | some s => [("key", JSON.string s)]
    | none => []) ++
    (match v with
    | some s => [("value", JSON.string s)]
    | none => []))

/-- The Tag that the spec gives for an element: `key:value` when both are there and not
empty. -/
def tagValue? (kv : Option String × Option String) : Option Value :=
  match kv with
  | (some k, some v) => if k ≠ "" ∧ v ≠ "" then some ⟨ValueKind.KindTag, k ++ ":" ++ v⟩ else none
  | _ => none

/-- The result of a walk with `values` put in front of the values of its state. -/
def Walk.after (values : List Value) (r : Bool × Walk) : Bool × Walk :=
  (r.1, ⟨values ++ r.2.Values, r.2.Error⟩)

end awslogs

/-! ## Package awslogs: the scanner on a text with the faults that the iterator finds -/

/-- A JSON text as the iterator reads it, with a mark at every point where the iterator
refuses the text; a mark is the error that the iterator reports there. The mark of a field
is the error reported at its name or at its colon, when the iterator does not accept them:
the callback is still called on what follows. The mark at the end of an object or of an
array is the error reported when, after the fields or elements listed, the text neither goes
on with a comma nor closes the bracket (in an object with no field: when neither a name nor
the closing brace follows the opening one); nothing more of that object or array is read.
`invalid` stands where a value is expected and the text is none: characters that begin no
JSON value, or a number, literal or string that is not made as JSON requires. The iterator
is lenient in places, and a text that it does not refuse is here as the values that it
reads: after a comma, `null` where the name of a field is expected is read as the empty
name. What a walk adds to `js.Values` after an error depends on the characters that follow
and is not all in the model: `ScanValues` returns none of it. -/
inductive Doc where
  | null
  | bool (b : Bool)
  | number (n : Numeral)
  | string (s : String)
  | array (elems : List Doc) (ending : Option jsoniter.IterError)
  | object (fields : List (Option jsoniter.IterError × String × Doc))
      (ending : Option jsoniter.IterError)
  | invalid (text : String)

mutual

/-- Whether the iterator refuses a text at some point: the text has a mark or an `invalid`
part. -/
def Doc.refused : Doc → Bool
  | .invalid _ => true
  | .array elems ending => ending.isSome || Doc.anyRefused elems
  | .object fields ending => ending.isSome || Doc.anyFieldRefused fields
  | _ => false

/-- Whether the iterator refuses one of the elements of an array. -/
def Doc.anyRefused : List Doc → Bool
  | [] => false
  | v :: rest => v.refused || Doc.anyRefused rest

/-- Whether the iterator refuses one of the fields of an object, at its name, at its colon
or in its value. -/
def Doc.anyFieldRefused : List (Option jsoniter.IterError × String × Doc) → Bool
  | [] => false
  | (fault, _, v) :: rest => fault.isSome || v.refused || Doc.anyFieldRefused rest

end

namespace jsoniter

/-- The constant `maxDepth` of the iterator: the number of objects and arrays that
`incrementDepth` lets be open at a time. -/
def maxDepth : Nat := 10000

/-- The report of the error of a mark, if there is one: as with `ReportError`, the first
error is kept. -/
def reportFault (err fault : Option IterError) : Option IterError :=
  match fault with
  | none => err
  | some e => ReportError err e.operation e.msg

namespace doc

/-- The first character of the text of a value, which error messages quote. -/
def firstChar : Doc → String
  | .null => "n"
  | .bool true => "t"
  | .bool false => "f"
  | .number n => if n.negative then "-" else String.mk ((Nat.toDigits 10 n.whole).take 1)
  | .string _ => "\""
  | .array _ _ => "["
  | .object _ _ => "\x7b"
  | .invalid text => String.mk (text.data.take 1)

/-- The method `Iterator.ReadString` on the next value: a string gives its text, null gives
the empty string, anything else gives the empty string and reports an error. -/
def ReadString (err : Option IterError) : Doc → String × Option IterError
  | .string s => (s, err)
  | .null => ("", err)
  | v => ("", ReportError err "ReadString" ("expects \" or n, but found " ++ firstChar v))

mutual

/-- The method `Iterator.Skip` on the next value, with the depth that the iterator has: the
error of the iterator after the call. An object is read with `ReadObjectCB` and an array
with `ReadArrayCB`, each after `incrementDepth`, with a callback that skips the value and
returns true; every refusal on the way is reported, and the first error is kept. -/
def Skip (depth : Nat) (err : Option IterError) : Doc → Option IterError
  | .object fields ending =>
    if depth < maxDepth then skipFields (depth + 1) err fields ending
    else ReportError err "incrementDepth" "exceeds max depth"
  | .array elems ending =>
    if depth < maxDepth then skipElements (depth + 1) err elems ending
    else ReportError err "incrementDepth" "exceeds max depth"
  | .invalid text =>
    ReportError err "Skip" ("do not know how to skip: " ++ firstChar (.invalid text))
  | _ => err

/-- The fields of an object under `Skip`. -/
def skipFields (depth : Nat) (err : Option IterError) :
    List (Option IterError × String × Doc) → Option IterError → Option IterError
  | [], ending => reportFault err ending
  | (fault, _, v) :: rest, ending =>
    skipFields depth (Skip depth (reportFault err fault) v) rest ending

/-- The elements of an array under `Skip`. -/
def skipElements (depth : Nat) (err : Option IterError) :
    List Doc → Option IterError → Option IterError
  | [], ending => reportFault err ending
  | v :: rest, ending => skipElements depth (Skip depth err v) rest ending

end

end doc

end jsoniter

namespace awslogs

open pantherlog

namespace doc

/-- The fields of an object read into a `tagListEntry`, after `incrementDepth`: `key` and
`value` (matched without regard to ASCII case) are read with `ReadString`, every other field
is skipped. Reading stops at the first error; the fields set until then are kept. -/
def readTagFields (depth : Nat) (tag : tagListEntry) :
    List (Option jsoniter.IterError × String × Doc) → Option jsoniter.IterError →
      tagListEntry × Option jsoniter.IterError
  | [], ending => (tag, ending)
  | (some e, _, _) :: _, _ => (tag, some e)
  | (none, name, v) :: rest, ending =>
    if jsoniter.lowerASCII name = "key" then
      match jsoniter.doc.ReadString none v with
      | (s, none) => readTagFields depth { tag with Key := s } rest ending
      | (s, some e) => ({ tag with Key := s }, some e)
    else if jsoniter.lowerASCII name = "value" then
      match jsoniter.doc.ReadString none v with
      | (s, none) => readTagFields depth { tag with Value := s } rest ending
      | (s, some e) => ({ tag with Value := s }, some e)
    else
      match jsoniter.doc.Skip depth none v with
      | none => readTagFields depth tag rest ending
      | some e => (tag, some e)

/-- The call `iter.ReadVal(&tag)` on a zero `tagListEntry`, with the depth that the iterator
has: null and the empty object leave the fields empty, any other object fills them after
`incrementDepth`, any other value is an error. -/
def ReadVal (depth : Nat) (v : Doc) : tagListEntry × Option jsoniter.IterError :=
  match v with
  | .object [] none => (⟨"", ""⟩, none)
  | .object fields ending =>
    if depth < jsoniter.maxDepth then readTagFields (depth + 1) ⟨"", ""⟩ fields ending
    else (⟨"", ""⟩, some ⟨"incrementDepth", "exceeds max depth"⟩)
  | .null => (⟨"", ""⟩, none)
  | v =>
    (⟨"", ""⟩,
      some ⟨"readObjectStart", "expect \x7b or n, but found " ++ jsoniter.doc.firstChar v⟩)

/-- The loop of `Visit` over a `tags` array: `ReadArray` opens no level of depth. -/
def visitTags (depth : Nat) (w : Walk) : List Doc → Option jsoniter.IterError → Walk
  | [], ending => ⟨w.Values, jsoniter.reportFault w.Error ending⟩
  | elem :: rest, ending =>
    match w.Error with
    | some _ => w
    | none =>
      let tag := (ReadVal depth elem).1
      let values :=
        if tag.Value ≠ "" ∧ tag.Key ≠ "" then
          w.Values ++ [⟨ValueKind.KindTag, tag.Key ++ ":" ++ tag.Value⟩]
        else w.Values
      visitTags depth ⟨values, (ReadVal depth elem).2⟩ rest ending

/-- The loop of `Visit` over an `ipv6Addresses` array. -/
def visitIPv6 (w : Walk) : List Doc → Option jsoniter.IterError → Walk
  | [], ending => ⟨w.Values, jsoniter.reportFault w.Error ending⟩
  | elem :: rest, ending =>
    match w.Error with
    | some _ => w
    | none =>
      let addr := jsoniter.doc.ReadString w.Error elem
      visitIPv6 ⟨w.Values ++ [IPAddress addr.1], addr.2⟩ rest ending

mutual

/-- The method `(*scanJSON).Visit`, called with the key of a field on the value that
follows it, with the depth that the iterator has: the flag returned and the state after the
call. An object is read with `ReadObjectCB`, which calls `incrementDepth` first and returns
false when the depth exceeds `maxDepth`. -/
def Visit (arn : scanARN) (depth : Nat) (w : Walk) (key : String) : Doc → Bool × Walk
  | .object fields ending =>
    if depth < jsoniter.maxDepth then readFields arn (depth + 1) w fields ending
    else
      (false, ⟨w.Values, jsoniter.ReportError w.Error "incrementDepth" "exceeds max depth"⟩)
  | .string val =>
    let w1 : Walk := ⟨visitString arn w.Values key val, w.Error⟩
    (w1.Error.isNone, w1)
  | .array elems ending =>
    if key = "tags" then
      let w1 := visitTags depth w elems ending
      (w1.Error.isNone, w1)
    else if key = "ipv6Addresses" then
      let w1 := visitIPv6 w elems ending
      (w1.Error.isNone, w1)
    else
      match readElements arn depth w elems ending with
      | (false, w1) => (false, w1)
      | (true, w1) => (w1.Error.isNone, w1)
  | .invalid text =>
    let w1 : Walk := ⟨w.Values, jsoniter.ReportError w.Error "Skip"
      ("do not know how to skip: " ++ jsoniter.doc.firstChar (.invalid text))⟩
    (w1.Error.isNone, w1)
  | _ => (w.Error.isNone, w)

/-- The fields of an object under `iter.ReadObjectCB(js.Visit)`, after `incrementDepth`: the
error at the name or colon of a field is reported and `Visit` is called on the field all the
same; the first call that returns false ends the reading with false, and so does the error
at the end of the object. -/
def readFields (arn : scanARN) (depth : Nat) (w : Walk) :
    List (Option jsoniter.IterError × String × Doc) → Option jsoniter.IterError → Bool × Walk
  | [], none => (true, w)
  | [], some e => (false, ⟨w.Values, jsoniter.reportFault w.Error (some e)⟩)
  | (fault, key, v) :: rest, ending =>
    match Visit arn depth ⟨w.Values, jsoniter.reportFault w.Error fault⟩ key v with
    | (false, w1) => (false, w1)
    | (true, w1) => readFields arn depth w1 rest ending

/-- The loop `for iter.ReadArray() { if !iter.ReadObjectCB(js.Visit) { return false } }`:
false when the loop was left by the `return false`. An element that is an object is read
field by field after `incrementDepth`, null is passed over, any other element is the error
of `ReadObjectCB`; the error at the end of the array is reported by `ReadArray`, which ends
the loop. -/
def readElements (arn : scanARN) (depth : Nat) (w : Walk) :
    List Doc → Option jsoniter.IterError → Bool × Walk
  | [], ending => (true, ⟨w.Values, jsoniter.reportFault w.Error ending⟩)
  | .object fields oending :: rest, ending =>
    if depth < jsoniter.maxDepth then
      match readFields arn (depth + 1) w fields oending with
      | (false, w1) => (false, w1)
      | (true, w1) => readElements arn depth w1 rest ending
    else
      (false, ⟨w.Values, jsoniter.ReportError w.Error "incrementDepth" "exceeds max depth"⟩)
  | .null :: rest, ending => readElements arn depth w rest ending
  | v :: _, _ =>
    (false, ⟨w.Values, jsoniter.ReportError w.Error "ReadObjectCB"
      ("expect \x7b or n, but found " ++ jsoniter.doc.firstChar v)⟩)

end

/-- The call `iter.ReadObjectCB(js.Visit)` on the value the iterator reads next, with the
depth that the iterator has. -/
def ReadObjectCB (arn : scanARN) (depth : Nat) (w : Walk) : Doc → Bool × Walk
  | .object fields ending =>
    if depth < jsoniter.maxDepth then readFields arn (depth + 1) w fields ending
    else
      (false, ⟨w.Values, jsoniter.ReportError w.Error "incrementDepth" "exceeds max depth"⟩)
  | .null => (true, w)
  | v =>
    (false, ⟨w.Values, jsoniter.ReportError w.Error "ReadObjectCB"
      ("expect \x7b or n, but found " ++ jsoniter.doc.firstChar v)⟩)

end doc

/-- The method `(*scanJSON).ScanValues` on an input that the iterator reads as `input`: the
scanner after the call, the values returned and the error returned. `ResetBytes` and
`BorrowIterator` set the depth of the iterator to zero and leave its `Error` as it is. -/
def scanJSON.ScanDoc (js : scanJSON) (values : List Value) (input : Doc) :
    scanJSON × List Value × Option jsoniter.IterError :=
  let iter : Iterator :=
    match js.iter with
    | none => ⟨none⟩
    | some it => it
  let w := (doc.ReadObjectCB js.arn 0 ⟨values, iter.Error⟩ input).2
  match w.Error with
  | some err => ({ js with iter := some ⟨w.Error⟩, Values := w.Values }, values, some err)
  | none => ({ js with iter := some ⟨w.Error⟩, Values := [] }, w.Values, none)

/-- One object around a value: the fields before the field that holds the value, the key of
that field, and the fields after it. -/
structure Level where
  before : List (Option jsoniter.IterError × String × Doc)
  key : String
  after : List (Option jsoniter.IterError × String × Doc)

/-- The value `v` inside one object for each level of the list, the first level outermost. -/
def nestIn : List Level → Doc → Doc
  | [], v => v
  | l :: ls, v => .object (l.before ++ [(none, l.key, nestIn ls v)] ++ l.after) none

/-- What the fields of an object yield when they are scanned by themselves at a depth, on
an iterator with no error: the values added, or nothing when the scan ends in an error. -/
def fieldsYield (arn : scanARN) (depth : Nat)
    (fields : List (Option jsoniter.IterError × String × Doc)) : Option (List Value) :=
  match doc.readFields arn depth ⟨[], none⟩ fields none with
  | (true, ⟨values, none⟩) => some values
  | _ => none

/-- What the fields around a nested value yield, each level scanned at its depth: the
values of the fields before the value, from the outermost level inwards, and the values of
the fields after it, from the innermost level outwards; nothing when one of them ends in an
error. The fields of the first level are read at depth `depth + 1`. -/
def levelsYield (arn : scanARN) (depth : Nat) : List Level → Option (List Value × List Value)
  | [] => some ([], [])
  | l :: ls =>
    match fieldsYield arn (depth + 1) l.before, levelsYield arn (depth + 1) ls,
        fieldsYield arn (depth + 1) l.after with
    | some pre, some (pres, posts), some post => some (pre ++ pres, posts ++ post)
    | _, _, _ => none

end awslogs

/-! ### The two models of the scanner side by side -/

mutual

/-- A decoded text as a text with no mark: the iterator refuses it at its `invalid` parts
only. -/
def JSON.toDoc : JSON → Doc
  | .null => .null
  | .bool b => .bool b
  | .number n => .number n
  | .string s => .string s
  | .array elems => .array (JSON.toDocs elems) none
  | .object fields => .object (JSON.toFields fields) none
  | .invalid text => .invalid text

/-- The elements of an array as texts with no mark. -/
def JSON.toDocs : List JSON → List Doc
  | [] => []
  | v :: rest => v.toDoc :: JSON.toDocs rest

/-- The fields of an object as fields with no mark. -/
def JSON.toFields : List (String × JSON) → List (Option jsoniter.IterError × String × Doc)
  | [] => []
  | (key, v) :: rest => (none, key, v.toDoc) :: JSON.toFields rest

end

mutual

/-- The number of objects and arrays that are open at the deepest point of a value. -/
def JSON.height : JSON → Nat
  | .array elems => JSON.heights elems + 1
  | .object fields => JSON.fieldHeights fields + 1
  | _ => 0

/-- The greatest height of the elements of an array. -/
def JSON.heights : List JSON → Nat
  | [] => 0
  | v :: rest => max v.height (JSON.heights rest)

/-- The greatest height of the values of the fields of an object. -/
def JSON.fieldHeights : List (String × JSON) → Nat
  | [] => 0
  | (_, v) :: rest => max v.height (JSON.fieldHeights rest)

end

/-! ## Package apachelogs: access_combined.go -/

namespace strings

/-- The function `strings.Join`. -/
def Join (elems : List String) (sep : String) : String :=
  match elems with
  | [] => ""
  | first :: rest => rest.foldl (fun b s => b ++ sep ++ s) first

end strings

namespace regexp

/-- The class `\s` of Go regular expressions: tab, line feed, form feed, carriage return
and space. -/
def isSpace (c : Char) : Bool :=
  c = '\t' || c = '\n' || c = '\x0c' || c = '\r' || c = ' '

/-- The class `\d` of Go regular expressions. -/
def isDigit (c : Char) : Bool := '0' ≤ c && c ≤ '9'

/-- A piece of a sub-pattern: one character, a class repeated one or more times, or a class
repeated a fixed number of times. -/
inductive Atom where
  | char (c : Char)
  | plus (cls : Char → Bool)
  | times (cls : Char → Bool) (n : Nat)

/-- The match of one piece at the start of a text: what it matched and the rest. A repeated
class takes the longest run. In the patterns of this file whatever follows a repeated class
cannot begin with a character of the class, so the longest run is the only run with which
the whole pattern can match. -/
def Atom.match? : Atom → List Char → Option (List Char × List Char)
  | .char _, [] => none
  | .char c, x :: rest => if x = c then some ([x], rest) else none
  | .plus cls, s =>
    if (s.takeWhile cls).isEmpty then none else some (s.takeWhile cls, s.dropWhile cls)
  | .times cls n, s =>
    if (s.take n).length = n ∧ (s.take n).all cls = true then some (s.take n, s.drop n)
    else none

/-- The match of a sequence of pieces at the start of a text. -/
def matchSeq : List Atom → List Char → Option (List Char × List Char)
  | [], s => some ([], s)
  | a :: rest, s =>
    match a.match? s with
    | none => none
    | some (m1, s1) =>
      match matchSeq rest s1 with
      | none => none
      | some (m2, s2) => some (m1 ++ m2, s2)

/-- The match of a sub-pattern given by its alternatives, the first that matches winning.
In the patterns of this file the alternatives of a group begin with different characters. -/
def matchAlt : List (List Atom) → List Char → Option (List Char × List Char)
  | [], _ => none
  | alt :: alts, s =>
    match matchSeq alt s with
    | some r => some r
    | none => matchAlt alts s

/-- A compiled pattern of the form that `buildRx` gives: `^\s*(g1)\s+(g2)...\s+(gn)\s*$`,
kept as the list of its groups. -/
structure Regexp where
  groups : List (List (List Atom))

/-- The captures of the groups on a text from which leading white space was taken. -/
def matchGroups : List (List (List Atom)) → List Char → Option (List String)
  | [], s => if (s.dropWhile isSpace).isEmpty then some [] else none
  | [g], s =>
    match matchAlt g s with
    | none => none
    | some (cap, rest) =>
      if (rest.dropWhile isSpace).isEmpty then some [String.mk cap] else none
  | g :: g2 :: gs, s =>
    match matchAlt g s with
    | none => none
    | some (cap, rest) =>
      if (rest.takeWhile isSpace).isEmpty then none
      else
        match matchGroups (g2 :: gs) (rest.dropWhile isSpace) with
        | none => none
        | some caps => some (String.mk cap :: caps)

/-- The method `(*Regexp).FindStringSubmatch`: nil when the text does not match, else the
whole match (the whole text, the pattern being anchored at both ends) and the captures. -/
def Regexp.FindStringSubmatch (re : Regexp) (s : String) : List String :=
  match matchGroups re.groups (s.data.dropWhile isSpace) with
  | none => []
  | some caps => s :: caps

end regexp

/-! ## Package parsers: events -/

/-- An instant in UTC, by its civil fields. -/
structure Time where
  year : Nat
  month : Nat
  day : Nat
  hour : Nat
  minute : Nat
  second : Nat
deriving DecidableEq, Repr

/-- The decimal digits of a number in a field of the given width. -/
def decimal (width n : Nat) : List Char :=
  (List.range width).reverse.map fun i => Char.ofNat (48 + n / 10 ^ i % 10)

/-- The RFC 3339 text of an instant in UTC. -/
def Time.RFC3339 (t : Time) : String :=
  String.mk (decimal 4 t.year ++ '-' :: decimal 2 t.month ++ '-' :: decimal 2 t.day ++
    'T' :: decimal 2 t.hour ++ ':' :: decimal 2 t.minute ++ ':' :: decimal 2 t.second ++ ['Z'])

namespace parsers

open pantherlog

/-- Modelled from the spec: the adding of a value to the values of an event, which the
missing `Add`, `Extend` and `AppendAny...` functions share: a value with empty data is
dropped, a value already there is not added again (sections 3 and 4.1). -/
def addValue (values : List Value) (v : Value) : List Value :=
  if v.Data = "" ∨ v ∈ values then values else values ++ [v]

/-- Modelled from the spec: the struct `parsers.PantherLog`, missing from the sources: the
log type, the event time and the indicator values of an event (section 3, Event). -/
structure PantherLog where
  LogType : Option String
  EventTime : Option Time
  Values : List Value
deriving DecidableEq, Repr

namespace PantherLog

/-- Modelled from the spec: `SetCoreFields`, missing from the sources, sets the log type and
the event time (section 3, Event). -/
def SetCoreFields (p : PantherLog) (logType : String) (eventTime : Option Time) : PantherLog :=
  { p with LogType := some logType, EventTime := eventTime }

/-- Modelled from the spec: `AppendAnyIPAddressPtr`, missing from the sources: the value is
tested as an IP address (section 4.4), `isIP` being the test of the library; it is added and
true is returned when it is one, and nothing is added for a nil pointer. -/
def AppendAnyIPAddressPtr (isIP : String → Bool) (p : PantherLog) (value : Option String) :
    PantherLog × Bool :=
  match value with
  | none => (p, false)
  | some v =>
    if isIP v then ({ p with Values := addValue p.Values (IPAddress v) }, true)
    else (p, false)

/-- Modelled from the spec: `AppendAnyDomainNamePtrs`, missing from the sources, adds each
value that is not nil as a domain name (section 4.1). -/
def AppendAnyDomainNamePtrs (p : PantherLog) (values : List (Option String)) : PantherLog :=
  { p with Values := values.foldl (fun acc value =>
      match value with
      | none => acc
      | some v => addValue acc (DomainName v)) p.Values }

end PantherLog

end parsers

namespace apachelogs

open pantherlog

/-- The constant `TypeAccessCombined`. -/
def TypeAccessCombined : String := "Apache.AccessCombined"

/-- The constant `rxUnquoted`. -/
def rxUnquoted : String := "[^\\s]+"

/-- The constant `rxBrackets`. -/
def rxBrackets : String := "\\[[^\\]]+\\]"

/-- The constant `rxQuoted`. -/
def rxQuoted : String := "\"[^\"]+\""

/-- The constant `rxStatusCode`. -/
def rxStatusCode : String := "\\d\x7b3\x7d"

/-- The constant `rxSize`. -/
def rxSize : String := "-|\\d+"

/-- The function `buildRx`. -/
def buildRx (rxFields : List String) : String :=
  let groups := rxFields.map fun field => "(" ++ field ++ ")"
  "^\\s*" ++ strings.Join groups "\\s+" ++ "\\s*$"

/-- The groups of the claim on `buildRx`, after the words of the spec: each sub-pattern in
its own parentheses, in the given order, joined by `\s+`. -/
def joinedGroups : List String → String
  | [] => ""
  | [f] => "(" ++ f ++ ")"
  | f :: g :: rest => "(" ++ f ++ ")" ++ "\\s+" ++ joinedGroups (g :: rest)

/-- The pattern of the claim on `buildRx`, after the words of the spec: the joined groups,
anchored at both ends. -/
def anchoredPattern (fields : List String) : String :=
  "^\\s*" ++ joinedGroups fields ++ "\\s*$"

/-- The alternatives that Go's `regexp/syntax` reads from each of the five sub-patterns of
the file. Any other sub-pattern is outside the model and is given no alternative. -/
def subPattern (src : String) : List (List regexp.Atom) :=
  if src = rxUnquoted then [[.plus fun c => !regexp.isSpace c]]
  else if src = rxBrackets then [[.char '[', .plus fun c => c ≠ ']', .char ']']]
  else if src = rxQuoted then [[.char '\"', .plus fun c => c ≠ '\"', .char '\"']]
  else if src = rxStatusCode then [[.times regexp.isDigit 3]]
  else if src = rxSize then [[.char '-'], [.plus regexp.isDigit]]
  else []

/-- The call `regexp.MustCompile(buildRx(rxFields...))`, for sub-patterns among the five of
the file. -/
def compileFields (rxFields : List String) : regexp.Regexp :=
  ⟨rxFields.map subPattern⟩

/-- The variable `rxAccessCombined`. -/
def rxAccessCombined : regexp.Regexp :=
  compileFields [rxUnquoted, rxUnquoted, rxUnquoted, rxBrackets, rxQuoted, rxStatusCode,
    rxSize, rxQuoted, rxQuoted]

/-- The constant `numFieldsAccessCombined`. -/
def numFieldsAccessCombined : Nat := 9

/-- The constant `numFieldsAccessCommon`, whose declaration is missing from the sources:
the fields before the referer, which `SetRow` has at index 7. -/
def numFieldsAccessCommon : Nat := 7

/-- The decimal digit of a character, if it is one. -/
def digit? (c : Char) : Option Nat :=
  if regexp.isDigit c then some (c.toNat - 48) else none

/-- The number written by a list of decimal digits. -/
def number? (cs : List Char) : Option Nat :=
  cs.foldl (fun acc c =>
    match acc, digit? c with
    | some n, some d => some (10 * n + d)
    | _, _ => none) (some 0)

/-- The number of a month from its English three-letter name. -/
def month? (name : String) : Option Nat :=
  (["Jan", "Feb", "Mar", "Apr", "May", "Jun", "Jul", "Aug", "Sep", "Oct", "Nov",
    "Dec"].indexOf? name).map (· + 1)

/-- The number of days of a month. -/
def daysIn (year month : Nat) : Nat :=
  if month = 2 then
    if year % 4 = 0 ∧ (year % 100 ≠ 0 ∨ year % 400 = 0) then 29 else 28
  else if month = 4 ∨ month = 6 ∨ month = 9 ∨ month = 11 then 30
  else 31

/-- The days from 1 March of the year 0 to a day of the civil calendar, for a year from 1
on. -/
def daysFromCivil (year month day : Nat) : Nat :=
  let y := if month ≤ 2 then year - 1 else year
  let mp := if month ≤ 2 then month + 9 else month - 3
  y / 400 * 146097 + (y % 400 * 365 + y % 400 / 4 - y % 400 / 100) + (153 * mp + 2) / 5 +
    day - 1

/-- The year, month and day of the civil calendar that lie a number of days after 1 March of
the year 0. -/
def civilFromDays (n : Nat) : Nat × Nat × Nat :=
  let doe := n % 146097
  let yoe := (doe - doe / 1460 + doe / 36524 - doe / 146096) / 365
  let doy := doe - (365 * yoe + yoe / 4 - yoe / 100)
  let mp := (5 * doy + 2) / 153
  let month := if mp < 10 then mp + 3 else mp - 9
  let y := yoe + n / 146097 * 400
  (if month ≤ 2 then y + 1 else y, month, doy - (153 * mp + 2) / 5 + 1)

/-- The instant in UTC of a civil time of a zone whose offset from UTC is `offset` seconds,
to the east when `east` holds and to the west otherwise. -/
def toUTC (t : Time) (east : Bool) (offset : Nat) : Option Time :=
  let civil := daysFromCivil t.year t.month t.day * 86400 + t.hour * 3600 + t.minute * 60 +
    t.second
  if t.year = 0 ∨ (east = true ∧ civil < offset) then none
  else
    let utc := if east then civil - offset else civil + offset
    let date := civilFromDays (utc / 86400)
    some ⟨date.1, date.2.1, date.2.2, utc % 86400 / 3600, utc % 3600 / 60, utc % 60⟩

/-- The civil time written by the digits and the month name of a request time, when they
give a day and a time that exist. -/
def civilTime? (d1 d2 m1 m2 m3 y1 y2 y3 y4 h1 h2 n1 n2 s1 s2 : Char) : Option Time :=
  match number? [d1, d2], month? (String.mk [m1, m2, m3]), number? [y1, y2, y3, y4],
    number? [h1, h2], number? [n1, n2], number? [s1, s2] with
  | some day, some month, some year, some hour, some minute, some second =>
    if 1 ≤ day ∧ day ≤ daysIn year month ∧ hour < 24 ∧ minute < 60 ∧ second < 60 then
      some ⟨year, month, day, hour, minute, second⟩
    else none
  | _, _, _, _, _, _ => none

/-- Modelled from the spec: the decoder of the request time, missing from the sources with
`AccessCommonLog`. The declared format is the bracketed timestamp of the `%t` of Apache that
the source names in its comment on the log format, `[10/Oct/2000:13:55:36 -0700]`, which is
normalised to UTC (section 3), and that timestamp without its zone, as in the scenario of
section 8, `[10/Oct/2020:13:55:36]`, which is read as UTC. A field that is not such a
timestamp of a day and a time that exist does not decode (section 4.3, failure d). -/
def parseRequestTime (field : String) : Option Time :=
  match field.data with
  | [c0, d1, d2, c3, m1, m2, m3, c7, y1, y2, y3, y4, c12, h1, h2, c15, n1, n2, c18, s1, s2,
      c21] =>
    if c0 = '[' ∧ c3 = '/' ∧ c7 = '/' ∧ c12 = ':' ∧ c15 = ':' ∧ c18 = ':' ∧ c21 = ']' then
      civilTime? d1 d2 m1 m2 m3 y1 y2 y3 y4 h1 h2 n1 n2 s1 s2
    else none
  | [c0, d1, d2, c3, m1, m2, m3, c7, y1, y2, y3, y4, c12, h1, h2, c15, n1, n2, c18, s1, s2,
      c21, sign, z1, z2, z3, z4, c27] =>
    if c0 = '[' ∧ c3 = '/' ∧ c7 = '/' ∧ c12 = ':' ∧ c15 = ':' ∧ c18 = ':' ∧ c21 = ' ' ∧
        (sign = '+' ∨ sign = '-') ∧ c27 = ']' then
      match civilTime? d1 d2 m1 m2 m3 y1 y2 y3 y4 h1 h2 n1 n2 s1 s2, number? [z1, z2],
        number? [z3, z4] with
      | some t, some zh, some zm =>
        if zh < 24 ∧ zm < 60 then toUTC t (sign = '+') (zh * 3600 + zm * 60) else none
      | _, _, _ => none
    else none
  | _ => none

/-- Modelled from the spec: `stripQuotes`, missing from the sources: quoted fields have
their surrounding quotes stripped (section 4.4). -/
def stripQuotes (s : String) : String :=
  match s.data with
  | '\"' :: rest =>
    match rest.reverse with
    | '\"' :: inner => String.mk inner.reverse
    | _ => s
  | _ => s

/-- Modelled from the spec: `nonEmptyLogField`, missing from the sources: an empty field and
the dash placeholder are absent, not an empty string (section 4.4). -/
def nonEmptyLogField (s : String) : Option String :=
  if s = "" ∨ s = "-" then none else some s

/-- Modelled from the spec: the struct `AccessCommonLog`, missing from the sources, with one
named field for each of the seven first groups of the pattern (section 4.4). -/
structure AccessCommonLog where
  RemoteHostIPAddress : Option String
  ClientID : Option String
  UserID : Option String
  RequestTime : Option Time
  RequestLine : Option String
  ResponseStatus : Option String
  ResponseSize : Option String
deriving DecidableEq, Repr

/-- Modelled from the spec: the method `(*AccessCommonLog).SetRow`, missing from the
sources. A row of another length than seven is a hard failure; each field is assigned by
position, quotes stripped and placeholders absent (section 4.4); a request time that does
not decode is a parse failure (sections 3 and 4.3). On failure the record is as it was. -/
def AccessCommonLog.SetRow (log : AccessCommonLog) (row : List String) :
    AccessCommonLog × Option Fmt :=
  match row with
  | [host, client, user, tm, request, status, size] =>
    match parseRequestTime tm with
    | none => (log, some ⟨"invalid request time %q", [tm]⟩)
    | some t =>
      (⟨nonEmptyLogField host, nonEmptyLogField client, nonEmptyLogField user, some t,
        nonEmptyLogField (stripQuotes request), nonEmptyLogField status,
        nonEmptyLogField size⟩, none)
  | _ => (log, some ⟨"invalid number of fields %d", [toString row.length]⟩)

/-- The struct `AccessCombinedLog`. -/
structure AccessCombinedLog where
  AccessCommonLog : AccessCommonLog
  UserAgent : Option String
  Referer : Option String
deriving DecidableEq, Repr

/-- The method `(*AccessCombinedLog).SetRow`: the record after the call and the error. -/
def AccessCombinedLog.SetRow (log : AccessCombinedLog) (row : List String) :
    AccessCombinedLog × Option Fmt :=
  if row.length = numFieldsAccessCombined then
    let common := row.take numFieldsAccessCommon
    let ref := row.getD 7 ""
    let ua := row.getD 8 ""
    match log.AccessCommonLog.SetRow common with
    | (c, some err) => ({ log with AccessCommonLog := c }, some err)
    | (c, none) =>
      (⟨c, nonEmptyLogField (stripQuotes ua), nonEmptyLogField (stripQuotes ref)⟩, none)
  else (log, some ⟨"invalid number of fields %d", [toString row.length]⟩)

/-- The method `(*AccessCombinedLog).ParseString`. -/
def AccessCombinedLog.ParseString (log : AccessCombinedLog) (s : String) :
    AccessCombinedLog × Option Fmt :=
  let found := rxAccessCombined.FindStringSubmatch s
  if found.length > 1 then log.SetRow (found.drop 1)
  else (log, some ⟨"invalid access combined log", []⟩)

/-- The struct `AccessCombined`. -/
structure AccessCombined where
  AccessCombinedLog : AccessCombinedLog
  PantherLog : parsers.PantherLog
deriving DecidableEq, Repr

/-- The zero value `AccessCombined{}`. -/
def AccessCombined.zero : AccessCombined :=
  ⟨⟨⟨none, none, none, none, none, none, none⟩, none, none⟩, ⟨none, none, []⟩⟩

/-- The method `(*AccessCombined).updatePantherFields`: the log `p` after the call. -/
def AccessCombined.updatePantherFields (isIP : String → Bool) (event : AccessCombined)
    (p : parsers.PantherLog) : parsers.PantherLog :=
  let p1 := p.SetCoreFields TypeAccessCombined event.AccessCombinedLog.AccessCommonLog.RequestTime
  match p1.AppendAnyIPAddressPtr isIP
    event.AccessCombinedLog.AccessCommonLog.RemoteHostIPAddress with
  | (p2, true) => p2
  | (p2, false) =>
    p2.AppendAnyDomainNamePtrs [event.AccessCombinedLog.AccessCommonLog.RemoteHostIPAddress]

/-- Modelled from the spec: the method `Logs`, missing from the sources, gives the one event
of the record (section 4.3). -/
def AccessCombined.Logs (event : AccessCombined) : List parsers.PantherLog :=
  [event.PantherLog]

/-- The struct `AccessCombinedParser`, which has no field. -/
structure AccessCombinedParser where
deriving DecidableEq, Repr

/-- The method `(*AccessCombinedParser).LogType`. -/
def AccessCombinedParser.LogType (_p : AccessCombinedParser) : String := TypeAccessCombined

/-- The method `(*AccessCombinedParser).Parse`: the events and the error returned. -/
def AccessCombinedParser.Parse (isIP : String → Bool) (_p : AccessCombinedParser)
    (log : String) : List parsers.PantherLog × Option Fmt :=
  let combined := AccessCombined.zero
  match combined.AccessCombinedLog.ParseString log with
  | (_, some err) => ([], some err)
  | (parsed, none) =>
    let combined1 : AccessCombined := { combined with AccessCombinedLog := parsed }
    let combined2 : AccessCombined :=
      { combined1 with PantherLog := combined1.updatePantherFields isIP combined1.PantherLog }
    (combined2.Logs, none)

end apachelogs

/-! ## Package suricatalogs: dns.go -/

namespace aws

/-- The function `aws.StringValue` of the AWS SDK: the string pointed to, empty for nil. -/
def StringValue (p : Option String) : String :=
  match p with
  | none => ""
  | some s => s

end aws

namespace parsers

open pantherlog

/-- Modelled from the spec: the struct `parsers.PantherEvent`, missing from the sources: the
log type, the timestamp and the indicator values of an event (section 3, Event). -/
structure PantherEvent where
  LogType : String
  Timestamp : Option Time
  Values : List Value
deriving DecidableEq, Repr

/-- Modelled from the spec: `Event.Extend`, missing from the sources, merges the values into
the event: an absent value is a no-op, a value with empty data is dropped, and a value the
event holds is not added again (section 4.1). -/
def PantherEvent.Extend (e : PantherEvent) (values : List (Option Value)) : PantherEvent :=
  { e with Values := values.foldl (fun acc value =>
      match value with
      | none => acc
      | some v => addValue acc v) e.Values }

/-- Modelled from the spec: `Event.Insert`, missing from the sources and not named by the
spec, is taken as the adding of values of section 4.1, as `Extend`. -/
def PantherEvent.Insert (e : PantherEvent) (values : List (Option Value)) : PantherEvent :=
  e.Extend values

/-- Modelled from the spec: `parsers.NewEvent`, missing from the sources: an event of the
log type and timestamp with the values added (sections 3 and 4.1). -/
def NewEvent (logType : String) (tm : Option Time) (values : List (Option Value)) :
    PantherEvent :=
  (⟨logType, tm, []⟩ : PantherEvent).Extend values

/-- Modelled from the spec: `parsers.IPAddressP`, missing from the sources: the IPAddress
value of the string pointed to, absent for nil (section 4.1). -/
def IPAddressP (p : Option String) : Option Value := p.map pantherlog.IPAddress

/-- Modelled from the spec: `parsers.DomainNameP`, missing from the sources: the DomainName
value of the string pointed to, absent for nil (section 4.1). -/
def DomainNameP (p : Option String) : Option Value := p.map pantherlog.DomainName

/-- Modelled from the spec: `parsers.IPAddress`, missing from the sources (section 4.1). -/
def IPAddress (s : String) : Option Value := some (pantherlog.IPAddress s)

/-- Modelled from the spec: `parsers.DomainName`, missing from the sources (section 4.1). -/
def DomainName (s : String) : Option Value := some (pantherlog.DomainName s)

end parsers

namespace suricatalogs

open pantherlog

/-- The constant `TypeDNS`. -/
def TypeDNS : String := "Suricata.DNS"

/-- The struct `DNSDetailsAnswers`. -/
structure DNSDetailsAnswers where
  Rdata : Option String
  Rrname : Option String
  Rrtype : Option String
  TTL : Option Int
deriving DecidableEq, Repr

/-- The struct `DNSDetailsGrouped`. -/
structure DNSDetailsGrouped where
  A : List String
  Aaaa : List String
  Cname : List String
  Mx : List String
  Ptr : List String
  Txt : List String
deriving DecidableEq, Repr

/-- The struct `DNSDetails`, with the fields that `PantherEvent` reads. -/
structure DNSDetails where
  Answers : List DNSDetailsAnswers
  Grouped : Option DNSDetailsGrouped
  Rrname : Option String
  RData : Option String
  Rrtype : Option String
deriving DecidableEq, Repr

set_option linter.dupNamespace false in
/-- The struct `DNS`, with the fields that `PantherEvent` reads. The timestamp is kept as
the instant that its `UTC()` gives. -/
structure DNS where
  DNS : Option DNSDetails
  DestIP : Option String
  SrcIP : Option String
  Timestamp : Option Time
deriving DecidableEq, Repr

/-- The `switch` of `PantherEvent` on the type of an answer: the values it hands to `Extend`
or `Insert`. -/
def answerValues (answer : DNSDetailsAnswers) : List (Option Value) :=
  if aws.StringValue answer.Rrtype = "A" ∨ aws.StringValue answer.Rrtype = "AAAA" then
    [parsers.IPAddressP answer.Rdata, parsers.DomainNameP answer.Rrname]
  else if aws.StringValue answer.Rrtype = "CNAME" ∨ aws.StringValue answer.Rrtype = "MX" then
    [parsers.DomainNameP answer.Rrname, parsers.DomainNameP answer.Rdata]
  else if aws.StringValue answer.Rrtype = "PTR" then [parsers.DomainNameP answer.Rdata]
  else if aws.StringValue answer.Rrtype = "TXT" then [parsers.DomainNameP answer.Rrname]
  else []

/-- The part of `PantherEvent` on the grouped answers. -/
def groupedValues (e : parsers.PantherEvent) (grouped : DNSDetailsGrouped) :
    parsers.PantherEvent :=
  let e1 := grouped.A.foldl (fun acc aRecord => acc.Insert [parsers.IPAddress aRecord]) e
  let e2 := grouped.Aaaa.foldl
    (fun acc aaaaRecord => acc.Insert [parsers.IPAddress aaaaRecord]) e1
  let e3 := grouped.Cname.foldl
    (fun acc cNameRecord => acc.Insert [parsers.DomainName cNameRecord]) e2
  grouped.Mx.foldl (fun acc mxRecord => acc.Insert [parsers.DomainName mxRecord]) e3

/-- The method `(*DNS).PantherEvent`. -/
def DNS.PantherEvent (event : suricatalogs.DNS) : parsers.PantherEvent :=
  let e := parsers.NewEvent TypeDNS event.Timestamp
    [parsers.IPAddressP event.SrcIP, parsers.IPAddressP event.DestIP]
  match event.DNS with
  | none => e
  | some dns =>
    let e1 := e.Extend [parsers.DomainNameP dns.Rrname, parsers.IPAddressP dns.RData]
    let e2 := dns.Answers.foldl (fun acc answer => acc.Extend (answerValues answer)) e1
    match dns.Grouped with
    | none => e2
    | some grouped => groupedValues e2 grouped

end suricatalogs

/-! ## Package parsers: registration that must succeed -/

namespace parsers

variable {σ π : Type}

/-- The function `parsers.MustRegister`: the default registry after the call, and the panic
with the error of `Register` when there is one. -/
def MustRegister (codec : SchemaCodec σ) (defaultRegistry : Registry σ π)
    (entries : List (LogType σ π)) : Registry σ π × Outcome Unit :=
  match Register codec defaultRegistry entries with
  | (r, some err) => (r, .panicked err)
  | (r, none) => (r, .returned ())

end parsers

/-! ## Package apachelogs: lines given by their fields -/

namespace apachelogs

/-- The sub-pattern `g` matches the whole of the text `f`. -/
def wholeField (g : List (List regexp.Atom)) (f : String) : Bool :=
  match regexp.matchAlt g f.data with
  | some (_, rest) => rest.isEmpty
  | none => false

/-- The text `w` is white space only. -/
def isBlank (w : String) : Bool := w.data.all regexp.isSpace

/-- Each cell is a field that its sub-pattern matches whole, followed by white space of at
least one character. -/
def cellsFit : List (List (List regexp.Atom)) → List (String × String) → Bool
  | [], [] => true
  | g :: gs, (f, w) :: cells =>
    wholeField g f && !w.data.isEmpty && isBlank w && cellsFit gs cells
  | _, _ => false

/-- The text of a list of cells: each field and the white space after it, in order. -/
def cellsText : List (String × String) → String
  | [] => ""
  | (f, w) :: cells => f ++ w ++ cellsText cells

end apachelogs

/-! ## Package zeeklogs: dns.go -/

namespace logs

open pantherlog

/-- Modelled from the spec: the struct `logs.Event`, missing from the sources: the log type,
the timestamp and the indicator values of an event (section 3, Event). -/
structure Event where
  LogType : String
  Timestamp : Option Time
  Values : List Value
deriving DecidableEq, Repr

/-- Modelled from the spec: `Event.Add`, missing from the sources, merges the values into
the event: an absent value is a no-op, a value with empty data is dropped, and a value the
event holds is not added again (section 4.1). -/
def Event.Add (e : Event) (values : List (Option Value)) : Event :=
  { e with Values := values.foldl (fun acc value =>
      match value with
      | none => acc
      | some v => parsers.addValue acc v) e.Values }

/-- Modelled from the spec: `logs.NewEvent`, missing from the sources: an event of the log
type and timestamp with the values added (sections 3 and 4.1). -/
def NewEvent (logType : String) (tm : Option Time) (values : List (Option Value)) : Event :=
  (⟨logType, tm, []⟩ : Event).Add values

/-- Modelled from the spec: `logs.Hostname`, missing from the sources: the indicator value of
a host name, `hostname` being the value that the package makes of the text. -/
def Hostname (hostname : String → Value) (s : String) : Option Value := some (hostname s)

/-- Modelled from the spec: `logs.HostnameP`, missing from the sources: the host-name value
of the string pointed to, absent for nil (section 4.1). -/
def HostnameP (hostname : String → Value) (p : Option String) : Option Value :=
  p.map hostname

end logs

namespace zeeklogs

open pantherlog

/-- The constant `TypeDNS`. -/
def TypeDNS : String := "Zeek.DNS"

/-- The constant `aQueryType`. -/
def aQueryType : Nat := 1

/-- The constant `aaaaQueryType`. -/
def aaaaQueryType : Nat := 28

/-- The struct `ZeekDNS`, with the fields that `PantherEvent` reads. The timestamp is kept as
the instant that its `UTC()` gives. -/
structure ZeekDNS where
  Ts : Option Time
  IDOrigH : Option String
  IDRespH : Option String
  Query : Option String
  QType : Option Nat
  Answers : List String
deriving DecidableEq, Repr

/-- The method `(*ZeekDNS).PantherEvent`. -/
def ZeekDNS.PantherEvent (hostname : String → Value) (event : ZeekDNS) : logs.Event :=
  let e := logs.NewEvent TypeDNS event.Ts
    [logs.HostnameP hostname event.IDOrigH, logs.HostnameP hostname event.IDRespH]
  let e1 :=
    match event.QType with
    | some qtype =>
      if qtype = aQueryType ∨ qtype = aaaaQueryType then
        e.Add [logs.HostnameP hostname event.Query]
      else e
    | none => e
  event.Answers.foldl (fun acc answer => acc.Add [logs.Hostname hostname answer]) e1

end zeeklogs

/-! ## Package handlers of the analysis API: modify_global.go -/

namespace http

/-- The constant `http.StatusOK`. -/
def StatusOK : Int := 200

/-- The constant `http.StatusNotFound`. -/
def StatusNotFound : Int := 404

/-- The constant `http.StatusInternalServerError`. -/
def StatusInternalServerError : Int := 500

end http

namespace handlers

/-- The struct `events.APIGatewayProxyResponse`, by its status code and body; the fields that
`ModifyGlobal` leaves at their zero value do not appear. -/
structure APIGatewayProxyResponse where
  StatusCode : Int
  Body : String
deriving DecidableEq, Repr

/-- The struct `models.UpdateGlobal`, with the fields that `ModifyGlobal` reads. -/
structure UpdateGlobal where
  Body : String
  Description : String
  ID : String
  Tags : List String
  UserID : String
deriving DecidableEq, Repr

/-- The struct `tableItem`, with the fields that `ModifyGlobal` sets. The field `Type` is
named `ItemType` here. -/
structure tableItem where
  Body : String
  Description : String
  ID : String
  Tags : List String
  ItemType : String
deriving DecidableEq, Repr

/-- What `ModifyGlobal` uses of its package and of `gatewayapi`, none of it in the sources:
`ρ` is the type of requests, `σ` the state of the table that `writeItem` writes to, `ε` the
type of errors and `γ` the type of the global that `item.Global()` gives. `writeItem` gets
the item, the user id and the `mustExist` pointer, and returns the item as the call leaves
it, the change type and the error, with the table after the call. -/
structure Package (ρ σ ε γ : Type) where
  parseUpdateGlobal : ρ → Except ε UpdateGlobal
  badRequest : ε → APIGatewayProxyResponse
  writeItem : tableItem → String → Option Bool → σ → (tableItem × Int × Option ε) × σ
  errNotExists : ε
  errWrongType : ε
  typeGlobal : String
  Global : tableItem → γ
  MarshalResponse : γ → Int → APIGatewayProxyResponse

/-- The function `ModifyGlobal`: the response and the table after the call. -/
def ModifyGlobal {ρ σ ε γ : Type} [DecidableEq ε] (pkg : Package ρ σ ε γ) (request : ρ)
    (table : σ) : APIGatewayProxyResponse × σ :=
  match pkg.parseUpdateGlobal request with
  | .error err => (pkg.badRequest err, table)
  | .ok input =>
    let item : tableItem :=
      { Body := input.Body
        Description := input.Description
        ID := input.ID
        Tags := input.Tags
        ItemType := pkg.typeGlobal }
    match pkg.writeItem item input.UserID (some true) table with
    | ((_, _, some err), table1) =>
      if err = pkg.errNotExists ∨ err = pkg.errWrongType then
        (⟨http.StatusNotFound, ""⟩, table1)
      else (⟨http.StatusInternalServerError, ""⟩, table1)
    | ((item1, _, none), table1) =>
      (pkg.MarshalResponse (pkg.Global item1) http.StatusOK, table1)

/-- Modelled from the spec: `setDifference`, missing from the sources, of which only the
test is there: the elements of the first slice that do not occur in the second, appended in
their order to a nil result. -/
def setDifference (first second : List String) : List String :=
  first.foldl (fun result x => if x ∈ second then result else result ++ [x]) []

/-- Modelled from the spec: the order of `sortCaseInsensitive`: the lowercased strings are
compared, and the strings themselves when their lowercase forms are equal. `lower` is
`strings.ToLower`, and `<` on strings is the order by their characters, which for texts in
UTF-8 is Go's order by bytes. -/
def lessCaseInsensitive (lower : String → String) (a b : String) : Bool :=
  if lower a = lower b then decide (a < b) else decide (lower a < lower b)

/-- The insertion of a string into a sorted list, before the first string that is greater. -/
def insertCaseInsensitive (lower : String → String) (x : String) : List String → List String
  | [] => [x]
  | y :: rest =>
    if lessCaseInsensitive lower y x then y :: insertCaseInsensitive lower x rest
    else x :: y :: rest

/-- Modelled from the spec: `sortCaseInsensitive`, missing from the sources, of which only
the test is there: the slice sorted into ascending order of `lessCaseInsensitive`. The slice
after the call is returned. -/
def sortCaseInsensitive (lower : String → String) (values : List String) : List String :=
  values.foldr (insertCaseInsensitive lower) []

end handlers

/-! ## Package apachelogs: Parse with the state that the absent methods may hold -/

namespace apachelogs

/-- The methods that `Parse` calls and that the sources do not hold, taken as functions that
may read and write a state `σ` of the process (a counter of rows, a clock). `ℓ` is the type
of the struct `parsers.PantherLog` with whatever fields it has, `zero` its zero value, and
`view` gives of such a log what the spec tells of an event: the log type, the event time
and the indicator values (section 3). -/
structure Absent (σ ℓ : Type) where
  zero : ℓ
  view : ℓ → parsers.PantherLog
  SetRow : AccessCommonLog → List String → σ → (AccessCommonLog × Option Fmt) × σ
  SetCoreFields : ℓ → String → Option Time → AccessCombinedLog → σ → ℓ × σ
  AppendAnyIPAddressPtr : ℓ → Option String → σ → (ℓ × Bool) × σ
  AppendAnyDomainNamePtrs : ℓ → List (Option String) → σ → ℓ × σ
  Logs : AccessCombinedLog → ℓ → σ → List ℓ × σ

/-- The absent methods keep the state of the process out of what the spec tells of an event:
from logs with the same view and the same arguments they give, in any two states, the same
record and error, logs with the same view and the same flag. -/
def Absent.StateFree {σ ℓ : Type} (A : Absent σ ℓ) : Prop :=
  (∀ log row s1 s2, (A.SetRow log row s1).1 = (A.SetRow log row s2).1) ∧
  (∀ p1 p2 logType tm event s1 s2, A.view p1 = A.view p2 →
    A.view (A.SetCoreFields p1 logType tm event s1).1 =
      A.view (A.SetCoreFields p2 logType tm event s2).1) ∧
  (∀ p1 p2 value s1 s2, A.view p1 = A.view p2 →
    A.view (A.AppendAnyIPAddressPtr p1 value s1).1.1 =
      A.view (A.AppendAnyIPAddressPtr p2 value s2).1.1 ∧
    (A.AppendAnyIPAddressPtr p1 value s1).1.2 = (A.AppendAnyIPAddressPtr p2 value s2).1.2) ∧
  (∀ p1 p2 values s1 s2, A.view p1 = A.view p2 →
    A.view (A.AppendAnyDomainNamePtrs p1 values s1).1 =
      A.view (A.AppendAnyDomainNamePtrs p2 values s2).1) ∧
  (∀ event p1 p2 s1 s2, A.view p1 = A.view p2 →
    (A.Logs event p1 s1).1.map A.view = (A.Logs event p2 s2).1.map A.view)

/-- Modelled from the spec: the absent methods as sections 3, 4.1 and 4.4 of the spec tell
them, with no state: those of `parsers.PantherLog` above, for the IP test `isIP`. -/
def specAbsent (isIP : String → Bool) : Absent Unit parsers.PantherLog where
  zero := ⟨none, none, []⟩
  view := fun p => p
  SetRow := fun log row s => (log.SetRow row, s)
  SetCoreFields := fun p logType tm _ s => (p.SetCoreFields logType tm, s)
  AppendAnyIPAddressPtr := fun p value s => (p.AppendAnyIPAddressPtr isIP value, s)
  AppendAnyDomainNamePtrs := fun p values s => (p.AppendAnyDomainNamePtrs values, s)
  Logs := fun _ p s => ([p], s)

end apachelogs

/-! ## Sample values -/

namespace sample

/-- A codec for schemas given by their encoded text: every schema marshals, and the text
decodes into a field map when it is a JSON object. -/
def codec : parsers.SchemaCodec String where
  Marshal := fun s => .ok s
  Unmarshal := fun data =>
    if data.data.head? = some '\x7b' then none else some "expect \x7b or n"

/-- A log type that passes `Check`. -/
def accessLog : parsers.LogType String Nat :=
  ⟨"Apache.AccessCombined", "Apache HTTP server access logs", some "\x7b\x7d", some (fun _ => 1)⟩

/-- A second log type of the same name, with another description and factory. -/
def accessLogAgain : parsers.LogType String Nat :=
  ⟨"Apache.AccessCombined", "A second registration", some "\x7b\x7d", some (fun _ => 2)⟩

/-- A log type of another name. -/
def auditLog : parsers.LogType String Nat :=
  ⟨"GitLab.Audit", "GitLab audit events", some "\x7b\x7d", some (fun _ => 3)⟩

/-- A test for IP addresses, for the dotted decimal form of IPv4: four numbers of one to
three digits, none above 255. -/
def isIPv4 (s : String) : Bool :=
  match strings.SplitN '.' s.data 5 with
  | [a, b, c, d] =>
    [a, b, c, d].all fun part =>
      decide (1 ≤ part.length) && decide (part.length ≤ 3) &&
        match apachelogs.number? part with
        | some n => decide (n ≤ 255)
        | none => false
  | _ => false

/-- A Suricata DNS record whose source address is also the data of an A answer and an entry
of the grouped A list. -/
def dnsRecord : suricatalogs.DNS :=
  { DNS := some
      { Answers := [⟨some "10.0.0.1", some "example.com", some "A", some 60⟩]
        Grouped := some ⟨["10.0.0.1"], [], [], [], [], []⟩
        Rrname := some "example.com"
        RData := none
        Rrtype := some "A" }
    DestIP := some "10.0.0.2"
    SrcIP := some "10.0.0.1"
    Timestamp := some ⟨2020, 10, 10, 13, 55, 36⟩ }

/-- The line of the scenario of section 8 of the spec. -/
def accessLine : String :=
  "192.168.0.1 - - [10/Oct/2020:13:55:36] \"GET /x HTTP/1.1\" 200 123 \"-\" \"curl/7.64\""

/-- A log type that passes `Check` and whose factory is nil. -/
def nilFactoryLog : parsers.LogType String Nat :=
  ⟨"Zeek.DNS", "Zeek DNS activity", some "\x7b\x7d", none⟩

/-- A log type that fails `Check`: its description is empty. -/
def noDescriptionLog : parsers.LogType String Nat :=
  ⟨"Suricata.DNS", "", some "\x7b\x7d", some (fun _ => 4)⟩

/-- The lower case of a text of ASCII characters, as `strings.ToLower` gives it. -/
def toLowerASCII (s : String) : String :=
  String.mk (s.data.map fun c => if 'A' ≤ c ∧ c ≤ 'Z' then Char.ofNat (c.toNat + 32) else c)

/-- The value that stands for a host name: an IPAddress for the dotted form of IPv4, a
DomainName otherwise. -/
def hostname (s : String) : pantherlog.Value :=
  if isIPv4 s then pantherlog.IPAddress s else pantherlog.DomainName s

/-- A Zeek DNS record of a query of type A. -/
def zeekRecord : zeeklogs.ZeekDNS :=
  { Ts := some ⟨2020, 10, 10, 13, 55, 36⟩
    IDOrigH := some "10.0.0.1"
    IDRespH := some "10.0.0.2"
    Query := some "example.com"
    QType := some 1
    Answers := ["93.184.216.34"] }

/-- A Suricata DNS record of type CNAME, whose top-level rdata is a name. -/
def cnameRecord : suricatalogs.DNS :=
  { DNS := some
      { Answers := [⟨some "ignored.example.org", some "other.example.org", some "SOA", none⟩]
        Grouped := none
        Rrname := some "www.example.com"
        RData := some "cdn.example.net"
        Rrtype := some "CNAME" }
    DestIP := none
    SrcIP := none
    Timestamp := some ⟨2020, 10, 10, 13, 55, 36⟩ }

/-- The first four fields of the line of the scenario, each with the space after it. -/
def accessCells : List (String × String) :=
  [("192.168.0.1", " "), ("-", " "), ("-", " "), ("[10/Oct/2020:13:55:36]", " ")]

end sample

end panther

/-! # Theorems -/

namespace panther

/-! ## Go maps -/

namespace GoMap

variable {V : Type}

theorem get?_set_self (m : GoMap V) (k : String) (v : V) : (m.set k v).get? k = some v := by
  induction m with
  | nil => simp [set, get?]
  | cons kv rest ih =>
    obtain ⟨k0, v0⟩ := kv
    by_cases h : k0 = k
    · simp [set, get?, h]
    · simp [set, get?, h, ih]

theorem get?_set_of_ne (m : GoMap V) (k other : String) (v : V) (h : other ≠ k) :
    (m.set k v).get? other = m.get? other := by
  induction m with
  | nil => simp [set, get?, Ne.symm h]
  | cons kv rest ih =>
    obtain ⟨k0, v0⟩ := kv
    by_cases h0 : k0 = k
    · subst h0
      simp [set, get?, Ne.symm h]
    · by_cases h1 : k0 = other
      · subst h1
        simp [set, get?, h0]
      · simp [set, get?, h0, h1, ih]

theorem set_of_get?_none (m : GoMap V) (k : String) (v : V) (h : m.get? k = none) :
    m.set k v = m ++ [(k, v)] := by
  induction m with
  | nil => rfl
  | cons kv rest ih =>
    obtain ⟨k0, v0⟩ := kv
    by_cases h0 : k0 = k
    · simp [get?, h0] at h
    · simp only [get?, h0, if_false] at h
      simp [set, h0, ih h]

theorem get?_eq_none_iff (m : GoMap V) (k : String) :
    m.get? k = none ↔ k ∉ m.map Prod.fst := by
  induction m with
  | nil => simp [get?]
  | cons kv rest ih =>
    obtain ⟨k0, v0⟩ := kv
    by_cases h0 : k0 = k
    · simp [get?, h0]
    · simp only [get?, h0, if_false, ih, List.map_cons, List.mem_cons]
      constructor
      · intro h hk
        rcases hk with hk | hk
        · exact h0 hk.symm
        · exact h hk
      · intro h hk
        exact h (Or.inr hk)

theorem mem_of_get? (m : GoMap V) (k : String) (v : V) (h : m.get? k = some v) :
    (k, v) ∈ m := by
  induction m with
  | nil => simp [get?] at h
  | cons kv rest ih =>
    obtain ⟨k0, v0⟩ := kv
    by_cases h0 : k0 = k
    · simp only [get?, h0, if_true, Option.some.injEq] at h
      simp [h0, h]
    · simp only [get?, h0, if_false] at h
      exact List.mem_cons_of_mem _ (ih h)

theorem get?_of_mem (m : GoMap V) (k : String) (v : V) (hnodup : (m.map Prod.fst).Nodup)
    (h : (k, v) ∈ m) : m.get? k = some v := by
  induction m with
  | nil => simp at h
  | cons kv rest ih =>
    obtain ⟨k0, v0⟩ := kv
    simp only [List.map_cons, List.nodup_cons] at hnodup
    rcases List.mem_cons.mp h with h1 | h1
    · simp only [Prod.mk.injEq] at h1
      simp [get?, h1.1, h1.2]
    · have hk : k ∈ rest.map Prod.fst := List.mem_map.mpr ⟨(k, v), h1, rfl⟩
      have h0 : k0 ≠ k := fun e => hnodup.1 (e ▸ hk)
      simp only [get?, h0, if_false]
      exact ih hnodup.2 h1

end GoMap

/-! ## The registry -/

namespace parsers

variable {σ π : Type}

namespace Registry

theorem Get_eq_stored (r : Registry σ π) (name : String) :
    r.Get name = r.stored.get? name := by
  cases r with
  | mk entries => cases entries <;> rfl

/-- `Register` written out by cases on `Check` and on the lookup of the name. -/
theorem Register_cases (codec : SchemaCodec σ) (r : Registry σ π) (entry : LogType σ π) :
    (∃ err, LogType.Check codec (some entry) = some err ∧
        r.Register codec entry = (r, some err)) ∨
    (LogType.Check codec (some entry) = none ∧ (∃ e, r.Get entry.Name = some e) ∧
        r.Register codec entry = (r, some ⟨"duplicate log type entry %q", [entry.Name]⟩)) ∨
    (LogType.Check codec (some entry) = none ∧ r.Get entry.Name = none ∧
        (r.Register codec entry).2 = none ∧
        (r.Register codec entry).1.stored = r.stored ++ [(entry.Name, entry)]) := by
  cases hc : LogType.Check codec (some entry) with
  | some err => exact Or.inl ⟨err, rfl, by simp [Register, hc]⟩
  | none =>
    right
    cases hg : r.Get entry.Name with
    | some e =>
      left
      refine ⟨rfl, ⟨e, rfl⟩, ?_⟩
      have hg1 : mapIndex r.entries entry.Name = some e := hg
      simp [Register, hc, hg1]
    | none =>
      right
      have hg1 : mapIndex r.entries entry.Name = none := hg
      refine ⟨rfl, rfl, by simp [Register, hc, hg1], ?_⟩
      have hs : r.stored.get? entry.Name = none := by rw [← Get_eq_stored]; exact hg
      simp only [Register, hc, hg1, stored]
      cases r with
      | mk entries =>
        cases entries with
        | none => rfl
        | some m => exact GoMap.set_of_get?_none m _ _ (by simpa [stored] using hs)

theorem Register_fst_of_error (codec : SchemaCodec σ) (r : Registry σ π) (entry : LogType σ π)
    (h : (r.Register codec entry).2 ≠ none) : (r.Register codec entry).1 = r := by
  rcases Register_cases codec r entry with ⟨err, _, h1⟩ | ⟨_, _, h1⟩ | ⟨_, _, h1, _⟩
  · rw [h1]
  · rw [h1]
  · exact absurd h1 h

theorem Register_error_iff (codec : SchemaCodec σ) (r : Registry σ π) (entry : LogType σ π) :
    (r.Register codec entry).2 ≠ none ↔
      (LogType.Check codec (some entry) ≠ none ∨ r.Get entry.Name ≠ none) := by
  rcases Register_cases codec r entry with ⟨err, hc, h1⟩ | ⟨hc, ⟨e, hg⟩, h1⟩ | ⟨hc, hg, h1, _⟩
  · simp [h1, hc]
  · simp [h1, hg]
  · simp [h1, hc, hg]

theorem Check_eq_none (codec : SchemaCodec σ) (entry : LogType σ π)
    (h : LogType.Check codec (some entry) = none) :
    entry.Name ≠ "" ∧ entry.Description ≠ "" ∧ entry.Schema ≠ none := by
  simp only [LogType.Check] at h
  by_cases h1 : entry.Name = ""
  · simp [h1] at h
  · by_cases h2 : entry.Description = ""
    · simp [h1, h2] at h
    · refine ⟨h1, h2, ?_⟩
      intro h3
      simp [h1, h2, h3, checkLogEntrySchema] at h

end Registry

end parsers

end panther

namespace panther

namespace GoMap

variable {V : Type}

theorem get?_append (m extra : GoMap V) (k : String) :
    (m ++ extra).get? k = (m.get? k).orElse (fun _ => extra.get? k) := by
  induction m with
  | nil => simp [get?]
  | cons kv rest ih =>
    obtain ⟨k0, v0⟩ := kv
    by_cases h0 : k0 = k
    · simp [get?, h0]
    · simp [get?, h0, ih]

end GoMap

namespace parsers

variable {σ π : Type}

namespace Registry

/-- Every call leaves the stored pairs in place and adds at most one pair at the end. -/
theorem step_stored (codec : SchemaCodec σ) (r : Registry σ π) (c : Call σ π) :
    (r.step codec c).stored = r.stored ∨
    ∃ entry, c = .Register entry ∧ (r.Register codec entry).2 = none ∧
      LogType.Check codec (some entry) = none ∧ r.Get entry.Name = none ∧
      (r.step codec c).stored = r.stored ++ [(entry.Name, entry)] := by
  cases c with
  | Register entry =>
    rcases Register_cases codec r entry with ⟨err, _, h1⟩ | ⟨_, _, h1⟩ | ⟨hc, hg, h1, h2⟩
    · left
      simp [step, h1]
    · left
      simp [step, h1]
    · right
      exact ⟨entry, rfl, h1, hc, hg, h2⟩
  | Get name => exact Or.inl rfl
  | MustGet name => exact Or.inl rfl
  | LogTypes => exact Or.inl rfl

/-- The keys of the map after a run: the keys before it, then the names registered. -/
theorem run_keys (codec : SchemaCodec σ) (calls : List (Call σ π)) (r : Registry σ π) :
    (r.run codec calls).stored.map Prod.fst =
      r.stored.map Prod.fst ++ r.registered codec calls := by
  induction calls generalizing r with
  | nil => simp [run, registered]
  | cons c rest ih =>
    rw [run, ih]
    cases c with
    | Register entry =>
      rcases Register_cases codec r entry with ⟨err, _, h1⟩ | ⟨_, _, h1⟩ | ⟨hc, hg, h1, h2⟩
      · simp [registered, step, h1]
      · simp [registered, step, h1]
      · simp [registered, step, h1, h2]
    | Get name => simp [registered, step]
    | MustGet name => simp [registered, step]
    | LogTypes => simp [registered, step]

/-- The stored pairs after a run begin with the pairs stored before it. -/
theorem run_stored_prefix (codec : SchemaCodec σ) (calls : List (Call σ π))
    (r : Registry σ π) : ∃ added, (r.run codec calls).stored = r.stored ++ added := by
  induction calls generalizing r with
  | nil => exact ⟨[], by simp [run]⟩
  | cons c rest ih =>
    obtain ⟨added, h⟩ := ih (r.step codec c)
    rw [run, h]
    rcases step_stored codec r c with h1 | ⟨entry, _, _, _, _, h1⟩
    · exact ⟨added, by rw [h1]⟩
    · exact ⟨(entry.Name, entry) :: added, by rw [h1]; simp⟩

/-- The invariant of the map: checked entries, each under its own name, keys all different. -/
theorem run_invariant (codec : SchemaCodec σ) (calls : List (Call σ π)) (r : Registry σ π)
    (hentries : ∀ kv ∈ r.stored, kv.2.Name ≠ "" ∧ kv.2.Description ≠ "" ∧
      kv.2.Schema ≠ none ∧ kv.1 = kv.2.Name)
    (hkeys : (r.stored.map Prod.fst).Nodup) :
    (∀ kv ∈ (r.run codec calls).stored, kv.2.Name ≠ "" ∧ kv.2.Description ≠ "" ∧
      kv.2.Schema ≠ none ∧ kv.1 = kv.2.Name) ∧
    ((r.run codec calls).stored.map Prod.fst).Nodup := by
  induction calls generalizing r with
  | nil => exact ⟨hentries, hkeys⟩
  | cons c rest ih =>
    rw [run]
    apply ih
    · rcases step_stored codec r c with h1 | ⟨entry, _, _, hc, _, h1⟩
      · rw [h1]; exact hentries
      · rw [h1]
        intro kv hkv
        rcases List.mem_append.mp hkv with h2 | h2
        · exact hentries kv h2
        · simp only [List.mem_singleton] at h2
          subst h2
          obtain ⟨a, b, c⟩ := Check_eq_none codec entry hc
          exact ⟨a, b, c, rfl⟩
    · rcases step_stored codec r c with h1 | ⟨entry, _, _, _, hg, h1⟩
      · rw [h1]; exact hkeys
      · rw [h1, List.map_append, List.nodup_append]
        refine ⟨hkeys, by simp, ?_⟩
        rw [Get_eq_stored, GoMap.get?_eq_none_iff] at hg
        intro a ha hb
        simp only [List.map_cons, List.map_nil, List.mem_singleton] at hb
        subst hb
        exact hg ha

theorem zero_stored : (zero : Registry σ π).stored = [] := rfl

theorem LogTypes_eq_map (rangeOrder : GoMap (LogType σ π) → GoMap (LogType σ π))
    (r : Registry σ π) (h : rangeOrder [] = []) :
    r.LogTypes rangeOrder = (rangeOrder r.stored).map Prod.snd := by
  have hfold : ∀ (l : GoMap (LogType σ π)) (acc : List (LogType σ π)),
      l.foldl (fun logTypes kv => logTypes ++ [kv.2]) acc = acc ++ l.map Prod.snd := by
    intro l
    induction l with
    | nil => intro acc; simp
    | cons kv rest ih => intro acc; simp [ih]
  cases r with
  | mk entries =>
    cases entries with
    | none => simp [LogTypes, stored, h]
    | some m => simp [LogTypes, stored, hfold]

end Registry

end parsers

end panther

namespace panther

/-! ## Claims on the registry -/

section registryClaims

open parsers parsers.Registry

variable {σ π : Type}

/-- C1, registry uniqueness: when two Types have the same name and `Register` of the first
returns no error, `Register` of the second on the resulting registry returns an error, leaves
the registry as it was, and `Get` of that name still returns the first Type. -/
theorem register_same_name_twice (codec : SchemaCodec σ) (r : Registry σ π)
    (first second : LogType σ π) (hname : first.Name = second.Name)
    (hfirst : (r.Register codec first).2 = none) :
    ((r.Register codec first).1.Register codec second).2 ≠ none ∧
    ((r.Register codec first).1.Register codec second).1 = (r.Register codec first).1 ∧
    ((r.Register codec first).1.Register codec second).1.Get first.Name = some first := by
  have hget : (r.Register codec first).1.Get first.Name = some first := by
    rcases Register_cases codec r first with ⟨err, _, h1⟩ | ⟨_, _, h1⟩ | ⟨_, hg, _, h2⟩
    · rw [h1] at hfirst; cases hfirst
    · rw [h1] at hfirst; cases hfirst
    · rw [Get_eq_stored] at hg
      rw [Get_eq_stored, h2, GoMap.get?_append, hg]
      simp [GoMap.get?]
  have herr : ((r.Register codec first).1.Register codec second).2 ≠ none := by
    rw [Register_error_iff]
    right
    rw [← hname, hget]
    exact Option.some_ne_none first
  have hsame := Register_fst_of_error codec _ second herr
  exact ⟨herr, hsame, by rw [hsame]; exact hget⟩

/-- C1 at the zero registry, for two Apache access-log entries of the same name. -/
theorem register_same_name_twice_witness :
    sample.accessLog.Name = sample.accessLogAgain.Name ∧
    (Registry.zero.Register sample.codec sample.accessLog).2 = none ∧
    ((Registry.zero.Register sample.codec sample.accessLog).1.Register sample.codec
        sample.accessLogAgain).2 ≠ none ∧
    ((Registry.zero.Register sample.codec sample.accessLog).1.Register sample.codec
        sample.accessLogAgain).1.Get "Apache.AccessCombined" = some sample.accessLog :=
  have h := register_same_name_twice sample.codec Registry.zero sample.accessLog
    sample.accessLogAgain rfl rfl
  ⟨rfl, rfl, h.1, h.2.2⟩

/-- C2: on a registry built from the zero value by calls of its methods, `Register(entry)`
returns an error if and only if `entry.Check()` returns an error or the registry holds an
entry whose name is `entry.Name`. -/
theorem register_error_iff_check_or_held (codec : SchemaCodec σ) (calls : List (Call σ π))
    (entry : LogType σ π) :
    ((Registry.zero.run codec calls).Register codec entry).2 ≠ none ↔
      (LogType.Check codec (some entry) ≠ none ∨
        ∃ kv ∈ (Registry.zero.run codec calls).stored, kv.2.Name = entry.Name) := by
  have hinv := (run_invariant codec calls (Registry.zero : Registry σ π)
    (by simp [zero_stored]) (by simp [zero_stored])).1
  have hheld : (Registry.zero.run codec calls).Get entry.Name ≠ none ↔
      ∃ kv ∈ (Registry.zero.run codec calls).stored, kv.2.Name = entry.Name := by
    rw [Get_eq_stored, Ne, GoMap.get?_eq_none_iff, not_not, List.mem_map]
    constructor
    · rintro ⟨kv, hkv, hk⟩
      exact ⟨kv, hkv, by rw [← (hinv kv hkv).2.2.2]; exact hk⟩
    · rintro ⟨kv, hkv, hk⟩
      exact ⟨kv, hkv, by rw [(hinv kv hkv).2.2.2]; exact hk⟩
  rw [Register_error_iff, hheld]

/-- C3: after a `Register(entry)` that returns no error, `Get(entry.Name)` returns the entry
registered (the same name, description, schema and parser factory), and `Get` of every other
name returns what it returned before the call. -/
theorem get_after_register (codec : SchemaCodec σ) (r : Registry σ π) (entry : LogType σ π)
    (hok : (r.Register codec entry).2 = none) :
    (r.Register codec entry).1.Get entry.Name = some entry ∧
    ∀ name, name ≠ entry.Name → (r.Register codec entry).1.Get name = r.Get name := by
  rcases Register_cases codec r entry with ⟨err, _, h1⟩ | ⟨_, _, h1⟩ | ⟨_, hg, _, h2⟩
  · rw [h1] at hok; cases hok
  · rw [h1] at hok; cases hok
  · rw [Get_eq_stored] at hg
    constructor
    · rw [Get_eq_stored, h2, GoMap.get?_append, hg]
      simp [GoMap.get?]
    · intro name hne
      rw [Get_eq_stored, Get_eq_stored, h2, GoMap.get?_append]
      cases r.stored.get? name with
      | some e => rfl
      | none => simp [GoMap.get?, Ne.symm hne]

/-- C3 on a registry that holds the access-log entry, registering the audit-log entry. -/
theorem get_after_register_witness :
    ((Registry.zero.Register sample.codec sample.accessLog).1.Register sample.codec
        sample.auditLog).2 = none ∧
    ((Registry.zero.Register sample.codec sample.accessLog).1.Register sample.codec
        sample.auditLog).1.Get "GitLab.Audit" = some sample.auditLog ∧
    ((Registry.zero.Register sample.codec sample.accessLog).1.Register sample.codec
        sample.auditLog).1.Get "Apache.AccessCombined" = some sample.accessLog :=
  have h := get_after_register sample.codec
    (Registry.zero.Register sample.codec sample.accessLog).1 sample.auditLog rfl
  ⟨rfl, h.1, (h.2 "Apache.AccessCombined" (by decide)).trans rfl⟩

/-- C4, registry invariant: in a registry reached from the zero value by calls of its
methods, every stored entry has a non-empty name, a non-empty description and a non-nil
schema, is stored under its own name (the key is the name, and `Get` of the name returns the
entry), and no two stored entries share a name. -/
theorem registry_invariant (codec : SchemaCodec σ) (calls : List (Call σ π)) :
    (∀ kv ∈ (Registry.zero.run codec calls).stored,
      kv.2.Name ≠ "" ∧ kv.2.Description ≠ "" ∧ kv.2.Schema ≠ none ∧ kv.1 = kv.2.Name ∧
      (Registry.zero.run codec calls).Get kv.2.Name = some kv.2) ∧
    ((Registry.zero.run codec calls).stored.map fun kv => kv.2.Name).Nodup := by
  have hinv := run_invariant codec calls (Registry.zero : Registry σ π)
    (by simp [zero_stored]) (by simp [zero_stored])
  constructor
  · intro kv hkv
    obtain ⟨a, b, c, d⟩ := hinv.1 kv hkv
    refine ⟨a, b, c, d, ?_⟩
    rw [Get_eq_stored, ← d]
    exact GoMap.get?_of_mem _ _ _ hinv.2 hkv
  · have hmap : ((Registry.zero.run codec calls).stored.map fun kv => kv.2.Name) =
        (Registry.zero.run codec calls).stored.map Prod.fst :=
      List.map_congr_left fun kv hkv => ((hinv.1 kv hkv).2.2.2).symm
    rw [hmap]
    exact hinv.2

/-- C5, append-only: over every sequence of `Register`, `Get`, `MustGet` and `LogTypes`
calls, an entry that `Get(name)` returns is returned by `Get(name)` after the sequence too,
and the number of stored entries does not decrease. -/
theorem registry_append_only (codec : SchemaCodec σ) (r : Registry σ π)
    (calls : List (Call σ π)) :
    (∀ name e, r.Get name = some e → (r.run codec calls).Get name = some e) ∧
    r.stored.length ≤ (r.run codec calls).stored.length := by
  obtain ⟨added, h⟩ := run_stored_prefix codec calls r
  constructor
  · intro name e hget
    rw [Get_eq_stored] at hget
    rw [Get_eq_stored, h, GoMap.get?_append, hget]
    rfl
  · rw [h, List.length_append]
    exact Nat.le_add_right _ _

/-- C6: on a registry built from the zero value, `Get(name)` returns an entry if and only if
a `Register` call with that name returned no error earlier; otherwise it returns nil. On
the zero registry, whose map was never allocated, it returns nil. -/
theorem get_iff_registered (codec : SchemaCodec σ) (calls : List (Call σ π)) (name : String) :
    ((∃ e, (Registry.zero.run codec calls).Get name = some e) ↔
      name ∈ (Registry.zero : Registry σ π).registered codec calls) ∧
    (name ∉ (Registry.zero : Registry σ π).registered codec calls →
      (Registry.zero.run codec calls).Get name = none) ∧
    (Registry.zero : Registry σ π).Get name = none := by
  have hkeys := run_keys codec calls (Registry.zero : Registry σ π)
  simp only [zero_stored, List.map_nil, List.nil_append] at hkeys
  have hnone : (Registry.zero.run codec calls).Get name = none ↔
      name ∉ (Registry.zero : Registry σ π).registered codec calls := by
    rw [Get_eq_stored, GoMap.get?_eq_none_iff, hkeys]
  refine ⟨?_, hnone.mpr, rfl⟩
  rw [← not_iff_not, ← hnone]
  cases (Registry.zero.run codec calls).Get name <;> simp

/-- C7: `MustGet(name)` returns what `Get(name)` returns when that is an entry, and panics,
with the message `unregistered log type %q` formatted with the name, if and only if
`Get(name)` is nil; `parsers.MustGet` and `registry.MustGet` do the same on the default
registry. -/
theorem mustGet_eq_get_or_panics (r : Registry σ π) (name : String) :
    (∀ e, r.Get name = some e →
      r.MustGet name = .returned e ∧ registry.MustGet r name = .returned e) ∧
    ((∃ v, r.MustGet name = .panicked v) ↔ r.Get name = none) ∧
    ((∃ v, registry.MustGet r name = .panicked v) ↔ r.Get name = none) ∧
    (r.Get name = none →
      r.MustGet name = .panicked ⟨"unregistered log type %q", [name]⟩ ∧
      registry.MustGet r name = .panicked ⟨"unregistered log type %q", [name]⟩) := by
  cases h : r.Get name with
  | none => simp [registry.MustGet, parsers.MustGet, Registry.MustGet, h]
  | some e => simp [registry.MustGet, parsers.MustGet, Registry.MustGet, h]

end registryClaims

end panther

namespace panther

section registryClaims2

open parsers parsers.Registry

variable {σ π : Type}

/-- C8: whatever order the map is ranged in, `LogTypes` (and `AvailableLogTypes`, on the
default registry) of a registry built from the zero value returns one copy of each registered
Type: the names in the list are a rearrangement of the names registered, which are all
different, so the length is the number of registered names and every registered name occurs
once; every element is the entry `Get` returns for its name and every entry `Get` returns is
an element. On a registry with no entries the list is empty. -/
theorem logTypes_one_copy_each (codec : SchemaCodec σ)
    (rangeOrder : GoMap (LogType σ π) → GoMap (LogType σ π))
    (hperm : ∀ m, (rangeOrder m).Perm m) (calls : List (Call σ π)) :
    AvailableLogTypes rangeOrder (Registry.zero.run codec calls) =
      (Registry.zero.run codec calls).LogTypes rangeOrder ∧
    (((Registry.zero.run codec calls).LogTypes rangeOrder).map fun e => e.Name).Perm
      ((Registry.zero : Registry σ π).registered codec calls) ∧
    ((Registry.zero : Registry σ π).registered codec calls).Nodup ∧
    ((Registry.zero.run codec calls).LogTypes rangeOrder).length =
      ((Registry.zero : Registry σ π).registered codec calls).length ∧
    (∀ name ∈ (Registry.zero : Registry σ π).registered codec calls,
      ((((Registry.zero.run codec calls).LogTypes rangeOrder).map fun e => e.Name).count name
        = 1)) ∧
    (∀ e ∈ (Registry.zero.run codec calls).LogTypes rangeOrder,
      (Registry.zero.run codec calls).Get e.Name = some e) ∧
    (∀ name e, (Registry.zero.run codec calls).Get name = some e →
      e ∈ (Registry.zero.run codec calls).LogTypes rangeOrder) ∧
    (∀ r : Registry σ π, r.stored = [] → r.LogTypes rangeOrder = []) := by
  have hnil : rangeOrder [] = [] := List.Perm.eq_nil (hperm [])
  have hinv := run_invariant codec calls (Registry.zero : Registry σ π)
    (by simp [zero_stored]) (by simp [zero_stored])
  have hkeys := run_keys codec calls (Registry.zero : Registry σ π)
  simp only [zero_stored, List.map_nil, List.nil_append] at hkeys
  have hnames : ((Registry.zero.run codec calls).stored.map fun kv => kv.2.Name) =
      (Registry.zero : Registry σ π).registered codec calls := by
    rw [← hkeys]
    exact List.map_congr_left fun kv hkv => ((hinv.1 kv hkv).2.2.2).symm
  have hnodup : ((Registry.zero : Registry σ π).registered codec calls).Nodup := by
    rw [← hkeys]; exact hinv.2
  have hp : (((Registry.zero.run codec calls).LogTypes rangeOrder).map fun e => e.Name).Perm
      ((Registry.zero : Registry σ π).registered codec calls) := by
    rw [LogTypes_eq_map _ _ hnil, List.map_map, ← hnames]
    exact (hperm _).map _
  refine ⟨rfl, hp, hnodup, ?_, ?_, ?_, ?_, ?_⟩
  · simpa using hp.length_eq
  · intro name hname
    rw [hp.count_eq]
    exact List.count_eq_one_of_mem hnodup hname
  · intro e he
    rw [LogTypes_eq_map _ _ hnil, List.mem_map] at he
    obtain ⟨kv, hkv, rfl⟩ := he
    have hmem : kv ∈ (Registry.zero.run codec calls).stored := (hperm _).mem_iff.mp hkv
    rw [Get_eq_stored, ← (hinv.1 kv hmem).2.2.2]
    exact GoMap.get?_of_mem _ _ _ hinv.2 hmem
  · intro name e hget
    rw [Get_eq_stored] at hget
    rw [LogTypes_eq_map _ _ hnil, List.mem_map]
    exact ⟨(name, e), (hperm _).mem_iff.mpr (GoMap.mem_of_get? _ _ _ hget), rfl⟩
  · intro r hr
    rw [LogTypes_eq_map _ _ hnil, hr, hnil]
    rfl

/-- C8 for a map ranged in reverse order, after registering the access-log entry, the same
name again (refused) and the audit-log entry: the list is the audit log, then the access
log. -/
theorem logTypes_one_copy_each_witness :
    (∀ m : GoMap (LogType String Nat), (List.reverse m).Perm m) ∧
    ((Registry.zero.run sample.codec [.Register sample.accessLog,
        .Register sample.accessLogAgain, .Get "GitLab.Audit",
        .Register sample.auditLog]).LogTypes List.reverse).map (fun e => e.Name) =
      ["GitLab.Audit", "Apache.AccessCombined"] ∧
    ((Registry.zero.run sample.codec [.Register sample.accessLog,
        .Register sample.accessLogAgain, .Get "GitLab.Audit",
        .Register sample.auditLog]).LogTypes List.reverse).length =
      ((Registry.zero : Registry String Nat).registered sample.codec
        [.Register sample.accessLog, .Register sample.accessLogAgain, .Get "GitLab.Audit",
          .Register sample.auditLog]).length :=
  ⟨fun m => List.reverse_perm m, rfl,
    (logTypes_one_copy_each sample.codec List.reverse (fun m => List.reverse_perm m)
      [.Register sample.accessLog, .Register sample.accessLogAgain, .Get "GitLab.Audit",
        .Register sample.auditLog]).2.2.2.1⟩

/-- C9: `NewParser(name)` returns the error `unregistered LogType %q` and a nil parser if and
only if `Get(name)` of the default registry is nil; for a registered name it calls the stored
factory and returns, with a nil error, the value that call produced (and a call that panics,
as the call of a nil factory does, panics out of `NewParser`). -/
theorem newParser_error_iff_unregistered (defaultRegistry : Registry σ π) (name : String) :
    ((∃ err, NewParser defaultRegistry name = .returned (none, some err)) ↔
      defaultRegistry.Get name = none) ∧
    (defaultRegistry.Get name = none →
      NewParser defaultRegistry name =
        .returned (none, some ⟨"unregistered LogType %q", [name]⟩)) ∧
    (∀ e p, defaultRegistry.Get name = some e → e.NewParser.call = .returned p →
      NewParser defaultRegistry name = .returned (some p, none)) ∧
    (∀ e v, defaultRegistry.Get name = some e → e.NewParser.call = .panicked v →
      NewParser defaultRegistry name = .panicked v) := by
  cases h : defaultRegistry.Get name with
  | none => simp [NewParser, h]
  | some e =>
    refine ⟨?_, fun hn => Option.noConfusion hn, ?_, ?_⟩
    · cases hf : e.NewParser.call <;> simp [NewParser, h, hf]
    · intro e1 p he hf
      cases he
      simp [NewParser, h, hf]
    · intro e1 v he hf
      cases he
      simp [NewParser, h, hf]

end registryClaims2

/-! ## Claims on the AWS scanner -/

section scannerClaims

open awslogs pantherlog

/-- C10, evaluated on the code for the text
`{"accountId":"arn:aws:iam::123456789012:root"}`: the value begins with `arn:` and parses as
an ARN of account `123456789012`, and `ScanValues` of a new scanner returns the one value
AWSAccountID with the whole ARN text as data, whatever the ARN scanner is: the key rule is
applied, the ARN rule is not. -/
theorem scanValues_accountId_with_arn_value (a : scanARN) :
    strings.HasPrefix "arn:aws:iam::123456789012:root" "arn:" = true ∧
    arn.Parse "arn:aws:iam::123456789012:root" =
      some ⟨"aws", "iam", "", "123456789012", "root"⟩ ∧
    ((JSONScanner a).ScanValues []
        (.object [("accountId", .string "arn:aws:iam::123456789012:root")])).2 =
      ([⟨ValueKind.KindAWSAccountID, "arn:aws:iam::123456789012:root"⟩], none) :=
  ⟨by decide, by decide, rfl⟩

end scannerClaims

end panther

namespace panther

/-! ## Strings -/

namespace strings

theorem HasPrefix_iff (s pre : String) :
    HasPrefix s pre = true ↔ ∃ t, s.data = pre.data ++ t := by
  unfold HasPrefix
  rw [List.isPrefixOf_iff_prefix]
  constructor
  · rintro ⟨t, ht⟩
    exact ⟨t, ht.symm⟩
  · rintro ⟨t, ht⟩
    exact ⟨t, ht.symm⟩

theorem LastIndex_of_not_mem (sep : Char) (s : List Char) (h : sep ∉ s) :
    LastIndex sep s = -1 := by
  induction s with
  | nil => rfl
  | cons c rest ih =>
    simp only [List.mem_cons, not_or] at h
    have hc : ¬ c = sep := fun e => h.1 e.symm
    simp [LastIndex, ih h.2, hc]

theorem LastIndex_append (sep : Char) (pre t : List Char) (h : sep ∉ t) :
    LastIndex sep (pre ++ sep :: t) = pre.length := by
  induction pre with
  | nil => simp [LastIndex, LastIndex_of_not_mem sep t h]
  | cons c rest ih =>
    have h0 : (0 : Int) ≤ rest.length := Int.ofNat_nonneg _
    have hstep : LastIndex sep (c :: (rest ++ sep :: t)) =
        LastIndex sep (rest ++ sep :: t) + 1 := by
      simp only [LastIndex, ih, h0, if_true]
    rw [List.cons_append, hstep, ih, List.length_cons]
    omega

theorem exists_last_sep (sep : Char) (s : List Char) (h : sep ∈ s) :
    ∃ pre t, s = pre ++ sep :: t ∧ sep ∉ t := by
  induction s with
  | nil => simp at h
  | cons c rest ih =>
    by_cases hr : sep ∈ rest
    · obtain ⟨pre, t, hs, ht⟩ := ih hr
      exact ⟨c :: pre, t, by rw [hs]; rfl, ht⟩
    · have hc : sep = c := by
        rcases List.mem_cons.mp h with h1 | h1
        · exact h1
        · exact absurd h1 hr
      subst hc
      exact ⟨[], rest, rfl, hr⟩

end strings

/-! ## The JSON scanner -/

namespace awslogs

open pantherlog

theorem ScanValues_new (a : scanARN) (acc : List Value) (input : JSON) :
    ((JSONScanner a).ScanValues acc input).2 =
      match (ReadObjectCB a ⟨acc, none⟩ input).2.Error with
      | some err => (acc, some err)
      | none => ((ReadObjectCB a ⟨acc, none⟩ input).2.Values, none) := by
  simp only [scanJSON.ScanValues, JSONScanner]
  cases (ReadObjectCB a ⟨acc, none⟩ input).2.Error <;> rfl

theorem visitString_of_no_rule (a : scanARN) (values : List Value) (key val : String)
    (hkey : matchesKeyRule key = false) (hpre : strings.HasPrefix val "arn:" = true) :
    visitString a values key val = (a.ScanValues values val).1 := by
  simp only [matchesKeyRule, Bool.or_eq_false_iff, decide_eq_false_iff_not] at hkey
  obtain ⟨⟨⟨⟨⟨⟨⟨⟨⟨h1, h2⟩, h3⟩, h4⟩, h5⟩, h6⟩, h7⟩, h8⟩, h9⟩, h10⟩ := hkey
  simp [visitString, h1, h2, h3, h4, h5, h6, h7, h8, h9, h10, hpre]

theorem instance_resource_iff (resource : String) :
    strings.HasPrefix resource "instance/i-" = true ↔
      ∃ id, resource = "instance/" ++ id ∧ strings.HasPrefix id "i-" = true := by
  rw [strings.HasPrefix_iff]
  constructor
  · rintro ⟨t, ht⟩
    refine ⟨String.mk ("i-".data ++ t), ?_, ?_⟩
    · apply String.ext
      rw [ht, String.data_append]
      rfl
    · rw [strings.HasPrefix_iff]
      exact ⟨t, rfl⟩
  · rintro ⟨id, hid, hpre⟩
    rw [strings.HasPrefix_iff] at hpre
    obtain ⟨t, ht⟩ := hpre
    refine ⟨t, ?_⟩
    rw [hid, String.data_append, ht]
    rfl

theorem ReadVal_tagObject (k v : Option String) :
    ReadVal (tagObject k v) = (⟨k.getD "", v.getD ""⟩, none) := by
  have hk : jsoniter.lowerASCII "key" = "key" := by decide
  have hv : jsoniter.lowerASCII "value" = "value" := by decide
  have hvk : ¬ ("value" = "key") := by decide
  cases k <;> cases v <;>
    simp [tagObject, ReadVal, readTagFields, jsoniter.ReadString, hk, hv, hvk]

theorem visitTags_tagObjects (tags : List (Option String × Option String))
    (values : List Value) :
    visitTags ⟨values, none⟩ (tags.map fun kv => tagObject kv.1 kv.2) =
      ⟨values ++ tags.filterMap tagValue?, none⟩ := by
  induction tags generalizing values with
  | nil => simp [visitTags]
  | cons kv rest ih =>
    obtain ⟨k, v⟩ := kv
    simp only [List.map_cons, visitTags, ReadVal_tagObject]
    rw [ih]
    cases k with
    | none => simp [tagValue?]
    | some ks =>
      cases v with
      | none => simp [tagValue?]
      | some vs =>
        by_cases h1 : vs = ""
        · simp [tagValue?, h1]
        · by_cases h2 : ks = ""
          · simp [tagValue?, h1, h2]
          · simp [tagValue?, h1, h2]

end awslogs

end panther

namespace panther

/-! ## The extractor -/

namespace awslogs

open pantherlog

/-- What the instance-id part of `Extract` appends for a resource with a slash: the text
after the last slash, when the resource begins with `instance/` and that text with `i-`. -/
theorem extractInstanceID_of_last_slash (pl : AWSPantherLog) (resource : String)
    (pre t : List Char) (hres : resource.data = pre ++ '/' :: t) (ht : '/' ∉ t) :
    extractInstanceID pl resource =
      if strings.HasPrefix resource "instance/" = true ∧
          strings.HasPrefix (String.mk t) "i-" = true then
        pl ++ [⟨ValueKind.KindAWSInstanceID, String.mk t⟩]
      else pl := by
  have hlast : strings.LastIndex '/' resource.data = pre.length := by
    rw [hres]; exact strings.LastIndex_append '/' pre t ht
  have hdrop : resource.data.drop ((pre.length : Int) + 1).toNat = t := by
    have : ((pre.length : Int) + 1).toNat = pre.length + 1 := by omega
    rw [this, hres]
    simp
  have hlen : (resource.data.length : Int) = pre.length + 1 + t.length := by
    rw [hres]; simp; omega
  unfold extractInstanceID
  by_cases hinst : strings.HasPrefix resource "instance/" = true
  · simp only [hinst, if_true, true_and, hlast, hdrop]
    by_cases hid : strings.HasPrefix (String.mk t) "i-" = true
    · have h2 : 2 ≤ t.length := by
        rw [strings.HasPrefix_iff] at hid
        obtain ⟨rest, hrest⟩ := hid
        have : t = 'i' :: '-' :: rest := hrest
        rw [this]; simp
      have hlt : (pre.length : Int) < (resource.data.length : Int) - 2 := by
        rw [hlen]; omega
      rw [if_pos hlt, if_pos hid, if_pos hid]
      rfl
    · rw [if_neg hid, if_neg hid]
      simp
  · simp [hinst]

theorem extractInstanceID_of_no_instance (pl : AWSPantherLog) (resource : String)
    (h : ¬ strings.HasPrefix resource "instance/" = true) :
    extractInstanceID pl resource = pl := by
  simp [extractInstanceID, h]

theorem slash_mem_of_instance (resource : String)
    (h : strings.HasPrefix resource "instance/" = true) : '/' ∈ resource.data := by
  rw [strings.HasPrefix_iff] at h
  obtain ⟨t, ht⟩ := h
  rw [ht]
  have : "instance/".data = "instance".data ++ ['/'] := by decide
  rw [this]
  simp

/-- The instance-id part of `Extract` adds nothing or one AWSInstanceID at the end. -/
theorem extractInstanceID_shape (pl : AWSPantherLog) (resource : String) :
    extractInstanceID pl resource = pl ∨
      ∃ id, extractInstanceID pl resource = pl ++ [⟨ValueKind.KindAWSInstanceID, id⟩] := by
  unfold extractInstanceID
  split
  · simp only []
    split
    · split
      · exact Or.inr ⟨_, rfl⟩
      · exact Or.inl rfl
    · exact Or.inl rfl
  · exact Or.inl rfl

theorem Extract_of_arn (pl : AWSPantherLog) (key : gjson.Result) (s : String) (a : arn.ARN)
    (hpre : strings.HasPrefix s "arn:" = true) (hparse : arn.Parse s = some a) :
    AWSExtractor.Extract pl key (some (.string s)) =
      extractInstanceID
        (pl ++ [⟨ValueKind.KindAWSARN, s⟩] ++ [⟨ValueKind.KindAWSAccountID, a.AccountID⟩])
        a.Resource := by
  simp [AWSExtractor.Extract, gjson.Str, hpre, hparse, AWSPantherLog.AppendAnyAWSARNs,
    AWSPantherLog.AppendAnyAWSAccountIds]

/-- The text after the last slash is determined by the resource. -/
theorem after_last_slash_unique (pre1 pre2 t1 t2 : List Char)
    (h : pre1 ++ '/' :: t1 = pre2 ++ '/' :: t2) (h1 : '/' ∉ t1) (h2 : '/' ∉ t2) : t1 = t2 := by
  have e1 := strings.LastIndex_append '/' pre1 t1 h1
  have e2 := strings.LastIndex_append '/' pre2 t2 h2
  rw [h, e2] at e1
  have hlen : pre1.length = pre2.length := by omega
  have hd1 : List.drop (pre1.length + 1) (pre1 ++ '/' :: t1) = t1 := by simp
  have hd2 : List.drop (pre1.length + 1) (pre2 ++ '/' :: t2) = t2 := by
    rw [hlen]; simp
  rw [← hd1, h, hd2]

end awslogs

end panther

namespace panther

/-! ## The accumulator of a walk -/

namespace awslogs

open pantherlog

theorem visitString_append (a : scanARN)
    (harn : ∀ values s, (a.ScanValues values s).1 = values ++ (a.ScanValues [] s).1)
    (vs ws : List Value) (key val : String) :
    visitString a (vs ++ ws) key val = vs ++ visitString a ws key val := by
  have h1 : (a.ScanValues (vs ++ ws) val).1 = vs ++ (a.ScanValues ws val).1 := by
    rw [harn (vs ++ ws), harn ws, List.append_assoc]
  unfold visitString
  split_ifs <;> simp [h1]

theorem visitTags_append (vs : List Value) (elems : List JSON) (w : Walk) :
    visitTags ⟨vs ++ w.Values, w.Error⟩ elems =
      ⟨vs ++ (visitTags w elems).Values, (visitTags w elems).Error⟩ := by
  induction elems generalizing w with
  | nil => rfl
  | cons elem rest ih =>
    obtain ⟨ws, e⟩ := w
    cases e with
    | some err => rfl
    | none =>
      simp only [visitTags]
      split_ifs with h
      · have := ih ⟨ws ++ [⟨ValueKind.KindTag, (ReadVal elem).1.Key ++ ":" ++
          (ReadVal elem).1.Value⟩], (ReadVal elem).2⟩
        simpa [List.append_assoc] using this
      · exact ih ⟨ws, (ReadVal elem).2⟩

theorem visitIPv6_append (vs : List Value) (elems : List JSON) (w : Walk) :
    visitIPv6 ⟨vs ++ w.Values, w.Error⟩ elems =
      ⟨vs ++ (visitIPv6 w elems).Values, (visitIPv6 w elems).Error⟩ := by
  induction elems generalizing w with
  | nil => rfl
  | cons elem rest ih =>
    obtain ⟨ws, e⟩ := w
    cases e with
    | some err => rfl
    | none =>
      simp only [visitIPv6]
      have := ih ⟨ws ++ [IPAddress (jsoniter.ReadString none elem).1],
        (jsoniter.ReadString none elem).2⟩
      simpa [List.append_assoc] using this

mutual

theorem Visit_append (a : scanARN)
    (harn : ∀ values s, (a.ScanValues values s).1 = values ++ (a.ScanValues [] s).1)
    (vs : List Value) (key : String) :
    ∀ (v : JSON) (w : Walk),
      Visit a ⟨vs ++ w.Values, w.Error⟩ key v = Walk.after vs (Visit a w key v)
  | .object fields, w => by
    simp only [Visit]
    exact readFields_append a harn vs fields w
  | .string val, w => by
    simp [Visit, Walk.after, visitString_append a harn]
  | .array elems, w => by
    simp only [Visit]
    split_ifs
    · simp [Walk.after, visitTags_append]
    · simp [Walk.after, visitIPv6_append]
    · rw [readElements_append a harn vs elems w]
      rcases readElements a w elems with ⟨b, w1⟩
      cases b <;> simp [Walk.after]
  | .invalid text, w => by simp [Visit, Walk.after]
  | .null, w => by simp [Visit, Walk.after]
  | .bool b, w => by simp [Visit, Walk.after]
  | .number text, w => by simp [Visit, Walk.after]

theorem readFields_append (a : scanARN)
    (harn : ∀ values s, (a.ScanValues values s).1 = values ++ (a.ScanValues [] s).1)
    (vs : List Value) :
    ∀ (fields : List (String × JSON)) (w : Walk),
      readFields a ⟨vs ++ w.Values, w.Error⟩ fields = Walk.after vs (readFields a w fields)
  | [], w => by simp [readFields, Walk.after]
  | (key, v) :: rest, w => by
    simp only [readFields]
    rw [Visit_append a harn vs key v w]
    rcases Visit a w key v with ⟨b, w1⟩
    cases b
    · simp [Walk.after]
    · simp only [Walk.after]
      exact readFields_append a harn vs rest w1

theorem readElements_append (a : scanARN)
    (harn : ∀ values s, (a.ScanValues values s).1 = values ++ (a.ScanValues [] s).1)
    (vs : List Value) :
    ∀ (elems : List JSON) (w : Walk),
      readElements a ⟨vs ++ w.Values, w.Error⟩ elems = Walk.after vs (readElements a w elems)
  | [], w => by simp [readElements, Walk.after]
  | .object fields :: rest, w => by
    simp only [readElements]
    rw [readFields_append a harn vs fields w]
    rcases readFields a w fields with ⟨b, w1⟩
    cases b
    · simp [Walk.after]
    · simp only [Walk.after]
      exact readElements_append a harn vs rest w1
  | .null :: rest, w => by
    simp only [readElements]
    exact readElements_append a harn vs rest w
  | .bool b :: rest, w => by simp [readElements, Walk.after]
  | .number text :: rest, w => by simp [readElements, Walk.after]
  | .string s :: rest, w => by simp [readElements, Walk.after]
  | .array elems :: rest, w => by simp [readElements, Walk.after]
  | .invalid text :: rest, w => by simp [readElements, Walk.after]

end

theorem ReadObjectCB_append (a : scanARN)
    (harn : ∀ values s, (a.ScanValues values s).1 = values ++ (a.ScanValues [] s).1)
    (vs : List Value) (input : JSON) (w : Walk) :
    ReadObjectCB a ⟨vs ++ w.Values, w.Error⟩ input = Walk.after vs (ReadObjectCB a w input) := by
  cases input with
  | object fields => exact readFields_append a harn vs fields w
  | null => simp [ReadObjectCB, Walk.after]
  | bool b => simp [ReadObjectCB, Walk.after]
  | number text => simp [ReadObjectCB, Walk.after]
  | string s => simp [ReadObjectCB, Walk.after]
  | array elems => simp [ReadObjectCB, Walk.after]
  | invalid text => simp [ReadObjectCB, Walk.after]

end awslogs

end panther

namespace panther

/-! ## Claims on the extractor -/

section extractorClaims

open awslogs pantherlog

/-- C11: for every key and every string value that begins with `arn:` and parses as an ARN,
`Extract` appends the AWSARN of the whole text, then the AWSAccountID of the account segment
of the ARN, then at most AWSInstanceID values, and what it appends is the same for every
other key: no key-based rule is evaluated. -/
theorem extract_arn_value (pl : AWSPantherLog) (key : gjson.Result) (s : String) (a : arn.ARN)
    (hpre : strings.HasPrefix s "arn:" = true) (hparse : arn.Parse s = some a) :
    (∃ rest, AWSExtractor.Extract pl key (some (.string s)) =
        pl ++ [⟨.KindAWSARN, s⟩, ⟨.KindAWSAccountID, a.AccountID⟩] ++ rest ∧
        ∀ x ∈ rest, x.Kind = .KindAWSInstanceID) ∧
    (∀ other : gjson.Result, AWSExtractor.Extract pl other (some (.string s)) =
      AWSExtractor.Extract pl key (some (.string s))) := by
  constructor
  · rw [Extract_of_arn pl key s a hpre hparse]
    rcases extractInstanceID_shape
      (pl ++ [⟨ValueKind.KindAWSARN, s⟩] ++ [⟨ValueKind.KindAWSAccountID, a.AccountID⟩])
      a.Resource with h | ⟨id, h⟩
    · exact ⟨[], by rw [h]; simp, by simp⟩
    · exact ⟨[⟨.KindAWSInstanceID, id⟩], by rw [h]; simp, by simp⟩
  · intro other
    rw [Extract_of_arn pl key s a hpre hparse, Extract_of_arn pl other s a hpre hparse]

/-- C11 under the key `accountId`, for the ARN of an account root: the ARN and the account id
of the ARN are appended, as under the key `domain`. -/
theorem extract_arn_value_witness :
    strings.HasPrefix "arn:aws:iam::123456789012:root" "arn:" = true ∧
    arn.Parse "arn:aws:iam::123456789012:root" =
      some ⟨"aws", "iam", "", "123456789012", "root"⟩ ∧
    AWSExtractor.Extract [] (some (.string "domain"))
        (some (.string "arn:aws:iam::123456789012:root")) =
      AWSExtractor.Extract [] (some (.string "accountId"))
        (some (.string "arn:aws:iam::123456789012:root")) ∧
    AWSExtractor.Extract [] (some (.string "accountId"))
        (some (.string "arn:aws:iam::123456789012:root")) =
      [⟨.KindAWSARN, "arn:aws:iam::123456789012:root"⟩, ⟨.KindAWSAccountID, "123456789012"⟩] :=
  ⟨by decide, by decide,
    (extract_arn_value [] (some (.string "accountId")) "arn:aws:iam::123456789012:root"
      ⟨"aws", "iam", "", "123456789012", "root"⟩ (by decide) (by decide)).2
      (some (.string "domain")),
    by decide⟩

/-- C12 as stated fails: it is not so that every AWSInstanceID that `Extract` appends for an
ARN value is the whole text after `instance/` of the resource and begins with `i-`. For the
resource `instance/x/i-1` the id appended is `i-1`, the text after the last slash. -/
theorem extract_instance_id_not_whole_text :
    ¬ ∀ (key : gjson.Result) (s : String) (a : arn.ARN) (id : String),
      strings.HasPrefix s "arn:" = true → arn.Parse s = some a →
      (⟨.KindAWSInstanceID, id⟩ : Value) ∈
        AWSExtractor.Extract [] key (some (.string s)) →
      a.Resource = "instance/" ++ id ∧ strings.HasPrefix id "i-" = true := by
  intro h
  have h1 := h (some (.string "resource"))
    "arn:aws:ec2:us-east-1:123456789012:instance/x/i-1"
    ⟨"aws", "ec2", "us-east-1", "123456789012", "instance/x/i-1"⟩ "i-1"
    (by decide) (by decide) (by decide)
  exact absurd h1.1 (by decide)

/-- C12 as amended: for an ARN value, `Extract` appends the AWSInstanceID `id` if and only if
the resource of the ARN begins with `instance/`, `id` is the text after the last slash of the
resource, and `id` begins with `i-`. When the resource is `instance/<id>` with no further
slash in `<id>`, that is: if and only if `<id>` begins with `i-`, and the id appended is
then the whole text after `instance/`. -/
theorem extract_instance_id_after_last_slash (key : gjson.Result) (s : String) (a : arn.ARN)
    (id : String) (hpre : strings.HasPrefix s "arn:" = true) (hparse : arn.Parse s = some a) :
    ((⟨.KindAWSInstanceID, id⟩ : Value) ∈ AWSExtractor.Extract [] key (some (.string s)) ↔
      (strings.HasPrefix a.Resource "instance/" = true ∧ strings.HasPrefix id "i-" = true ∧
        ∃ pre, a.Resource.data = pre ++ '/' :: id.data ∧ '/' ∉ id.data)) ∧
    (a.Resource = "instance/" ++ id → '/' ∉ id.data →
      ((⟨.KindAWSInstanceID, id⟩ : Value) ∈ AWSExtractor.Extract [] key (some (.string s)) ↔
        strings.HasPrefix id "i-" = true)) := by
  have hmain : (⟨.KindAWSInstanceID, id⟩ : Value) ∈
        AWSExtractor.Extract [] key (some (.string s)) ↔
      (strings.HasPrefix a.Resource "instance/" = true ∧ strings.HasPrefix id "i-" = true ∧
        ∃ pre, a.Resource.data = pre ++ '/' :: id.data ∧ '/' ∉ id.data) := by
    rw [Extract_of_arn [] key s a hpre hparse]
    by_cases hinst : strings.HasPrefix a.Resource "instance/" = true
    · obtain ⟨pre, t, hres, ht⟩ :=
        strings.exists_last_sep '/' a.Resource.data (slash_mem_of_instance _ hinst)
      rw [extractInstanceID_of_last_slash _ _ pre t hres ht]
      constructor
      · intro hmem
        by_cases hid : strings.HasPrefix (String.mk t) "i-" = true
        · rw [if_pos ⟨hinst, hid⟩] at hmem
          simp only [List.nil_append, List.cons_append, List.mem_cons, Value.mk.injEq,
            List.mem_singleton, reduceCtorEq, false_and, false_or, true_and,
            List.not_mem_nil, or_false] at hmem
          subst hmem
          exact ⟨hinst, hid, pre, hres, ht⟩
        · rw [if_neg (fun h => hid h.2)] at hmem
          simp at hmem
      · rintro ⟨_, hid, pre2, hres2, ht2⟩
        have ht12 : t = id.data :=
          after_last_slash_unique pre pre2 t id.data (by rw [← hres, hres2]) ht ht2
        have hmk : String.mk t = id := by rw [ht12]
        rw [hmk, if_pos ⟨hinst, hid⟩]
        simp
    · rw [extractInstanceID_of_no_instance _ _ hinst]
      simp [hinst]
  refine ⟨hmain, fun hres hslash => ?_⟩
  rw [hmain]
  have hinst : strings.HasPrefix a.Resource "instance/" = true := by
    rw [strings.HasPrefix_iff]
    exact ⟨id.data, by rw [hres, String.data_append]⟩
  have hdec : ∃ pre, a.Resource.data = pre ++ '/' :: id.data ∧ '/' ∉ id.data :=
    ⟨"instance".data, by rw [hres, String.data_append]; rfl, hslash⟩
  constructor
  · exact fun h => h.2.1
  · exact fun h => ⟨hinst, h, hdec⟩

/-- C12 as amended, on the ARN of an EC2 instance: the id appended is `i-0abc`. -/
theorem extract_instance_id_after_last_slash_witness :
    strings.HasPrefix "arn:aws:ec2:us-east-1:123456789012:instance/i-0abc" "arn:" = true ∧
    arn.Parse "arn:aws:ec2:us-east-1:123456789012:instance/i-0abc" =
      some ⟨"aws", "ec2", "us-east-1", "123456789012", "instance/i-0abc"⟩ ∧
    (⟨.KindAWSInstanceID, "i-0abc"⟩ : Value) ∈
      AWSExtractor.Extract [] (some (.string "resource"))
        (some (.string "arn:aws:ec2:us-east-1:123456789012:instance/i-0abc")) :=
  ⟨by decide, by decide,
    ((extract_instance_id_after_last_slash (some (.string "resource"))
      "arn:aws:ec2:us-east-1:123456789012:instance/i-0abc"
      ⟨"aws", "ec2", "us-east-1", "123456789012", "instance/i-0abc"⟩ "i-0abc"
      (by decide) (by decide)).2 (by decide) (by decide)).mpr (by decide)⟩

end extractorClaims

end panther

namespace panther

/-! ## Claims on the JSON scanner -/

section scannerClaims2

open awslogs pantherlog

/-- C13: with the ARN scanner of the spec, for a key that no key-name rule names and a string
value that begins with `arn:` and parses as an ARN, `ScanValues` on the object holding that
one field returns the accumulator followed by exactly the AWSARN of the whole text, the
AWSAccountID of the account segment and, when the resource is `instance/<id>` with `<id>`
beginning with `i-`, the AWSInstanceID `<id>`; when the resource is not of that form nothing
follows the account id. -/
theorem scanValues_arn_under_plain_key (acc : List Value) (key val : String) (a : arn.ARN)
    (hkey : matchesKeyRule key = false) (hpre : strings.HasPrefix val "arn:" = true)
    (hparse : arn.Parse val = some a) :
    (∀ id, a.Resource = "instance/" ++ id → strings.HasPrefix id "i-" = true →
      ((JSONScanner specScanARN).ScanValues acc (.object [(key, .string val)])).2 =
        (acc ++ [⟨.KindAWSARN, val⟩, ⟨.KindAWSAccountID, a.AccountID⟩,
          ⟨.KindAWSInstanceID, id⟩], none)) ∧
    ((¬ ∃ id, a.Resource = "instance/" ++ id ∧ strings.HasPrefix id "i-" = true) →
      ((JSONScanner specScanARN).ScanValues acc (.object [(key, .string val)])).2 =
        (acc ++ [⟨.KindAWSARN, val⟩, ⟨.KindAWSAccountID, a.AccountID⟩], none)) := by
  have hscan : ((JSONScanner specScanARN).ScanValues acc (.object [(key, .string val)])).2 =
      ((specScanARN.ScanValues acc val).1, none) := by
    rw [ScanValues_new]
    simp [ReadObjectCB, readFields, Visit, visitString_of_no_rule _ _ _ _ hkey hpre]
  rw [hscan]
  constructor
  · intro id hres hid
    have hinst : strings.HasPrefix a.Resource "instance/i-" = true :=
      (instance_resource_iff _).mpr ⟨id, hres, hid⟩
    have hdrop : String.mk (a.Resource.data.drop 9) = id := by
      apply String.ext
      rw [hres, String.data_append]
      rfl
    simp [specScanARN, hparse, hinst, hdrop, AccountID, InstanceID]
  · intro hno
    have hinst : ¬ strings.HasPrefix a.Resource "instance/i-" = true :=
      fun h => hno ((instance_resource_iff _).mp h)
    simp [specScanARN, hparse, hinst, AccountID]

/-- C13 on the text `{"role":"arn:aws:iam::123456789012:instance/i-0abc"}`: the result is
exactly the ARN, the account id and the instance id. -/
theorem scanValues_arn_under_plain_key_witness :
    matchesKeyRule "role" = false ∧
    strings.HasPrefix "arn:aws:iam::123456789012:instance/i-0abc" "arn:" = true ∧
    arn.Parse "arn:aws:iam::123456789012:instance/i-0abc" =
      some ⟨"aws", "iam", "", "123456789012", "instance/i-0abc"⟩ ∧
    ((JSONScanner specScanARN).ScanValues []
        (.object [("role", .string "arn:aws:iam::123456789012:instance/i-0abc")])).2 =
      ([⟨.KindAWSARN, "arn:aws:iam::123456789012:instance/i-0abc"⟩,
        ⟨.KindAWSAccountID, "123456789012"⟩, ⟨.KindAWSInstanceID, "i-0abc"⟩], none) :=
  ⟨by decide, by decide, by decide,
    (scanValues_arn_under_plain_key [] "role" "arn:aws:iam::123456789012:instance/i-0abc"
      ⟨"aws", "iam", "", "123456789012", "instance/i-0abc"⟩ (by decide) (by decide)
      (by decide)).1 "i-0abc" (by decide) (by decide)⟩

/-- C14, evaluated on the code for the text `{"instanceId":"unknown"}`: the value does not
begin with `arn:` nor with `i-`, and `ScanValues` returns the AWSInstanceID `unknown`, where
the claim has it emit nothing; `Extract` appends nothing for the same key and value. -/
theorem scanValues_instanceId_without_i_dash (a : scanARN) :
    strings.HasPrefix "unknown" "arn:" = false ∧
    strings.HasPrefix "unknown" "i-" = false ∧
    ((JSONScanner a).ScanValues [] (.object [("instanceId", .string "unknown")])).2 =
      ([⟨.KindAWSInstanceID, "unknown"⟩], none) ∧
    AWSExtractor.Extract [] (some (.string "instanceId")) (some (.string "unknown")) = [] :=
  ⟨by decide, by decide, rfl, by decide⟩

/-- C15: on a `tags` array of objects `{"key": k, "value": v}`, where either field may be
left out, `ScanValues` returns the accumulator followed by one Tag `k:v` for each element in
which both are there and not empty, in array order, and nothing for the other elements. So
the text `{"instanceId":"i-0123456789abcdef0","tags":[{"key":"env","value":"prod"}]}` gives
the instance id and the Tag `env:prod`. -/
theorem scanValues_tags (a : scanARN) (acc : List Value)
    (tags : List (Option String × Option String)) :
    ((JSONScanner a).ScanValues acc
        (.object [("tags", .array (tags.map fun kv => tagObject kv.1 kv.2))])).2 =
      (acc ++ tags.filterMap tagValue?, none) ∧
    ((JSONScanner a).ScanValues []
        (.object [("instanceId", .string "i-0123456789abcdef0"),
          ("tags", .array [tagObject (some "env") (some "prod")])])).2 =
      ([⟨.KindAWSInstanceID, "i-0123456789abcdef0"⟩, ⟨.KindTag, "env:prod"⟩], none) := by
  refine ⟨?_, rfl⟩
  rw [ScanValues_new]
  simp [ReadObjectCB, readFields, Visit, visitTags_tagObjects]

/-- C16, evaluated on the code for the text `{"names":["a"],"accountId":"123456789012"}`:
the array under `names` holds a string, `ReadObjectCB` reports an error on it, and
`ScanValues` returns that error and no value, where the claim has the element passed over
without an error. -/
theorem scanValues_array_of_strings (a : scanARN) :
    ((JSONScanner a).ScanValues []
        (.object [("names", .array [.string "a"]),
          ("accountId", .string "123456789012")])).2 =
      ([], some ⟨"ReadObjectCB", "expect \x7b or n, but found \""⟩) :=
  rfl

/-- C19, evaluated on the code for the accumulator holding the IPAddress `10.0.0.1` and the
malformed text `{"accountId":"123456789012","a":<}`: `ScanValues` returns an error, and the
`Values` field of the scanner after the call holds the accumulator and the account id
scanned before the error; it is not nil. -/
theorem scanValues_error_keeps_values (a : scanARN) :
    ((JSONScanner a).ScanValues [IPAddress "10.0.0.1"]
        (.object [("accountId", .string "123456789012"), ("a", .invalid "<")])).2 =
      ([IPAddress "10.0.0.1"], some ⟨"Skip", "do not know how to skip: <"⟩) ∧
    ((JSONScanner a).ScanValues [IPAddress "10.0.0.1"]
        (.object [("accountId", .string "123456789012"), ("a", .invalid "<")])).1.Values =
      [IPAddress "10.0.0.1", AccountID "123456789012"] :=
  ⟨rfl, rfl⟩

/-- C20, evaluated on the code for the malformed text `{"a":<}` and then the well-formed
text `{"accountId":"123456789012"}`: the first scan returns an error; on a new scanner the
second text gives the account id and no error, but on the scanner that has just failed it
gives no value and the error of the first scan, which `ResetBytes` left in the iterator. -/
theorem scanValues_error_carries_over (a : scanARN) :
    ((JSONScanner a).ScanValues [] (.object [("a", .invalid "<")])).2 =
      ([], some ⟨"Skip", "do not know how to skip: <"⟩) ∧
    ((JSONScanner a).ScanValues [] (.object [("accountId", .string "123456789012")])).2 =
      ([AccountID "123456789012"], none) ∧
    (((JSONScanner a).ScanValues [] (.object [("a", .invalid "<")])).1.ScanValues []
        (.object [("accountId", .string "123456789012")])).2 =
      ([], some ⟨"Skip", "do not know how to skip: <"⟩) :=
  ⟨rfl, rfl, rfl⟩

end scannerClaims2

end panther

namespace panther

namespace awslogs

open pantherlog

/-- The ARN scanner of the spec adds its values after the values it is given. -/
theorem specScanARN_append (values : List Value) (s : String) :
    (specScanARN.ScanValues values s).1 = values ++ (specScanARN.ScanValues [] s).1 := by
  simp only [specScanARN]
  cases arn.Parse s with
  | none => simp
  | some parsed =>
    by_cases h : strings.HasPrefix parsed.Resource "instance/i-" = true <;> simp [h]

end awslogs

section accumulatorClaims

open awslogs pantherlog

/-- C18: let the ARN scanner add its values after the values it is given. Then for every
scanner, accumulator and input, a `ScanValues` that returns no error returns the accumulator,
unchanged and in order, followed by the values it finds in the input (those it returns for
the empty accumulator); a `ScanValues` that returns an error returns the accumulator as it
was passed; and whether it returns an error does not depend on the accumulator. -/
theorem scanValues_keeps_accumulator (js : scanJSON) (acc : List Value) (input : JSON)
    (harn : ∀ values s, (js.arn.ScanValues values s).1 = values ++ (js.arn.ScanValues [] s).1) :
    ((js.ScanValues acc input).2.2 = none →
      (js.ScanValues acc input).2.1 = acc ++ (js.ScanValues [] input).2.1) ∧
    ((js.ScanValues acc input).2.2 ≠ none → (js.ScanValues acc input).2.1 = acc) ∧
    (js.ScanValues acc input).2.2 = (js.ScanValues [] input).2.2 := by
  have happ : ∀ e, ReadObjectCB js.arn ⟨acc, e⟩ input =
      Walk.after acc (ReadObjectCB js.arn ⟨[], e⟩ input) := by
    intro e
    have := ReadObjectCB_append js.arn harn acc input ⟨[], e⟩
    simpa using this
  simp only [scanJSON.ScanValues, happ, Walk.after]
  cases (ReadObjectCB js.arn ⟨[], (match js.iter with
    | none => (⟨none⟩ : Iterator)
    | some it => it).Error⟩ input).2.Error <;> simp

/-- C18 for a new scanner with the ARN scanner of the spec, on an accumulator holding an
IPAddress and the text `{"role":"arn:aws:iam::123456789012:instance/i-0abc"}`. -/
theorem scanValues_keeps_accumulator_witness :
    (∀ values s, ((JSONScanner specScanARN).arn.ScanValues values s).1 =
      values ++ ((JSONScanner specScanARN).arn.ScanValues [] s).1) ∧
    ((JSONScanner specScanARN).ScanValues [IPAddress "10.0.0.1"]
        (.object [("role", .string "arn:aws:iam::123456789012:instance/i-0abc")])).2.1 =
      [IPAddress "10.0.0.1"] ++
        ((JSONScanner specScanARN).ScanValues []
          (.object [("role", .string "arn:aws:iam::123456789012:instance/i-0abc")])).2.1 :=
  ⟨specScanARN_append,
    (scanValues_keeps_accumulator (JSONScanner specScanARN) [IPAddress "10.0.0.1"]
      (.object [("role", .string "arn:aws:iam::123456789012:instance/i-0abc")])
      specScanARN_append).1 rfl⟩

end accumulatorClaims

end panther

namespace panther

/-! ## Malformed tokens -/

namespace jsoniter

theorem ReportError_ne_none (err : Option IterError) (operation msg : String) :
    ReportError err operation msg ≠ none := by
  cases err <;> simp [ReportError]

theorem ReadString_error (err : Option IterError) (v : JSON)
    (h : err ≠ none ∨ v.hasInvalid = true) : (ReadString err v).2 ≠ none := by
  cases v with
  | string s =>
    rcases h with h | h
    · exact h
    · simp [JSON.hasInvalid] at h
  | null =>
    rcases h with h | h
    · exact h
    · simp [JSON.hasInvalid] at h
  | bool b => exact ReportError_ne_none _ _ _
  | number text => exact ReportError_ne_none _ _ _
  | array elems => exact ReportError_ne_none _ _ _
  | object fields => exact ReportError_ne_none _ _ _
  | invalid text => exact ReportError_ne_none _ _ _

theorem Skip_error (err : Option IterError) (v : JSON)
    (h : err ≠ none ∨ v.hasInvalid = true) : Skip err v ≠ none := by
  unfold Skip
  by_cases hv : v.hasInvalid = true
  · rw [if_pos hv]; exact ReportError_ne_none _ _ _
  · rw [if_neg hv]
    rcases h with h | h
    · exact h
    · exact absurd h hv

end jsoniter

namespace awslogs

open pantherlog

theorem readTagFields_error (fields : List (String × JSON)) (tag : tagListEntry)
    (h : JSON.anyFieldInvalid fields = true) : (readTagFields tag fields).2 ≠ none := by
  induction fields generalizing tag with
  | nil => simp [JSON.anyFieldInvalid] at h
  | cons f rest ih =>
    obtain ⟨name, v⟩ := f
    simp only [JSON.anyFieldInvalid, Bool.or_eq_true] at h
    unfold readTagFields
    split_ifs
    · rcases hr : jsoniter.ReadString none v with ⟨s, e⟩
      cases e with
      | some e => simp
      | none =>
        simp only []
        rcases h with h | h
        · have := jsoniter.ReadString_error none v (Or.inr h)
          rw [hr] at this
          exact absurd rfl this
        · exact ih _ h
    · rcases hr : jsoniter.ReadString none v with ⟨s, e⟩
      cases e with
      | some e => simp
      | none =>
        simp only []
        rcases h with h | h
        · have := jsoniter.ReadString_error none v (Or.inr h)
          rw [hr] at this
          exact absurd rfl this
        · exact ih _ h
    · cases hr : jsoniter.Skip none v with
      | some e => simp
      | none =>
        simp only []
        rcases h with h | h
        · exact absurd hr (jsoniter.Skip_error none v (Or.inr h))
        · exact ih _ h

theorem ReadVal_error (v : JSON) (h : v.hasInvalid = true) : (ReadVal v).2 ≠ none := by
  cases v with
  | object fields => exact readTagFields_error fields _ (by simpa [JSON.hasInvalid] using h)
  | null => simp [JSON.hasInvalid] at h
  | string s => simp [ReadVal]
  | bool b => simp [ReadVal]
  | number text => simp [ReadVal]
  | array elems => simp [ReadVal]
  | invalid text => simp [ReadVal]

theorem visitTags_error (elems : List JSON) (w : Walk)
    (h : w.Error ≠ none ∨ JSON.anyInvalid elems = true) :
    (visitTags w elems).Error ≠ none := by
  induction elems generalizing w with
  | nil =>
    rcases h with h | h
    · exact h
    · simp [JSON.anyInvalid] at h
  | cons elem rest ih =>
    obtain ⟨vs, e⟩ := w
    cases e with
    | some err => simp [visitTags]
    | none =>
      simp only [visitTags]
      apply ih
      rcases h with h | h
      · exact absurd rfl h
      · simp only [JSON.anyInvalid, Bool.or_eq_true] at h
        rcases h with h | h
        · exact Or.inl (ReadVal_error elem h)
        · exact Or.inr h

theorem visitIPv6_error (elems : List JSON) (w : Walk)
    (h : w.Error ≠ none ∨ JSON.anyInvalid elems = true) :
    (visitIPv6 w elems).Error ≠ none := by
  induction elems generalizing w with
  | nil =>
    rcases h with h | h
    · exact h
    · simp [JSON.anyInvalid] at h
  | cons elem rest ih =>
    obtain ⟨vs, e⟩ := w
    cases e with
    | some err => simp [visitIPv6]
    | none =>
      simp only [visitIPv6]
      apply ih
      rcases h with h | h
      · exact absurd rfl h
      · simp only [JSON.anyInvalid, Bool.or_eq_true] at h
        rcases h with h | h
        · exact Or.inl (jsoniter.ReadString_error none elem (Or.inr h))
        · exact Or.inr h

theorem isNone_false_iff {α : Type} (o : Option α) : o.isNone = false ↔ o ≠ none := by
  cases o <;> simp

mutual

theorem Visit_error (a : scanARN) (key : String) :
    ∀ (v : JSON) (w : Walk),
      ((Visit a w key v).1 = false → (Visit a w key v).2.Error ≠ none) ∧
      (w.Error ≠ none ∨ v.hasInvalid = true → (Visit a w key v).2.Error ≠ none)
  | .object fields, w => by
    simp only [Visit, JSON.hasInvalid]
    exact readFields_error a fields w
  | .string val, w => by
    simp only [Visit, JSON.hasInvalid, isNone_false_iff]
    exact ⟨id, fun h => h.elim id (fun h => by simp at h)⟩
  | .array elems, w => by
    simp only [Visit, JSON.hasInvalid]
    split_ifs
    · simp only [isNone_false_iff]
      exact ⟨id, visitTags_error elems w⟩
    · simp only [isNone_false_iff]
      exact ⟨id, visitIPv6_error elems w⟩
    · have ih := readElements_error a elems w
      rcases hr : readElements a w elems with ⟨b, w1⟩
      rw [hr] at ih
      cases b
      · exact ⟨fun _ => ih.1 rfl, ih.2⟩
      · simp only [isNone_false_iff]
        exact ⟨id, ih.2⟩
  | .invalid text, w => by
    simp only [Visit]
    exact ⟨fun _ => jsoniter.ReportError_ne_none _ _ _,
      fun _ => jsoniter.ReportError_ne_none _ _ _⟩
  | .null, w => by
    simp only [Visit, JSON.hasInvalid, isNone_false_iff]
    exact ⟨id, fun h => h.elim id (fun h => by simp at h)⟩
  | .bool b, w => by
    simp only [Visit, JSON.hasInvalid, isNone_false_iff]
    exact ⟨id, fun h => h.elim id (fun h => by simp at h)⟩
  | .number text, w => by
    simp only [Visit, JSON.hasInvalid, isNone_false_iff]
    exact ⟨id, fun h => h.elim id (fun h => by simp at h)⟩

theorem readFields_error (a : scanARN) :
    ∀ (fields : List (String × JSON)) (w : Walk),
      ((readFields a w fields).1 = false → (readFields a w fields).2.Error ≠ none) ∧
      (w.Error ≠ none ∨ JSON.anyFieldInvalid fields = true →
        (readFields a w fields).2.Error ≠ none)
  | [], w => by
    simp only [readFields, JSON.anyFieldInvalid]
    exact ⟨fun h => by simp at h, fun h => h.elim id (fun h => by simp at h)⟩
  | (key, v) :: rest, w => by
    have ihv := Visit_error a key v w
    simp only [readFields, JSON.anyFieldInvalid, Bool.or_eq_true]
    rcases hr : Visit a w key v with ⟨b, w1⟩
    rw [hr] at ihv
    cases b
    · exact ⟨fun _ => ihv.1 rfl, fun h => ihv.1 rfl⟩
    · have ihr := readFields_error a rest w1
      refine ⟨ihr.1, fun h => ihr.2 ?_⟩
      rcases h with h | h | h
      · exact Or.inl (ihv.2 (Or.inl h))
      · exact Or.inl (ihv.2 (Or.inr h))
      · exact Or.inr h

theorem readElements_error (a : scanARN) :
    ∀ (elems : List JSON) (w : Walk),
      ((readElements a w elems).1 = false → (readElements a w elems).2.Error ≠ none) ∧
      (w.Error ≠ none ∨ JSON.anyInvalid elems = true →
        (readElements a w elems).2.Error ≠ none)
  | [], w => by
    simp only [readElements, JSON.anyInvalid]
    exact ⟨fun h => by simp at h, fun h => h.elim id (fun h => by simp at h)⟩
  | .object fields :: rest, w => by
    have ihf := readFields_error a fields w
    simp only [readElements, JSON.anyInvalid, JSON.hasInvalid, Bool.or_eq_true]
    rcases hr : readFields a w fields with ⟨b, w1⟩
    rw [hr] at ihf
    cases b
    · exact ⟨fun _ => ihf.1 rfl, fun h => ihf.1 rfl⟩
    · have ihr := readElements_error a rest w1
      refine ⟨ihr.1, fun h => ihr.2 ?_⟩
      rcases h with h | h | h
      · exact Or.inl (ihf.2 (Or.inl h))
      · exact Or.inl (ihf.2 (Or.inr h))
      · exact Or.inr h
  | .null :: rest, w => by
    have ihr := readElements_error a rest w
    simp only [readElements, JSON.anyInvalid, JSON.hasInvalid, Bool.false_or]
    exact ihr
  | .bool b :: rest, w => by
    simp only [readElements]
    exact ⟨fun _ => jsoniter.ReportError_ne_none _ _ _,
      fun _ => jsoniter.ReportError_ne_none _ _ _⟩
  | .number text :: rest, w => by
    simp only [readElements]
    exact ⟨fun _ => jsoniter.ReportError_ne_none _ _ _,
      fun _ => jsoniter.ReportError_ne_none _ _ _⟩
  | .string s :: rest, w => by
    simp only [readElements]
    exact ⟨fun _ => jsoniter.ReportError_ne_none _ _ _,
      fun _ => jsoniter.ReportError_ne_none _ _ _⟩
  | .array elems :: rest, w => by
    simp only [readElements]
    exact ⟨fun _ => jsoniter.ReportError_ne_none _ _ _,
      fun _ => jsoniter.ReportError_ne_none _ _ _⟩
  | .invalid text :: rest, w => by
    simp only [readElements]
    exact ⟨fun _ => jsoniter.ReportError_ne_none _ _ _,
      fun _ => jsoniter.ReportError_ne_none _ _ _⟩

end

theorem ReadObjectCB_error (a : scanARN) (input : JSON) (w : Walk)
    (h : w.Error ≠ none ∨ input.hasInvalid = true) :
    (ReadObjectCB a w input).2.Error ≠ none := by
  cases input with
  | object fields =>
    exact (readFields_error a fields w).2 (by simpa [JSON.hasInvalid] using h)
  | null =>
    rcases h with h | h
    · exact h
    · simp [JSON.hasInvalid] at h
  | bool b => exact jsoniter.ReportError_ne_none _ _ _
  | number text => exact jsoniter.ReportError_ne_none _ _ _
  | string s => exact jsoniter.ReportError_ne_none _ _ _
  | array elems => exact jsoniter.ReportError_ne_none _ _ _
  | invalid text => exact jsoniter.ReportError_ne_none _ _ _

theorem ScanValues_error_of_walk (js : scanJSON) (acc : List Value) (input : JSON)
    (h : (ReadObjectCB js.arn ⟨acc, (match js.iter with
      | none => (⟨none⟩ : Iterator)
      | some it => it).Error⟩ input).2.Error ≠ none) :
    (js.ScanValues acc input).2.2 ≠ none ∧ (js.ScanValues acc input).2.1 = acc := by
  simp only [scanJSON.ScanValues]
  cases hr : (ReadObjectCB js.arn ⟨acc, (match js.iter with
      | none => (⟨none⟩ : Iterator)
      | some it => it).Error⟩ input).2.Error with
  | none => exact absurd hr h
  | some err => simp

end awslogs

end panther

namespace panther

/-! ## The faults of a text -/

namespace jsoniter

theorem reportFault_ne_none (err fault : Option IterError)
    (h : err ≠ none ∨ fault.isSome = true) : reportFault err fault ≠ none := by
  cases fault with
  | none =>
    rcases h with h | h
    · exact h
    · simp at h
  | some e => exact ReportError_ne_none _ _ _

theorem reportFault_none (fault : Option IterError) : reportFault none fault = fault := by
  cases fault <;> rfl

theorem reportFault_some (e : IterError) (fault : Option IterError) :
    reportFault (some e) fault = some e := by
  cases fault <;> rfl

namespace doc

theorem ReadString_refused (err : Option IterError) (v : Doc)
    (h : err ≠ none ∨ v.refused = true) : (ReadString err v).2 ≠ none := by
  cases v with
  | string s =>
    rcases h with h | h
    · exact h
    · simp [Doc.refused] at h
  | null =>
    rcases h with h | h
    · exact h
    · simp [Doc.refused] at h
  | bool b => exact ReportError_ne_none _ _ _
  | number n => exact ReportError_ne_none _ _ _
  | array elems ending => exact ReportError_ne_none _ _ _
  | object fields ending => exact ReportError_ne_none _ _ _
  | invalid text => exact ReportError_ne_none _ _ _

mutual

theorem Skip_refused (depth : Nat) :
    ∀ (v : Doc) (err : Option IterError),
      err ≠ none ∨ v.refused = true → Skip depth err v ≠ none
  | .object fields ending, err => by
    intro h
    simp only [Skip]
    split_ifs
    · apply skipFields_refused (depth + 1) fields ending err
      rcases h with h | h
      · exact Or.inl h
      · simp only [Doc.refused, Bool.or_eq_true] at h
        rcases h with h | h
        · exact Or.inr (Or.inl h)
        · exact Or.inr (Or.inr h)
    · exact ReportError_ne_none _ _ _
  | .array elems ending, err => by
    intro h
    simp only [Skip]
    split_ifs
    · apply skipElements_refused (depth + 1) elems ending err
      rcases h with h | h
      · exact Or.inl h
      · simp only [Doc.refused, Bool.or_eq_true] at h
        rcases h with h | h
        · exact Or.inr (Or.inl h)
        · exact Or.inr (Or.inr h)
    · exact ReportError_ne_none _ _ _
  | .invalid text, err => by
    intro _
    simp only [Skip]
    exact ReportError_ne_none _ _ _
  | .null, err => by
    intro h
    simp only [Skip]
    exact h.elim id (fun h => by simp [Doc.refused] at h)
  | .bool b, err => by
    intro h
    simp only [Skip]
    exact h.elim id (fun h => by simp [Doc.refused] at h)
  | .number n, err => by
    intro h
    simp only [Skip]
    exact h.elim id (fun h => by simp [Doc.refused] at h)
  | .string s, err => by
    intro h
    simp only [Skip]
    exact h.elim id (fun h => by simp [Doc.refused] at h)

theorem skipFields_refused (depth : Nat) :
    ∀ (fields : List (Option IterError × String × Doc)) (ending err : Option IterError),
      err ≠ none ∨ ending.isSome = true ∨ Doc.anyFieldRefused fields = true →
        skipFields depth err fields ending ≠ none
  | [], ending, err => by
    intro h
    simp only [skipFields]
    apply reportFault_ne_none
    rcases h with h | h | h
    · exact Or.inl h
    · exact Or.inr h
    · simp [Doc.anyFieldRefused] at h
  | (fault, name, v) :: rest, ending, err => by
    intro h
    simp only [skipFields]
    apply skipFields_refused depth rest ending
    simp only [Doc.anyFieldRefused, Bool.or_eq_true] at h
    rcases h with h | h | (h | h) | h
    · exact Or.inl (Skip_refused depth v _ (Or.inl (reportFault_ne_none _ _ (Or.inl h))))
    · exact Or.inr (Or.inl h)
    · exact Or.inl (Skip_refused depth v _ (Or.inl (reportFault_ne_none _ _ (Or.inr h))))
    · exact Or.inl (Skip_refused depth v _ (Or.inr h))
    · exact Or.inr (Or.inr h)

theorem skipElements_refused (depth : Nat) :
    ∀ (elems : List Doc) (ending err : Option IterError),
      err ≠ none ∨ ending.isSome = true ∨ Doc.anyRefused elems = true →
        skipElements depth err elems ending ≠ none
  | [], ending, err => by
    intro h
    simp only [skipElements]
    apply reportFault_ne_none
    rcases h with h | h | h
    · exact Or.inl h
    · exact Or.inr h
    · simp [Doc.anyRefused] at h
  | v :: rest, ending, err => by
    intro h
    simp only [skipElements]
    apply skipElements_refused depth rest ending
    simp only [Doc.anyRefused, Bool.or_eq_true] at h
    rcases h with h | h | h | h
    · exact Or.inl (Skip_refused depth v _ (Or.inl h))
    · exact Or.inr (Or.inl h)
    · exact Or.inl (Skip_refused depth v _ (Or.inr h))
    · exact Or.inr (Or.inr h)

end

end doc

end jsoniter

namespace awslogs

open pantherlog

namespace doc

theorem readTagFields_refused (depth : Nat)
    (fields : List (Option jsoniter.IterError × String × Doc))
    (ending : Option jsoniter.IterError) (tag : tagListEntry)
    (h : ending.isSome = true ∨ Doc.anyFieldRefused fields = true) :
    (readTagFields depth tag fields ending).2 ≠ none := by
  induction fields generalizing tag with
  | nil =>
    rcases h with h | h
    · cases ending with
      | none => simp at h
      | some e => simp [readTagFields]
    · simp [Doc.anyFieldRefused] at h
  | cons f rest ih =>
    obtain ⟨fault, name, v⟩ := f
    cases fault with
    | some e => simp [readTagFields]
    | none =>
      simp only [Doc.anyFieldRefused, Bool.or_eq_true, Option.isSome_none,
        Bool.false_eq_true, false_or] at h
      unfold readTagFields
      split_ifs
      · rcases hr : jsoniter.doc.ReadString none v with ⟨s, e⟩
        cases e with
        | some e => simp
        | none =>
          simp only []
          rcases h with h | h | h
          · exact ih _ (Or.inl h)
          · have := jsoniter.doc.ReadString_refused none v (Or.inr h)
            rw [hr] at this
            exact absurd rfl this
          · exact ih _ (Or.inr h)
      · rcases hr : jsoniter.doc.ReadString none v with ⟨s, e⟩
        cases e with
        | some e => simp
        | none =>
          simp only []
          rcases h with h | h | h
          · exact ih _ (Or.inl h)
          · have := jsoniter.doc.ReadString_refused none v (Or.inr h)
            rw [hr] at this
            exact absurd rfl this
          · exact ih _ (Or.inr h)
      · cases hr : jsoniter.doc.Skip depth none v with
        | some e => simp
        | none =>
          simp only []
          rcases h with h | h | h
          · exact ih _ (Or.inl h)
          · exact absurd hr (jsoniter.doc.Skip_refused depth v none (Or.inr h))
          · exact ih _ (Or.inr h)

theorem ReadVal_refused (depth : Nat) (v : Doc) (h : v.refused = true) :
    (ReadVal depth v).2 ≠ none := by
  cases v with
  | object fields ending =>
    have hf : ending.isSome = true ∨ Doc.anyFieldRefused fields = true := by
      simpa [Doc.refused] using h
    cases fields with
    | nil =>
      cases ending with
      | none => simp [Doc.anyFieldRefused] at hf
      | some e =>
        simp only [ReadVal]
        split_ifs
        · simp [readTagFields]
        · simp
    | cons f rest =>
      simp only [ReadVal]
      split_ifs
      · exact readTagFields_refused _ _ _ _ hf
      · simp
  | null => simp [Doc.refused] at h
  | string s => simp [ReadVal]
  | bool b => simp [ReadVal]
  | number n => simp [ReadVal]
  | array elems ending => simp [ReadVal]
  | invalid text => simp [ReadVal]

theorem visitTags_refused (depth : Nat) (elems : List Doc) (ending : Option jsoniter.IterError)
    (w : Walk)
    (h : w.Error ≠ none ∨ ending.isSome = true ∨ Doc.anyRefused elems = true) :
    (visitTags depth w elems ending).Error ≠ none := by
  induction elems generalizing w with
  | nil =>
    simp only [visitTags]
    apply jsoniter.reportFault_ne_none
    rcases h with h | h | h
    · exact Or.inl h
    · exact Or.inr h
    · simp [Doc.anyRefused] at h
  | cons elem rest ih =>
    obtain ⟨vs, e⟩ := w
    cases e with
    | some err => simp [visitTags]
    | none =>
      simp only [visitTags]
      apply ih
      rcases h with h | h | h
      · exact absurd rfl h
      · exact Or.inr (Or.inl h)
      · simp only [Doc.anyRefused, Bool.or_eq_true] at h
        rcases h with h | h
        · exact Or.inl (ReadVal_refused depth elem h)
        · exact Or.inr (Or.inr h)

theorem visitIPv6_refused (elems : List Doc) (ending : Option jsoniter.IterError) (w : Walk)
    (h : w.Error ≠ none ∨ ending.isSome = true ∨ Doc.anyRefused elems = true) :
    (visitIPv6 w elems ending).Error ≠ none := by
  induction elems generalizing w with
  | nil =>
    simp only [visitIPv6]
    apply jsoniter.reportFault_ne_none
    rcases h with h | h | h
    · exact Or.inl h
    · exact Or.inr h
    · simp [Doc.anyRefused] at h
  | cons elem rest ih =>
    obtain ⟨vs, e⟩ := w
    cases e with
    | some err => simp [visitIPv6]
    | none =>
      simp only [visitIPv6]
      apply ih
      rcases h with h | h | h
      · exact absurd rfl h
      · exact Or.inr (Or.inl h)
      · simp only [Doc.anyRefused, Bool.or_eq_true] at h
        rcases h with h | h
        · exact Or.inl (jsoniter.doc.ReadString_refused none elem (Or.inr h))
        · exact Or.inr (Or.inr h)

mutual

theorem Visit_refused (a : scanARN) (key : String) :
    ∀ (v : Doc) (depth : Nat) (w : Walk),
      ((Visit a depth w key v).1 = false → (Visit a depth w key v).2.Error ≠ none) ∧
      (w.Error ≠ none ∨ v.refused = true → (Visit a depth w key v).2.Error ≠ none)
  | .object fields ending, depth, w => by
    simp only [Visit]
    split_ifs
    · have ih := readFields_refused a fields ending (depth + 1) w
      refine ⟨ih.1, fun h => ih.2 ?_⟩
      rcases h with h | h
      · exact Or.inl h
      · simp only [Doc.refused, Bool.or_eq_true] at h
        exact Or.inr h
    · exact ⟨fun _ => jsoniter.ReportError_ne_none _ _ _,
        fun _ => jsoniter.ReportError_ne_none _ _ _⟩
  | .string val, depth, w => by
    simp only [Visit, Doc.refused, isNone_false_iff]
    exact ⟨id, fun h => h.elim id (fun h => by simp at h)⟩
  | .array elems ending, depth, w => by
    simp only [Visit]
    split_ifs
    · simp only [isNone_false_iff]
      refine ⟨id, fun h => visitTags_refused depth elems ending w ?_⟩
      rcases h with h | h
      · exact Or.inl h
      · simp only [Doc.refused, Bool.or_eq_true] at h
        exact Or.inr h
    · simp only [isNone_false_iff]
      refine ⟨id, fun h => visitIPv6_refused elems ending w ?_⟩
      rcases h with h | h
      · exact Or.inl h
      · simp only [Doc.refused, Bool.or_eq_true] at h
        exact Or.inr h
    · have ih := readElements_refused a elems ending depth w
      have hin : w.Error ≠ none ∨ (Doc.array elems ending).refused = true →
          w.Error ≠ none ∨ ending.isSome = true ∨ Doc.anyRefused elems = true := by
        intro h
        rcases h with h | h
        · exact Or.inl h
        · simp only [Doc.refused, Bool.or_eq_true] at h
          exact Or.inr h
      rcases hr : readElements a depth w elems ending with ⟨b, w1⟩
      rw [hr] at ih
      cases b
      · exact ⟨fun _ => ih.1 rfl, fun h => ih.2 (hin h)⟩
      · simp only [isNone_false_iff]
        exact ⟨id, fun h => ih.2 (hin h)⟩
  | .invalid text, depth, w => by
    simp only [Visit]
    exact ⟨fun _ => jsoniter.ReportError_ne_none _ _ _,
      fun _ => jsoniter.ReportError_ne_none _ _ _⟩
  | .null, depth, w => by
    simp only [Visit, Doc.refused, isNone_false_iff]
    exact ⟨id, fun h => h.elim id (fun h => by simp at h)⟩
  | .bool b, depth, w => by
    simp only [Visit, Doc.refused, isNone_false_iff]
    exact ⟨id, fun h => h.elim id (fun h => by simp at h)⟩
  | .number n, depth, w => by
    simp only [Visit, Doc.refused, isNone_false_iff]
    exact ⟨id, fun h => h.elim id (fun h => by simp at h)⟩

theorem readFields_refused (a : scanARN) :
    ∀ (fields : List (Option jsoniter.IterError × String × Doc))
      (ending : Option jsoniter.IterError) (depth : Nat) (w : Walk),
      ((readFields a depth w fields ending).1 = false →
        (readFields a depth w fields ending).2.Error ≠ none) ∧
      (w.Error ≠ none ∨ ending.isSome = true ∨ Doc.anyFieldRefused fields = true →
        (readFields a depth w fields ending).2.Error ≠ none)
  | [], none, depth, w => by
    simp only [readFields, Doc.anyFieldRefused]
    exact ⟨fun h => by simp at h, fun h => h.elim id (fun h => by simp at h)⟩
  | [], some e, depth, w => by
    simp only [readFields]
    exact ⟨fun _ => jsoniter.ReportError_ne_none _ _ _,
      fun _ => jsoniter.ReportError_ne_none _ _ _⟩
  | (fault, key, v) :: rest, ending, depth, w => by
    have ihv := Visit_refused a key v depth ⟨w.Values, jsoniter.reportFault w.Error fault⟩
    simp only [readFields, Doc.anyFieldRefused, Bool.or_eq_true]
    rcases hr : Visit a depth ⟨w.Values, jsoniter.reportFault w.Error fault⟩ key v with ⟨b, w1⟩
    rw [hr] at ihv
    cases b
    · exact ⟨fun _ => ihv.1 rfl, fun h => ihv.1 rfl⟩
    · have ihr := readFields_refused a rest ending depth w1
      refine ⟨ihr.1, fun h => ihr.2 ?_⟩
      rcases h with h | h | (h | h) | h
      · exact Or.inl (ihv.2 (Or.inl (jsoniter.reportFault_ne_none _ _ (Or.inl h))))
      · exact Or.inr (Or.inl h)
      · exact Or.inl (ihv.2 (Or.inl (jsoniter.reportFault_ne_none _ _ (Or.inr h))))
      · exact Or.inl (ihv.2 (Or.inr h))
      · exact Or.inr (Or.inr h)

theorem readElements_refused (a : scanARN) :
    ∀ (elems : List Doc) (ending : Option jsoniter.IterError) (depth : Nat) (w : Walk),
      ((readElements a depth w elems ending).1 = false →
        (readElements a depth w elems ending).2.Error ≠ none) ∧
      (w.Error ≠ none ∨ ending.isSome = true ∨ Doc.anyRefused elems = true →
        (readElements a depth w elems ending).2.Error ≠ none)
  | [], ending, depth, w => by
    simp only [readElements, Doc.anyRefused]
    refine ⟨fun h => by simp at h, fun h => jsoniter.reportFault_ne_none _ _ ?_⟩
    rcases h with h | h | h
    · exact Or.inl h
    · exact Or.inr h
    · simp at h
  | .object fields oending :: rest, ending, depth, w => by
    simp only [readElements]
    split_ifs
    · have ihf := readFields_refused a fields oending (depth + 1) w
      simp only [Doc.anyRefused, Doc.refused, Bool.or_eq_true]
      rcases hr : readFields a (depth + 1) w fields oending with ⟨b, w1⟩
      rw [hr] at ihf
      cases b
      · exact ⟨fun _ => ihf.1 rfl, fun h => ihf.1 rfl⟩
      · have ihr := readElements_refused a rest ending depth w1
        refine ⟨ihr.1, fun h => ihr.2 ?_⟩
        rcases h with h | h | (h | h) | h
        · exact Or.inl (ihf.2 (Or.inl h))
        · exact Or.inr (Or.inl h)
        · exact Or.inl (ihf.2 (Or.inr (Or.inl h)))
        · exact Or.inl (ihf.2 (Or.inr (Or.inr h)))
        · exact Or.inr (Or.inr h)
    · exact ⟨fun _ => jsoniter.ReportError_ne_none _ _ _,
        fun _ => jsoniter.ReportError_ne_none _ _ _⟩
  | .null :: rest, ending, depth, w => by
    have ihr := readElements_refused a rest ending depth w
    simp only [readElements, Doc.anyRefused, Doc.refused, Bool.false_or]
    exact ihr
  | .bool b :: rest, ending, depth, w => by
    simp only [readElements]
    exact ⟨fun _ => jsoniter.ReportError_ne_none _ _ _,
      fun _ => jsoniter.ReportError_ne_none _ _ _⟩
  | .number n :: rest, ending, depth, w => by
    simp only [readElements]
    exact ⟨fun _ => jsoniter.ReportError_ne_none _ _ _,
      fun _ => jsoniter.ReportError_ne_none _ _ _⟩
  | .string s :: rest, ending, depth, w => by
    simp only [readElements]
    exact ⟨fun _ => jsoniter.ReportError_ne_none _ _ _,
      fun _ => jsoniter.ReportError_ne_none _ _ _⟩
  | .array elems aending :: rest, ending, depth, w => by
    simp only [readElements]
    exact ⟨fun _ => jsoniter.ReportError_ne_none _ _ _,
      fun _ => jsoniter.ReportError_ne_none _ _ _⟩
  | .invalid text :: rest, ending, depth, w => by
    simp only [readElements]
    exact ⟨fun _ => jsoniter.ReportError_ne_none _ _ _,
      fun _ => jsoniter.ReportError_ne_none _ _ _⟩

end

end doc

theorem ScanDoc_error_of_walk (js : scanJSON) (acc : List Value) (input : Doc)
    (h : (doc.ReadObjectCB js.arn 0 ⟨acc, (match js.iter with
      | none => (⟨none⟩ : Iterator)
      | some it => it).Error⟩ input).2.Error ≠ none) :
    (js.ScanDoc acc input).2.2 ≠ none ∧ (js.ScanDoc acc input).2.1 = acc := by
  simp only [scanJSON.ScanDoc]
  cases hr : (doc.ReadObjectCB js.arn 0 ⟨acc, (match js.iter with
      | none => (⟨none⟩ : Iterator)
      | some it => it).Error⟩ input).2.Error with
  | none => exact absurd hr h
  | some err => simp

end awslogs

end panther

namespace panther

/-! ## The accumulator of a walk over a text with its faults -/

namespace awslogs

open pantherlog

namespace doc

theorem visitTags_accumulate (depth : Nat) (vs : List Value) (elems : List Doc)
    (ending : Option jsoniter.IterError) (w : Walk) :
    visitTags depth ⟨vs ++ w.Values, w.Error⟩ elems ending =
      ⟨vs ++ (visitTags depth w elems ending).Values, (visitTags depth w elems ending).Error⟩ := by
  induction elems generalizing w with
  | nil => rfl
  | cons elem rest ih =>
    obtain ⟨ws, e⟩ := w
    cases e with
    | some err => rfl
    | none =>
      simp only [visitTags]
      split_ifs with h
      · have := ih ⟨ws ++ [⟨ValueKind.KindTag, (ReadVal depth elem).1.Key ++ ":" ++
          (ReadVal depth elem).1.Value⟩], (ReadVal depth elem).2⟩
        simpa [List.append_assoc] using this
      · exact ih ⟨ws, (ReadVal depth elem).2⟩

theorem visitIPv6_accumulate (vs : List Value) (elems : List Doc)
    (ending : Option jsoniter.IterError) (w : Walk) :
    visitIPv6 ⟨vs ++ w.Values, w.Error⟩ elems ending =
      ⟨vs ++ (visitIPv6 w elems ending).Values, (visitIPv6 w elems ending).Error⟩ := by
  induction elems generalizing w with
  | nil => rfl
  | cons elem rest ih =>
    obtain ⟨ws, e⟩ := w
    cases e with
    | some err => rfl
    | none =>
      simp only [visitIPv6]
      have := ih ⟨ws ++ [IPAddress (jsoniter.doc.ReadString none elem).1],
        (jsoniter.doc.ReadString none elem).2⟩
      simpa [List.append_assoc] using this

mutual

theorem Visit_accumulate (a : scanARN)
    (harn : ∀ values s, (a.ScanValues values s).1 = values ++ (a.ScanValues [] s).1)
    (vs : List Value) (key : String) :
    ∀ (v : Doc) (depth : Nat) (w : Walk),
      Visit a depth ⟨vs ++ w.Values, w.Error⟩ key v = Walk.after vs (Visit a depth w key v)
  | .object fields ending, depth, w => by
    simp only [Visit]
    split_ifs
    · exact readFields_accumulate a harn vs fields ending (depth + 1) w
    · simp [Walk.after]
  | .string val, depth, w => by
    simp [Visit, Walk.after, visitString_append a harn]
  | .array elems ending, depth, w => by
    simp only [Visit]
    split_ifs
    · simp [Walk.after, visitTags_accumulate]
    · simp [Walk.after, visitIPv6_accumulate]
    · rw [readElements_accumulate a harn vs elems ending depth w]
      rcases readElements a depth w elems ending with ⟨b, w1⟩
      cases b <;> simp [Walk.after]
  | .invalid text, depth, w => by simp [Visit, Walk.after]
  | .null, depth, w => by simp [Visit, Walk.after]
  | .bool b, depth, w => by simp [Visit, Walk.after]
  | .number n, depth, w => by simp [Visit, Walk.after]

theorem readFields_accumulate (a : scanARN)
    (harn : ∀ values s, (a.ScanValues values s).1 = values ++ (a.ScanValues [] s).1)
    (vs : List Value) :
    ∀ (fields : List (Option jsoniter.IterError × String × Doc))
      (ending : Option jsoniter.IterError) (depth : Nat) (w : Walk),
      readFields a depth ⟨vs ++ w.Values, w.Error⟩ fields ending =
        Walk.after vs (readFields a depth w fields ending)
  | [], none, depth, w => by simp [readFields, Walk.after]
  | [], some e, depth, w => by simp [readFields, Walk.after]
  | (fault, key, v) :: rest, ending, depth, w => by
    simp only [readFields]
    rw [Visit_accumulate a harn vs key v depth ⟨w.Values, jsoniter.reportFault w.Error fault⟩]
    rcases Visit a depth ⟨w.Values, jsoniter.reportFault w.Error fault⟩ key v with ⟨b, w1⟩
    cases b
    · simp [Walk.after]
    · simp only [Walk.after]
      exact readFields_accumulate a harn vs rest ending depth w1

theorem readElements_accumulate (a : scanARN)
    (harn : ∀ values s, (a.ScanValues values s).1 = values ++ (a.ScanValues [] s).1)
    (vs : List Value) :
    ∀ (elems : List Doc) (ending : Option jsoniter.IterError) (depth : Nat) (w : Walk),
      readElements a depth ⟨vs ++ w.Values, w.Error⟩ elems ending =
        Walk.after vs (readElements a depth w elems ending)
  | [], ending, depth, w => by simp [readElements, Walk.after]
  | .object fields oending :: rest, ending, depth, w => by
    simp only [readElements]
    split_ifs
    · rw [readFields_accumulate a harn vs fields oending (depth + 1) w]
      rcases readFields a (depth + 1) w fields oending with ⟨b, w1⟩
      cases b
      · simp [Walk.after]
      · simp only [Walk.after]
        exact readElements_accumulate a harn vs rest ending depth w1
    · simp [Walk.after]
  | .null :: rest, ending, depth, w => by
    simp only [readElements]
    exact readElements_accumulate a harn vs rest ending depth w
  | .bool b :: rest, ending, depth, w => by simp [readElements, Walk.after]
  | .number n :: rest, ending, depth, w => by simp [readElements, Walk.after]
  | .string s :: rest, ending, depth, w => by simp [readElements, Walk.after]
  | .array elems aending :: rest, ending, depth, w => by simp [readElements, Walk.after]
  | .invalid text :: rest, ending, depth, w => by simp [readElements, Walk.after]

end

/-- The fields of an object read in two parts. -/
theorem readFields_split (a : scanARN) (ending : Option jsoniter.IterError) (depth : Nat)
    (ys : List (Option jsoniter.IterError × String × Doc)) :
    ∀ (xs : List (Option jsoniter.IterError × String × Doc)) (w : Walk),
      readFields a depth w (xs ++ ys) ending =
        match readFields a depth w xs none with
        | (false, w1) => (false, w1)
        | (true, w1) => readFields a depth w1 ys ending
  | [], w => by simp [readFields]
  | (fault, key, v) :: rest, w => by
    simp only [List.cons_append, readFields]
    rcases Visit a depth ⟨w.Values, jsoniter.reportFault w.Error fault⟩ key v with ⟨b, w1⟩
    cases b
    · rfl
    · exact readFields_split a ending depth ys rest w1

end doc

/-- Fields that yield values when scanned by themselves add these values to the values of
any walk that has no error. -/
theorem readFields_of_fieldsYield (a : scanARN)
    (harn : ∀ values s, (a.ScanValues values s).1 = values ++ (a.ScanValues [] s).1)
    (depth : Nat) (fields : List (Option jsoniter.IterError × String × Doc))
    (found : List Value) (h : fieldsYield a depth fields = some found) (vs : List Value) :
    doc.readFields a depth ⟨vs, none⟩ fields none = (true, ⟨vs ++ found, none⟩) := by
  have happ := doc.readFields_accumulate a harn vs fields none depth ⟨[], none⟩
  simp only [List.append_nil] at happ
  rw [happ]
  unfold fieldsYield at h
  rcases hr : doc.readFields a depth ⟨[], none⟩ fields none with ⟨b, ws, e⟩
  rw [hr] at h
  cases b <;> cases e <;> simp at h
  subst h
  rfl

theorem nestIn_isObject (levels : List Level)
    (fields : List (Option jsoniter.IterError × String × Doc)) :
    ∃ fs, nestIn levels (.object fields none) = .object fs none := by
  cases levels with
  | nil => exact ⟨fields, rfl⟩
  | cons l ls => exact ⟨_, rfl⟩

/-- The walk of a field with a string value, inside its object and every level around it,
when the nesting stays under the limit and the fields around yield values. -/
theorem Visit_nestIn (a : scanARN)
    (harn : ∀ values s, (a.ScanValues values s).1 = values ++ (a.ScanValues [] s).1)
    (key val : String) (outer : String) :
    ∀ (levels : List Level) (depth : Nat) (vs pres posts : List Value),
      depth + levels.length < jsoniter.maxDepth →
      levelsYield a depth levels = some (pres, posts) →
      doc.Visit a depth ⟨vs, none⟩ outer (nestIn levels (.object [(none, key, .string val)] none)) =
        (true, ⟨vs ++ pres ++ (visitString a [] key val) ++ posts, none⟩)
  | [], depth, vs, pres, posts => by
    intro hd hy
    simp only [levelsYield, Option.some.injEq, Prod.mk.injEq] at hy
    obtain ⟨rfl, rfl⟩ := hy
    have hlt : depth < jsoniter.maxDepth := by simpa using hd
    have hvs := visitString_append a harn vs [] key val
    simp only [List.append_nil] at hvs
    simp [nestIn, doc.Visit, doc.readFields, hlt, jsoniter.reportFault, hvs]
  | l :: ls, depth, vs, pres, posts => by
    intro hd hy
    have hlt : depth < jsoniter.maxDepth := by
      simp only [List.length_cons] at hd
      omega
    have hd1 : depth + 1 + ls.length < jsoniter.maxDepth := by
      simp only [List.length_cons] at hd
      omega
    simp only [levelsYield] at hy
    rcases hb : fieldsYield a (depth + 1) l.before with _ | pre
    · rw [hb] at hy; simp at hy
    rcases hm : levelsYield a (depth + 1) ls with _ | ⟨pres1, posts1⟩
    · rw [hb, hm] at hy; simp at hy
    rcases ha : fieldsYield a (depth + 1) l.after with _ | post
    · rw [hb, hm, ha] at hy; simp at hy
    rw [hb, hm, ha] at hy
    simp only [Option.some.injEq, Prod.mk.injEq] at hy
    obtain ⟨rfl, rfl⟩ := hy
    have ih := Visit_nestIn a harn key val l.key ls (depth + 1) (vs ++ pre) pres1 posts1 hd1 hm
    simp only [nestIn, doc.Visit, if_pos hlt]
    rw [List.append_assoc, doc.readFields_split,
      readFields_of_fieldsYield a harn (depth + 1) l.before pre hb vs]
    simp only []
    rw [doc.readFields_split]
    simp only [doc.readFields, jsoniter.reportFault, ih]
    rw [readFields_of_fieldsYield a harn (depth + 1) l.after post ha]
    simp [List.append_assoc]

/-- The walk of a value nested in as many levels as the limit allows, or more, ends with an
error, whatever the objects hold. -/
theorem Visit_nestIn_error (a : scanARN) (fields : List (Option jsoniter.IterError × String × Doc)) :
    ∀ (levels : List Level) (depth : Nat) (w : Walk) (outer : String),
      jsoniter.maxDepth ≤ depth + levels.length →
      (doc.Visit a depth w outer (nestIn levels (.object fields none))).2.Error ≠ none
  | [], depth, w, outer => by
    intro hd
    have hge : ¬ depth < jsoniter.maxDepth := by
      simp only [List.length_nil, Nat.add_zero] at hd
      omega
    simp only [nestIn, doc.Visit, if_neg hge]
    exact jsoniter.ReportError_ne_none _ _ _
  | l :: ls, depth, w, outer => by
    intro hd
    simp only [nestIn, doc.Visit]
    split_ifs with hlt
    · rw [List.append_assoc, doc.readFields_split]
      have hb := doc.readFields_refused a l.before none (depth + 1) w
      rcases hr : doc.readFields a (depth + 1) w l.before none with ⟨b, w1⟩
      rw [hr] at hb
      cases b
      · exact hb.1 rfl
      · simp only []
        rw [doc.readFields_split]
        have ih := Visit_nestIn_error a fields ls (depth + 1) ⟨w1.Values, w1.Error⟩ l.key
          (by simp only [List.length_cons] at hd; omega)
        simp only [doc.readFields, jsoniter.reportFault]
        rcases hv : doc.Visit a (depth + 1) ⟨w1.Values, w1.Error⟩ l.key
          (nestIn ls (.object fields none)) with ⟨b2, w2⟩
        rw [hv] at ih
        cases b2
        · exact ih
        · exact (doc.readFields_refused a l.after none (depth + 1) w2).2 (Or.inl ih)
    · exact jsoniter.ReportError_ne_none _ _ _

/-- The walk of a value nested in objects of one field each, as many as the limit allows or
more, on an iterator with no error: it ends with the error of `incrementDepth` and adds no
value. -/
theorem Visit_chain_error (a : scanARN) (fields : List (Option jsoniter.IterError × String × Doc)) :
    ∀ (keys : List String) (depth : Nat) (vs : List Value) (outer : String),
      depth ≤ jsoniter.maxDepth → jsoniter.maxDepth ≤ depth + keys.length →
      doc.Visit a depth ⟨vs, none⟩ outer
          (nestIn (keys.map fun k => ⟨[], k, []⟩) (.object fields none)) =
        (false, ⟨vs, some ⟨"incrementDepth", "exceeds max depth"⟩⟩)
  | [], depth, vs, outer => by
    intro _ hd
    have hge : ¬ depth < jsoniter.maxDepth := by
      simp only [List.length_nil, Nat.add_zero] at hd
      omega
    simp only [List.map_nil, nestIn, doc.Visit, if_neg hge]
    rfl
  | k :: ks, depth, vs, outer => by
    intro hle hd
    simp only [List.map_cons, nestIn, doc.Visit]
    split_ifs with hlt
    · have ih := Visit_chain_error a fields ks (depth + 1) vs k (by omega)
        (by simp only [List.length_cons] at hd; omega)
      simp only [List.nil_append, List.append_nil, doc.readFields, jsoniter.reportFault, ih]
    · rfl

theorem ScanDoc_new (a : scanARN) (acc : List Value) (input : Doc) :
    ((JSONScanner a).ScanDoc acc input).2 =
      match (doc.ReadObjectCB a 0 ⟨acc, none⟩ input).2 with
      | ⟨_, some err⟩ => (acc, some err)
      | ⟨values, none⟩ => (values, none) := by
  simp only [scanJSON.ScanDoc, JSONScanner]
  rcases (doc.ReadObjectCB a 0 ⟨acc, none⟩ input).2 with ⟨values, e⟩
  cases e <;> rfl

theorem ReadObjectCB_object (a : scanARN) (depth : Nat) (w : Walk) (outer : String)
    (fields : List (Option jsoniter.IterError × String × Doc))
    (ending : Option jsoniter.IterError) :
    doc.ReadObjectCB a depth w (.object fields ending) =
      doc.Visit a depth w outer (.object fields ending) := by
  simp only [doc.ReadObjectCB, doc.Visit]

end awslogs

end panther

namespace panther

namespace awslogs

open pantherlog

/-- Levels with no field besides the nested one yield no value. -/
theorem levelsYield_bare (a : scanARN) :
    ∀ (levels : List Level) (depth : Nat),
      (∀ l ∈ levels, l.before = [] ∧ l.after = []) → levelsYield a depth levels = some ([], [])
  | [], depth => fun _ => rfl
  | l :: ls, depth => by
    intro h
    have hl := h l (List.mem_cons_self _ _)
    have ih := levelsYield_bare a ls (depth + 1) (fun x hx => h x (List.mem_cons_of_mem _ hx))
    simp only [levelsYield, hl.1, hl.2, ih]
    rfl

/-- Levels with no field besides the nested one are given by their keys. -/
theorem levels_bare (levels : List Level) (h : ∀ l ∈ levels, l.before = [] ∧ l.after = []) :
    levels = (levels.map fun l => l.key).map fun k => ⟨[], k, []⟩ := by
  induction levels with
  | nil => rfl
  | cons l ls ih =>
    have hl := h l (List.mem_cons_self _ _)
    have ih1 := ih (fun x hx => h x (List.mem_cons_of_mem _ hx))
    obtain ⟨before, key, after⟩ := l
    simp only at hl
    obtain ⟨rfl, rfl⟩ := hl
    simp only [List.map_cons, List.cons.injEq, true_and]
    exact ih1

theorem ScanDoc_nestIn (a : scanARN)
    (harn : ∀ values s, (a.ScanValues values s).1 = values ++ (a.ScanValues [] s).1)
    (acc : List Value) (levels : List Level) (key val : String) (pres posts : List Value)
    (hd : levels.length < jsoniter.maxDepth)
    (hy : levelsYield a 0 levels = some (pres, posts)) :
    ((JSONScanner a).ScanDoc acc (nestIn levels (.object [(none, key, .string val)] none))).2 =
      (acc ++ pres ++ visitString a [] key val ++ posts, none) := by
  rw [ScanDoc_new]
  obtain ⟨fs, hfs⟩ := nestIn_isObject levels [(none, key, .string val)]
  have hv := Visit_nestIn a harn key val "" levels 0 acc pres posts (by simpa using hd) hy
  rw [hfs] at hv ⊢
  rw [ReadObjectCB_object a 0 _ "" fs none, hv]

theorem ScanDoc_nestIn_error (js : scanJSON) (acc : List Value) (levels : List Level)
    (fields : List (Option jsoniter.IterError × String × Doc))
    (hd : jsoniter.maxDepth ≤ levels.length) :
    (js.ScanDoc acc (nestIn levels (.object fields none))).2.2 ≠ none ∧
      (js.ScanDoc acc (nestIn levels (.object fields none))).2.1 = acc := by
  apply ScanDoc_error_of_walk
  obtain ⟨fs, hfs⟩ := nestIn_isObject levels fields
  have hv := Visit_nestIn_error js.arn fields levels 0 ⟨acc, (match js.iter with
      | none => (⟨none⟩ : Iterator)
      | some it => it).Error⟩ "" (by simpa using hd)
  rw [hfs] at hv ⊢
  rw [ReadObjectCB_object js.arn 0 _ "" fs none]
  exact hv

theorem ScanDoc_chain_error (a : scanARN) (acc : List Value) (keys : List String)
    (fields : List (Option jsoniter.IterError × String × Doc))
    (hd : jsoniter.maxDepth ≤ keys.length) :
    ((JSONScanner a).ScanDoc acc
        (nestIn (keys.map fun k => ⟨[], k, []⟩) (.object fields none))).2 =
      (acc, some ⟨"incrementDepth", "exceeds max depth"⟩) := by
  rw [ScanDoc_new]
  obtain ⟨fs, hfs⟩ := nestIn_isObject (keys.map fun k => ⟨[], k, []⟩) fields
  have hv := Visit_chain_error a fields keys 0 acc "" (Nat.zero_le _) (by simpa using hd)
  rw [hfs] at hv ⊢
  rw [ReadObjectCB_object a 0 _ "" fs none, hv]

end awslogs

end panther

namespace panther

/-! ## The two models of the scanner agree under the limit of nesting -/

namespace jsoniter

theorem firstChar_toDoc (v : JSON) : doc.firstChar v.toDoc = firstChar v := by
  cases v with
  | bool b => cases b <;> rfl
  | _ => rfl

theorem ReadString_toDoc (err : Option IterError) (v : JSON) :
    doc.ReadString err v.toDoc = ReadString err v := by
  cases v <;> simp [JSON.toDoc, doc.ReadString, ReadString, ← firstChar_toDoc]

mutual

theorem Skip_toDoc (err : Option IterError) :
    ∀ (v : JSON) (depth : Nat), v.hasInvalid = false → depth + v.height ≤ maxDepth →
      doc.Skip depth err v.toDoc = err
  | .object fields, depth => by
    intro hv hh
    simp only [JSON.height] at hh
    simp only [JSON.hasInvalid] at hv
    have hlt : depth < maxDepth := by omega
    simp only [JSON.toDoc, doc.Skip, if_pos hlt]
    exact skipFields_toDoc err fields (depth + 1) hv (by omega)
  | .array elems, depth => by
    intro hv hh
    simp only [JSON.height] at hh
    simp only [JSON.hasInvalid] at hv
    have hlt : depth < maxDepth := by omega
    simp only [JSON.toDoc, doc.Skip, if_pos hlt]
    exact skipElements_toDoc err elems (depth + 1) hv (by omega)
  | .invalid text, depth => by
    intro hv
    simp [JSON.hasInvalid] at hv
  | .null, depth => fun _ _ => rfl
  | .bool b, depth => fun _ _ => rfl
  | .number n, depth => fun _ _ => rfl
  | .string s, depth => fun _ _ => rfl

theorem skipFields_toDoc (err : Option IterError) :
    ∀ (fields : List (String × JSON)) (depth : Nat), JSON.anyFieldInvalid fields = false →
      depth + JSON.fieldHeights fields ≤ maxDepth →
      doc.skipFields depth err (JSON.toFields fields) none = err
  | [], depth => fun _ _ => rfl
  | (key, v) :: rest, depth => by
    intro hv hh
    simp only [JSON.anyFieldInvalid, Bool.or_eq_false_iff] at hv
    simp only [JSON.fieldHeights] at hh
    simp only [JSON.toFields, doc.skipFields, reportFault]
    rw [Skip_toDoc err v depth hv.1 (by omega)]
    exact skipFields_toDoc err rest depth hv.2 (by omega)

theorem skipElements_toDoc (err : Option IterError) :
    ∀ (elems : List JSON) (depth : Nat), JSON.anyInvalid elems = false →
      depth + JSON.heights elems ≤ maxDepth →
      doc.skipElements depth err (JSON.toDocs elems) none = err
  | [], depth => fun _ _ => rfl
  | v :: rest, depth => by
    intro hv hh
    simp only [JSON.anyInvalid, Bool.or_eq_false_iff] at hv
    simp only [JSON.heights] at hh
    simp only [JSON.toDocs, doc.skipElements]
    rw [Skip_toDoc err v depth hv.1 (by omega)]
    exact skipElements_toDoc err rest depth hv.2 (by omega)

end

theorem Skip_of_valid (err : Option IterError) (v : JSON) (hv : v.hasInvalid = false) :
    Skip err v = err := by
  simp [Skip, hv]

end jsoniter

namespace awslogs

open pantherlog

theorem readTagFields_toDoc (depth : Nat) (fields : List (String × JSON)) (tag : tagListEntry)
    (hv : JSON.anyFieldInvalid fields = false)
    (hh : depth + JSON.fieldHeights fields ≤ jsoniter.maxDepth) :
    doc.readTagFields depth tag (JSON.toFields fields) none = readTagFields tag fields := by
  induction fields generalizing tag with
  | nil => rfl
  | cons f rest ih =>
    obtain ⟨name, v⟩ := f
    simp only [JSON.anyFieldInvalid, Bool.or_eq_false_iff] at hv
    simp only [JSON.fieldHeights] at hh
    have hrest : depth + JSON.fieldHeights rest ≤ jsoniter.maxDepth := by omega
    simp only [JSON.toFields, doc.readTagFields, readTagFields, jsoniter.ReadString_toDoc,
      jsoniter.Skip_toDoc none v depth hv.1 (by omega), jsoniter.Skip_of_valid none v hv.1]
    split_ifs
    · rcases jsoniter.ReadString none v with ⟨s, e⟩
      cases e with
      | none => exact ih _ hv.2 hrest
      | some e => rfl
    · rcases jsoniter.ReadString none v with ⟨s, e⟩
      cases e with
      | none => exact ih _ hv.2 hrest
      | some e => rfl
    · exact ih _ hv.2 hrest

theorem ReadVal_toDoc (depth : Nat) (v : JSON) (hv : v.hasInvalid = false)
    (hh : depth + v.height ≤ jsoniter.maxDepth) :
    doc.ReadVal depth v.toDoc = ReadVal v := by
  cases v with
  | object fields =>
    simp only [JSON.height] at hh
    simp only [JSON.hasInvalid] at hv
    have hlt : depth < jsoniter.maxDepth := by omega
    cases fields with
    | nil => rfl
    | cons f rest =>
      obtain ⟨name, x⟩ := f
      have := readTagFields_toDoc (depth + 1) ((name, x) :: rest) ⟨"", ""⟩ hv (by omega)
      simp only [JSON.toFields] at this
      simp only [JSON.toDoc, JSON.toFields, doc.ReadVal, ReadVal, if_pos hlt, this]
  | null => rfl
  | bool b => cases b <;> rfl
  | number n => rfl
  | string s => rfl
  | array elems => rfl
  | invalid text => rfl

theorem visitTags_toDoc (depth : Nat) (elems : List JSON) (w : Walk)
    (hv : JSON.anyInvalid elems = false)
    (hh : depth + JSON.heights elems ≤ jsoniter.maxDepth) :
    doc.visitTags depth w (JSON.toDocs elems) none = visitTags w elems := by
  induction elems generalizing w with
  | nil =>
    obtain ⟨vs, e⟩ := w
    simp [JSON.toDocs, doc.visitTags, visitTags, jsoniter.reportFault]
  | cons elem rest ih =>
    simp only [JSON.anyInvalid, Bool.or_eq_false_iff] at hv
    simp only [JSON.heights] at hh
    obtain ⟨vs, e⟩ := w
    cases e with
    | some err => rfl
    | none =>
      simp only [JSON.toDocs, doc.visitTags, visitTags,
        ReadVal_toDoc depth elem hv.1 (by omega)]
      exact ih _ hv.2 (by omega)

theorem visitIPv6_toDoc (elems : List JSON) (w : Walk) :
    doc.visitIPv6 w (JSON.toDocs elems) none = visitIPv6 w elems := by
  induction elems generalizing w with
  | nil =>
    obtain ⟨vs, e⟩ := w
    simp [JSON.toDocs, doc.visitIPv6, visitIPv6, jsoniter.reportFault]
  | cons elem rest ih =>
    obtain ⟨vs, e⟩ := w
    cases e with
    | some err => rfl
    | none =>
      simp only [JSON.toDocs, doc.visitIPv6, visitIPv6, jsoniter.ReadString_toDoc]
      exact ih _

mutual

theorem Visit_toDoc (a : scanARN) (key : String) :
    ∀ (v : JSON) (depth : Nat) (w : Walk), v.hasInvalid = false →
      depth + v.height ≤ jsoniter.maxDepth →
      doc.Visit a depth w key v.toDoc = Visit a w key v
  | .object fields, depth, w => by
    intro hv hh
    simp only [JSON.height] at hh
    simp only [JSON.hasInvalid] at hv
    have hlt : depth < jsoniter.maxDepth := by omega
    simp only [JSON.toDoc, doc.Visit, Visit, if_pos hlt]
    exact readFields_toDoc a fields (depth + 1) w hv (by omega)
  | .string val, depth, w => fun _ _ => rfl
  | .array elems, depth, w => by
    intro hv hh
    simp only [JSON.height] at hh
    simp only [JSON.hasInvalid] at hv
    simp only [JSON.toDoc, doc.Visit, Visit]
    split_ifs
    · rw [visitTags_toDoc depth elems w hv (by omega)]
    · rw [visitIPv6_toDoc]
    · rw [readElements_toDoc a elems depth w hv (by omega)]
  | .invalid text, depth, w => by
    intro hv
    simp [JSON.hasInvalid] at hv
  | .null, depth, w => fun _ _ => rfl
  | .bool b, depth, w => fun _ _ => rfl
  | .number n, depth, w => fun _ _ => rfl

theorem readFields_toDoc (a : scanARN) :
    ∀ (fields : List (String × JSON)) (depth : Nat) (w : Walk),
      JSON.anyFieldInvalid fields = false →
      depth + JSON.fieldHeights fields ≤ jsoniter.maxDepth →
      doc.readFields a depth w (JSON.toFields fields) none = readFields a w fields
  | [], depth, w => fun _ _ => rfl
  | (key, v) :: rest, depth, w => by
    intro hv hh
    simp only [JSON.anyFieldInvalid, Bool.or_eq_false_iff] at hv
    simp only [JSON.fieldHeights] at hh
    simp only [JSON.toFields, doc.readFields, readFields, jsoniter.reportFault]
    rw [Visit_toDoc a key v depth ⟨w.Values, w.Error⟩ hv.1 (by omega)]
    rcases Visit a ⟨w.Values, w.Error⟩ key v with ⟨b, w1⟩
    cases b
    · rfl
    · exact readFields_toDoc a rest depth w1 hv.2 (by omega)

theorem readElements_toDoc (a : scanARN) :
    ∀ (elems : List JSON) (depth : Nat) (w : Walk), JSON.anyInvalid elems = false →
      depth + JSON.heights elems ≤ jsoniter.maxDepth →
      doc.readElements a depth w (JSON.toDocs elems) none = readElements a w elems
  | [], depth, w => by
    intro _ _
    obtain ⟨vs, e⟩ := w
    simp [JSON.toDocs, doc.readElements, readElements, jsoniter.reportFault]
  | .object fields :: rest, depth, w => by
    intro hv hh
    simp only [JSON.anyInvalid, JSON.hasInvalid, Bool.or_eq_false_iff] at hv
    simp only [JSON.heights, JSON.height] at hh
    have hlt : depth < jsoniter.maxDepth := by omega
    simp only [JSON.toDocs, JSON.toDoc, doc.readElements, readElements, if_pos hlt]
    rw [readFields_toDoc a fields (depth + 1) w hv.1 (by omega)]
    rcases readFields a w fields with ⟨b, w1⟩
    cases b
    · rfl
    · exact readElements_toDoc a rest depth w1 hv.2 (by omega)
  | .null :: rest, depth, w => by
    intro hv hh
    simp only [JSON.anyInvalid, JSON.hasInvalid, Bool.false_or] at hv
    simp only [JSON.heights, JSON.height] at hh
    simp only [JSON.toDocs, JSON.toDoc, doc.readElements, readElements]
    exact readElements_toDoc a rest depth w hv (by omega)
  | .bool b :: rest, depth, w => by
    intro _ _
    cases b <;> rfl
  | .number n :: rest, depth, w => fun _ _ => rfl
  | .string s :: rest, depth, w => fun _ _ => rfl
  | .array elems :: rest, depth, w => fun _ _ => rfl
  | .invalid text :: rest, depth, w => fun _ _ => rfl

end

/-- The scanner with the limit of nesting and the scanner without it return the same on
every text that has no invalid part and opens at most `maxDepth` objects and arrays at a
time, and leave the same scanner. -/
theorem ScanDoc_toDoc (js : scanJSON) (acc : List Value) (input : JSON)
    (hv : input.hasInvalid = false) (hh : input.height ≤ jsoniter.maxDepth) :
    js.ScanDoc acc input.toDoc = js.ScanValues acc input := by
  have hcb : ∀ w, doc.ReadObjectCB js.arn 0 w input.toDoc = ReadObjectCB js.arn w input := by
    intro w
    cases input with
    | object fields =>
      simp only [JSON.height] at hh
      simp only [JSON.hasInvalid] at hv
      have hlt : 0 < jsoniter.maxDepth := by omega
      simp only [JSON.toDoc, doc.ReadObjectCB, ReadObjectCB, if_pos hlt]
      exact readFields_toDoc js.arn fields 1 w hv (by omega)
    | bool b => cases b <;> rfl
    | _ => rfl
  simp only [scanJSON.ScanDoc, scanJSON.ScanValues, hcb]

end awslogs

end panther

namespace panther

section malformedClaims

open awslogs pantherlog

/-- C22, evaluated on the code for the key `recipientAccountId` and the string value
`arn:aws:iam::123456789012:user/alice`: `Visit` appends the AWSAccountID with the whole ARN
text as data, and `Extract` appends the AWSARN and the AWSAccountID `123456789012`. -/
theorem visit_differs_from_extract (a : scanARN) :
    (Visit a ⟨[], none⟩ "recipientAccountId"
        (.string "arn:aws:iam::123456789012:user/alice")).2.Values =
      [⟨.KindAWSAccountID, "arn:aws:iam::123456789012:user/alice"⟩] ∧
    AWSExtractor.Extract [] (some (.string "recipientAccountId"))
        (some (.string "arn:aws:iam::123456789012:user/alice")) =
      [⟨.KindAWSARN, "arn:aws:iam::123456789012:user/alice"⟩,
        ⟨.KindAWSAccountID, "123456789012"⟩] :=
  ⟨rfl, by decide⟩

end malformedClaims

end panther

namespace panther

/-! ## Claims on nesting -/

section nestingClaims

open awslogs pantherlog

/-- C17 as stated fails: it is not so that for every `n` a string under a key that no rule
names, inside `n` levels of objects, yields what it yields at the top level. Inside 10000
objects the ARN `arn:aws:iam::123456789012:instance/i-0abc` under the key `role` yields no
value: the iterator reports that the depth exceeds its limit, and `ScanValues` returns that
error. -/
theorem scanDoc_nested_any_depth_fails :
    ¬ ∀ (n : Nat) (key val : String),
      matchesKeyRule key = false → strings.HasPrefix val "arn:" = true →
      ((JSONScanner specScanARN).ScanDoc []
          (nestIn (List.replicate n ⟨[], "detail", []⟩)
            (.object [(none, key, .string val)] none))).2 =
        ((JSONScanner specScanARN).ScanDoc [] (.object [(none, key, .string val)] none)).2 := by
  intro h
  have h1 := h 10000 "role" "arn:aws:iam::123456789012:instance/i-0abc" (by decide) (by decide)
  have hdeep := ScanDoc_chain_error specScanARN [] (List.replicate 10000 "detail")
    [(none, "role", .string "arn:aws:iam::123456789012:instance/i-0abc")]
    (by rw [List.length_replicate]; exact Nat.le_of_eq rfl)
  rw [List.map_replicate] at hdeep
  have htop : ((JSONScanner specScanARN).ScanDoc []
      (.object [(none, "role", .string "arn:aws:iam::123456789012:instance/i-0abc")] none)).2.2 =
        none := by decide
  rw [hdeep] at h1
  rw [← h1] at htop
  simp at htop

/-- C17 as amended, for a new scanner whose ARN scanner adds its values after the values it
is given, and a string `val` that begins with `arn:` under a key that no rule names. At the
top level `ScanValues` returns the accumulator and then what the ARN scanner yields for
`val`. Inside fewer than 10000 levels of objects, whatever the keys of the levels, it
returns the accumulator, the values of the fields that precede the nested one (outermost
level first), the same yield of the ARN scanner, and the values of the fields that follow
(innermost level first), when these fields scan without an error; with no field besides the
nested one that is the result of the top level. Inside 10000 levels or more it returns an
error and the accumulator as it was passed, whatever the levels hold; with no field besides
the nested one the error is that of `incrementDepth`. -/
theorem scanDoc_nested_below_limit (a : scanARN)
    (harn : ∀ values s, (a.ScanValues values s).1 = values ++ (a.ScanValues [] s).1)
    (acc : List Value) (levels : List Level) (key val : String)
    (hkey : matchesKeyRule key = false) (hpre : strings.HasPrefix val "arn:" = true) :
    ((JSONScanner a).ScanDoc acc (.object [(none, key, .string val)] none)).2 =
      (acc ++ (a.ScanValues [] val).1, none) ∧
    (∀ pres posts, levels.length < jsoniter.maxDepth →
      levelsYield a 0 levels = some (pres, posts) →
      ((JSONScanner a).ScanDoc acc
          (nestIn levels (.object [(none, key, .string val)] none))).2 =
        (acc ++ pres ++ (a.ScanValues [] val).1 ++ posts, none)) ∧
    (levels.length < jsoniter.maxDepth → (∀ l ∈ levels, l.before = [] ∧ l.after = []) →
      ((JSONScanner a).ScanDoc acc
          (nestIn levels (.object [(none, key, .string val)] none))).2 =
        ((JSONScanner a).ScanDoc acc (.object [(none, key, .string val)] none)).2) ∧
    (jsoniter.maxDepth ≤ levels.length →
      ((JSONScanner a).ScanDoc acc
          (nestIn levels (.object [(none, key, .string val)] none))).2.2 ≠ none ∧
      ((JSONScanner a).ScanDoc acc
          (nestIn levels (.object [(none, key, .string val)] none))).2.1 = acc) ∧
    (jsoniter.maxDepth ≤ levels.length → (∀ l ∈ levels, l.before = [] ∧ l.after = []) →
      ((JSONScanner a).ScanDoc acc
          (nestIn levels (.object [(none, key, .string val)] none))).2 =
        (acc, some ⟨"incrementDepth", "exceeds max depth"⟩)) := by
  have hvs : visitString a [] key val = (a.ScanValues [] val).1 :=
    visitString_of_no_rule a [] key val hkey hpre
  have htop : ((JSONScanner a).ScanDoc acc (.object [(none, key, .string val)] none)).2 =
      (acc ++ (a.ScanValues [] val).1, none) := by
    have := ScanDoc_nestIn a harn acc [] key val [] [] (by simp [jsoniter.maxDepth]) rfl
    simpa [nestIn, hvs] using this
  refine ⟨htop, ?_, ?_, ?_, ?_⟩
  · intro pres posts hd hy
    rw [ScanDoc_nestIn a harn acc levels key val pres posts hd hy, hvs]
  · intro hd hbare
    rw [ScanDoc_nestIn a harn acc levels key val [] [] hd (levelsYield_bare a levels 0 hbare),
      htop, hvs]
    simp
  · intro hd
    exact ScanDoc_nestIn_error (JSONScanner a) acc levels _ hd
  · intro hd hbare
    rw [levels_bare levels hbare]
    exact ScanDoc_chain_error a acc (levels.map fun l => l.key) _ (by simpa using hd)

/-- C17 as amended, with the ARN scanner of the spec, on the text
`{"accountId":"123456789012","detail":{"instanceId":{"role":
"arn:aws:iam::123456789012:instance/i-0abc"},"tags":[{"key":"env","value":"prod"}]}}`
and an accumulator that holds the IPAddress `10.0.0.1`: the ARN lies inside two levels, the
inner one under the key `instanceId`, and yields its three values between the account id of
the field before it and the Tag of the field after it. -/
theorem scanDoc_nested_below_limit_witness :
    (∀ values s, (specScanARN.ScanValues values s).1 =
      values ++ (specScanARN.ScanValues [] s).1) ∧
    matchesKeyRule "role" = false ∧
    strings.HasPrefix "arn:aws:iam::123456789012:instance/i-0abc" "arn:" = true ∧
    ((JSONScanner specScanARN).ScanDoc [IPAddress "10.0.0.1"]
        (nestIn
          [⟨[(none, "accountId", .string "123456789012")], "detail", []⟩,
            ⟨[], "instanceId",
              [(none, "tags", .array
                [.object [(none, "key", .string "env"), (none, "value", .string "prod")] none]
                none)]⟩]
          (.object [(none, "role", .string "arn:aws:iam::123456789012:instance/i-0abc")]
            none))).2 =
      ([IPAddress "10.0.0.1", AccountID "123456789012",
        ⟨.KindAWSARN, "arn:aws:iam::123456789012:instance/i-0abc"⟩,
        AccountID "123456789012", InstanceID "i-0abc", ⟨.KindTag, "env:prod"⟩], none) :=
  ⟨specScanARN_append, by decide, by decide,
    ((scanDoc_nested_below_limit specScanARN specScanARN_append [IPAddress "10.0.0.1"]
      [⟨[(none, "accountId", .string "123456789012")], "detail", []⟩,
        ⟨[], "instanceId",
          [(none, "tags", .array
            [.object [(none, "key", .string "env"), (none, "value", .string "prod")] none]
            none)]⟩]
      "role" "arn:aws:iam::123456789012:instance/i-0abc" (by decide) (by decide)).2.1
      [AccountID "123456789012"] [⟨.KindTag, "env:prod"⟩] (by decide) (by decide)).trans
      (by decide)⟩

end nestingClaims

end panther

namespace panther

/-! ## The access-combined pattern -/

namespace strings

theorem foldl_join_append (sep : String) (l : List String) (a b : String) :
    l.foldl (fun b s => b ++ sep ++ s) (a ++ b) = a ++ l.foldl (fun b s => b ++ sep ++ s) b := by
  induction l generalizing b with
  | nil => rfl
  | cons x rest ih =>
    simp only [List.foldl_cons]
    rw [String.append_assoc, String.append_assoc, ← String.append_assoc b, ih]

theorem Join_cons_cons (sep x y : String) (rest : List String) :
    Join (x :: y :: rest) sep = x ++ sep ++ Join (y :: rest) sep := by
  simp only [Join, List.foldl_cons]
  rw [String.append_assoc, foldl_join_append, foldl_join_append, String.append_assoc]

end strings

namespace regexp

theorem matchGroups_length (groups : List (List (List Atom))) :
    ∀ (s : List Char) (caps : List String),
      matchGroups groups s = some caps → caps.length = groups.length := by
  induction groups with
  | nil =>
    intro s caps h
    simp only [matchGroups] at h
    split_ifs at h
    cases h
    rfl
  | cons g rest ih =>
    intro s caps h
    cases rest with
    | nil =>
      simp only [matchGroups] at h
      cases hm : matchAlt g s with
      | none => simp [hm] at h
      | some r =>
        obtain ⟨cap, rest1⟩ := r
        simp only [hm] at h
        split_ifs at h
        cases h
        rfl
    | cons g2 gs =>
      simp only [matchGroups] at h
      cases hm : matchAlt g s with
      | none => simp [hm] at h
      | some r =>
        obtain ⟨cap, rest1⟩ := r
        simp only [hm] at h
        split_ifs at h
        cases hr : matchGroups (g2 :: gs) (List.dropWhile isSpace rest1) with
        | none => simp [hr] at h
        | some caps1 =>
          simp only [hr, Option.some.injEq] at h
          subst h
          simp [ih _ _ hr]

theorem FindStringSubmatch_cases (re : Regexp) (s : String) :
    re.FindStringSubmatch s = [] ∨
      ∃ caps, re.FindStringSubmatch s = s :: caps ∧ caps.length = re.groups.length := by
  unfold Regexp.FindStringSubmatch
  cases h : matchGroups re.groups (List.dropWhile isSpace s.data) with
  | none => exact Or.inl rfl
  | some caps => exact Or.inr ⟨caps, rfl, matchGroups_length _ _ _ h⟩

end regexp

namespace apachelogs

theorem joinedGroups_eq_Join (fields : List String) :
    strings.Join (fields.map fun field => "(" ++ field ++ ")") "\\s+" = joinedGroups fields := by
  induction fields with
  | nil => rfl
  | cons f rest ih =>
    cases rest with
    | nil => rfl
    | cons g rest2 =>
      simp only [List.map_cons] at ih ⊢
      rw [strings.Join_cons_cons, ih, joinedGroups]

theorem rxAccessCombined_groups : rxAccessCombined.groups.length = 9 := rfl

theorem length_nine {α : Type} (l : List α) (h : l.length = 9) :
    ∃ a b c d e f g h i, l = [a, b, c, d, e, f, g, h, i] := by
  match l, h with
  | [a, b, c, d, e, f, g, h, i], _ => exact ⟨a, b, c, d, e, f, g, h, i, rfl⟩

/-- On a line that matches the pattern `ParseString` returns what `AccessCommonLog.SetRow`
returns on the first seven captures: an error if and only if the request time, the fourth
capture, does not decode. -/
theorem ParseString_of_match (log : AccessCombinedLog) (line : String)
    (hmatch : rxAccessCombined.FindStringSubmatch line ≠ []) :
    ((log.ParseString line).2 = none ↔
      parseRequestTime ((rxAccessCombined.FindStringSubmatch line).getD 4 "") ≠ none) := by
  rcases regexp.FindStringSubmatch_cases rxAccessCombined line with h | ⟨caps, h, hlen⟩
  · exact absurd h hmatch
  · rw [rxAccessCombined_groups] at hlen
    obtain ⟨a, b, c, d, e, f, g, h1, i, rfl⟩ := length_nine caps hlen
    simp only [AccessCombinedLog.ParseString, h]
    simp only [List.length_cons, List.length_nil, List.drop_succ_cons, List.drop_zero,
      List.getD_cons_succ, List.getD_cons_zero]
    simp only [AccessCombinedLog.SetRow, numFieldsAccessCombined, numFieldsAccessCommon,
      List.length_cons, List.length_nil, List.take_succ_cons, List.take_zero,
      AccessCommonLog.SetRow]
    cases parseRequestTime d <;> simp

end apachelogs

end panther

namespace panther

/-! ## The state of the process in Parse -/

namespace apachelogs

variable {σ ℓ : Type}

theorem specAbsent_stateFree (isIP : String → Bool) : (specAbsent isIP).StateFree :=
  ⟨fun _ _ _ _ => rfl, fun _ _ _ _ _ _ _ h => by simp only [specAbsent] at h ⊢; rw [h],
    fun _ _ _ _ _ h => by simp only [specAbsent] at h ⊢; rw [h]; exact ⟨rfl, rfl⟩,
    fun _ _ _ _ _ h => by simp only [specAbsent] at h ⊢; rw [h],
    fun _ _ _ _ _ h => by simp only [specAbsent] at h ⊢; rw [h]⟩

end apachelogs

end panther

namespace panther

/-! ## Claims on the access-combined parser -/

section apacheClaims

open apachelogs pantherlog

/-- C23: for every list of field sub-patterns, `buildRx` returns the pattern of the claim:
`^\s*`, then each sub-pattern in its own parentheses, in the given order and joined by
`\s+`, then `\s*$`. For the nine sub-patterns of `rxAccessCombined` that is the pattern
written out below. -/
theorem buildRx_eq_anchoredPattern (fields : List String) :
    buildRx fields = anchoredPattern fields ∧
    buildRx [rxUnquoted, rxUnquoted, rxUnquoted, rxBrackets, rxQuoted, rxStatusCode, rxSize,
        rxQuoted, rxQuoted] =
      "^\\s*([^\\s]+)\\s+([^\\s]+)\\s+([^\\s]+)\\s+(\\[[^\\]]+\\])\\s+(\"[^\"]+\")\\s+(\\d\x7b3\x7d)\\s+(-|\\d+)\\s+(\"[^\"]+\")\\s+(\"[^\"]+\")\\s*$" := by
  refine ⟨?_, by decide⟩
  simp only [buildRx, anchoredPattern, joinedGroups_eq_Join]

/-- C25: for every row whose length is not 9, `AccessCombinedLog.SetRow` returns the error
`invalid number of fields %d` with that length and leaves the record as it was; for a row of
length 9 the error it returns, if any, is the one that `AccessCommonLog.SetRow` returns on
the first seven fields, which is not the error of the number of fields. -/
theorem setRow_field_count (log : AccessCombinedLog) (row : List String) :
    (row.length ≠ 9 →
      log.SetRow row = (log, some ⟨"invalid number of fields %d", [toString row.length]⟩)) ∧
    (row.length = 9 →
      (log.SetRow row).2 = (log.AccessCommonLog.SetRow (row.take 7)).2 ∧
      ∀ err, (log.SetRow row).2 = some err → err.format ≠ "invalid number of fields %d") := by
  constructor
  · intro h
    simp [AccessCombinedLog.SetRow, numFieldsAccessCombined, h]
  · intro h
    obtain ⟨a, b, c, d, e, f, g, h1, i, rfl⟩ := length_nine row h
    simp only [AccessCombinedLog.SetRow, numFieldsAccessCombined, numFieldsAccessCommon,
      List.length_cons, List.length_nil, List.take_succ_cons, List.take_zero,
      AccessCommonLog.SetRow]
    cases parseRequestTime d with
    | none =>
      refine ⟨by simp, ?_⟩
      intro err herr
      simp at herr
      rw [← herr]
      show ("invalid request time %q" : String) ≠ "invalid number of fields %d"
      decide
    | some t => simp

/-- C26: on the new log of a parse, `updatePantherFields` adds the remote host as an
IPAddress when the IP test accepts it, and as a DomainName only when that test refuses it;
nothing is added for an absent remote host. So the event never carries the remote host both
as an IPAddress and as a DomainName. -/
theorem updatePantherFields_ip_or_domain (isIP : String → Bool) (event : AccessCombined)
    (host : String) (hhost : host ≠ "") :
    (event.AccessCombinedLog.AccessCommonLog.RemoteHostIPAddress = some host →
      (isIP host = true →
        (event.updatePantherFields isIP ⟨none, none, []⟩).Values = [IPAddress host]) ∧
      (isIP host = false →
        (event.updatePantherFields isIP ⟨none, none, []⟩).Values = [DomainName host]) ∧
      ¬ (IPAddress host ∈ (event.updatePantherFields isIP ⟨none, none, []⟩).Values ∧
        DomainName host ∈ (event.updatePantherFields isIP ⟨none, none, []⟩).Values)) ∧
    (event.AccessCombinedLog.AccessCommonLog.RemoteHostIPAddress = none →
      (event.updatePantherFields isIP ⟨none, none, []⟩).Values = []) := by
  constructor
  · intro hremote
    have hip : isIP host = true →
        (event.updatePantherFields isIP ⟨none, none, []⟩).Values = [IPAddress host] := by
      intro h
      simp [AccessCombined.updatePantherFields, parsers.PantherLog.SetCoreFields,
        parsers.PantherLog.AppendAnyIPAddressPtr, hremote, h, parsers.addValue, IPAddress,
        hhost]
    have hdom : isIP host = false →
        (event.updatePantherFields isIP ⟨none, none, []⟩).Values = [DomainName host] := by
      intro h
      simp [AccessCombined.updatePantherFields, parsers.PantherLog.SetCoreFields,
        parsers.PantherLog.AppendAnyIPAddressPtr, parsers.PantherLog.AppendAnyDomainNamePtrs,
        hremote, h, parsers.addValue, DomainName, hhost]
    refine ⟨hip, hdom, ?_⟩
    cases h : isIP host with
    | true => rw [hip h]; simp [IPAddress, DomainName]
    | false => rw [hdom h]; simp [IPAddress, DomainName]
  · intro hremote
    simp [AccessCombined.updatePantherFields, parsers.PantherLog.SetCoreFields,
      parsers.PantherLog.AppendAnyIPAddressPtr, parsers.PantherLog.AppendAnyDomainNamePtrs,
      hremote]

/-- C26 for the remote host `192.168.0.1` and the IPv4 test. -/
theorem updatePantherFields_ip_or_domain_witness :
    ("192.168.0.1" : String) ≠ "" ∧
    ((⟨⟨⟨some "192.168.0.1", none, none, none, none, none, none⟩, none, none⟩,
        ⟨none, none, []⟩⟩ : AccessCombined).updatePantherFields sample.isIPv4
          ⟨none, none, []⟩).Values = [IPAddress "192.168.0.1"] :=
  ⟨by decide,
    ((updatePantherFields_ip_or_domain sample.isIPv4
      ⟨⟨⟨some "192.168.0.1", none, none, none, none, none, none⟩, none, none⟩,
        ⟨none, none, []⟩⟩ "192.168.0.1" (by decide)).1 rfl).1 (by decide)⟩

/-- C27: for an IP test that accepts `192.168.0.1`, parsing the line of the scenario gives
no error and exactly one event, of type `Apache.AccessCombined`, whose values are the one
IPAddress `192.168.0.1` (so no DomainName) and whose time is 2020-10-10T13:55:36Z. -/
theorem parse_scenario_line (isIP : String → Bool) (p : AccessCombinedParser)
    (hip : isIP "192.168.0.1" = true) :
    AccessCombinedParser.Parse isIP p sample.accessLine =
      ([⟨some "Apache.AccessCombined", some ⟨2020, 10, 10, 13, 55, 36⟩,
        [⟨.KindIPAddress, "192.168.0.1"⟩]⟩], none) ∧
    (⟨2020, 10, 10, 13, 55, 36⟩ : Time).RFC3339 = "2020-10-10T13:55:36Z" := by
  have hparse : AccessCombined.zero.AccessCombinedLog.ParseString sample.accessLine =
      (⟨⟨some "192.168.0.1", none, none, some ⟨2020, 10, 10, 13, 55, 36⟩,
        some "GET /x HTTP/1.1", some "200", some "123"⟩, some "curl/7.64", none⟩, none) := by
    decide
  refine ⟨?_, by decide⟩
  simp only [AccessCombinedParser.Parse, hparse]
  simp [AccessCombined.updatePantherFields,
    parsers.PantherLog.SetCoreFields, parsers.PantherLog.AppendAnyIPAddressPtr, hip,
    parsers.addValue, IPAddress, AccessCombined.Logs, TypeAccessCombined, AccessCombined.zero]

/-- C27 for the IPv4 test. -/
theorem parse_scenario_line_witness :
    sample.isIPv4 "192.168.0.1" = true ∧
    (AccessCombinedParser.Parse sample.isIPv4 ⟨⟩ sample.accessLine).1.map
        (fun e => e.Values) = [[⟨.KindIPAddress, "192.168.0.1"⟩]] :=
  ⟨by decide, by rw [(parse_scenario_line sample.isIPv4 ⟨⟩ (by decide)).1]; rfl⟩

end apacheClaims

end panther

namespace panther

/-! ## Events -/

namespace parsers

open pantherlog

theorem mem_addValue (values : List Value) (v x : Value) :
    x ∈ addValue values v ↔ x ∈ values ∨ (x = v ∧ v.Data ≠ "") := by
  unfold addValue
  by_cases h : v.Data = "" ∨ v ∈ values
  · rw [if_pos h]
    constructor
    · exact Or.inl
    · rintro (hx | ⟨rfl, hd⟩)
      · exact hx
      · rcases h with h | h
        · exact absurd h hd
        · exact h
  · rw [if_neg h]
    simp only [not_or] at h
    simp only [List.mem_append, List.mem_singleton]
    constructor
    · rintro (hx | rfl)
      · exact Or.inl hx
      · exact Or.inr ⟨rfl, h.1⟩
    · rintro (hx | ⟨rfl, _⟩)
      · exact Or.inl hx
      · exact Or.inr rfl

theorem nodup_addValue (values : List Value) (v : Value) (h : values.Nodup) :
    (addValue values v).Nodup := by
  unfold addValue
  by_cases hc : v.Data = "" ∨ v ∈ values
  · rw [if_pos hc]; exact h
  · rw [if_neg hc]
    simp only [not_or] at hc
    rw [List.nodup_append]
    refine ⟨h, List.nodup_singleton v, ?_⟩
    intro a ha hb
    simp only [List.mem_singleton] at hb
    subst hb
    exact hc.2 ha

theorem mem_foldl_add (values : List (Option Value)) (vs : List Value) (x : Value) :
    x ∈ values.foldl (fun acc value =>
        match value with
        | none => acc
        | some v => addValue acc v) vs ↔
      x ∈ vs ∨ (some x ∈ values ∧ x.Data ≠ "") := by
  induction values generalizing vs with
  | nil => simp
  | cons value rest ih =>
    simp only [List.foldl_cons, List.mem_cons]
    rw [ih]
    cases value with
    | none =>
      simp only [reduceCtorEq, false_or]
    | some v =>
      simp only [mem_addValue, Option.some.injEq]
      constructor
      · rintro ((h | ⟨rfl, hd⟩) | h)
        · exact Or.inl h
        · exact Or.inr ⟨Or.inl rfl, hd⟩
        · exact Or.inr ⟨Or.inr h.1, h.2⟩
      · rintro (h | ⟨h | h, hd⟩)
        · exact Or.inl (Or.inl h)
        · subst h; exact Or.inl (Or.inr ⟨rfl, hd⟩)
        · exact Or.inr ⟨h, hd⟩

theorem nodup_foldl_add (values : List (Option Value)) (vs : List Value) (h : vs.Nodup) :
    (values.foldl (fun acc value =>
        match value with
        | none => acc
        | some v => addValue acc v) vs).Nodup := by
  induction values generalizing vs with
  | nil => exact h
  | cons value rest ih =>
    simp only [List.foldl_cons]
    apply ih
    cases value with
    | none => exact h
    | some v => exact nodup_addValue vs v h

theorem mem_Extend (e : PantherEvent) (values : List (Option Value)) (x : Value) :
    x ∈ (e.Extend values).Values ↔ x ∈ e.Values ∨ (some x ∈ values ∧ x.Data ≠ "") :=
  mem_foldl_add values e.Values x

theorem nodup_Extend (e : PantherEvent) (values : List (Option Value)) (h : e.Values.Nodup) :
    (e.Extend values).Values.Nodup :=
  nodup_foldl_add values e.Values h

theorem nodup_NewEvent (logType : String) (tm : Option Time) (values : List (Option Value)) :
    (NewEvent logType tm values).Values.Nodup :=
  nodup_Extend _ values List.nodup_nil

/-- The data of the values of one kind have no duplicates when the values have none. -/
theorem nodup_kind (values : List Value) (h : values.Nodup) (kind : ValueKind) :
    ((values.filter fun v => v.Kind = kind).map fun v => v.Data).Nodup := by
  apply List.Nodup.map_on
  · intro a ha b hb hab
    simp only [List.mem_filter, decide_eq_true_eq] at ha hb
    cases a; cases b
    simp only at ha hb hab
    simp [hab, ha.2, hb.2]
  · exact h.filter _

end parsers

namespace suricatalogs

open pantherlog

theorem mem_foldl_Extend (answers : List DNSDetailsAnswers) (e : parsers.PantherEvent)
    (x : Value) :
    x ∈ (answers.foldl (fun acc answer => acc.Extend (answerValues answer)) e).Values ↔
      x ∈ e.Values ∨ ∃ answer ∈ answers, some x ∈ answerValues answer ∧ x.Data ≠ "" := by
  induction answers generalizing e with
  | nil => simp
  | cons answer rest ih =>
    simp only [List.foldl_cons, List.mem_cons]
    rw [ih, parsers.mem_Extend]
    constructor
    · rintro ((h | h) | ⟨a, ha, h⟩)
      · exact Or.inl h
      · exact Or.inr ⟨answer, Or.inl rfl, h⟩
      · exact Or.inr ⟨a, Or.inr ha, h⟩
    · rintro (h | ⟨a, ha | ha, h⟩)
      · exact Or.inl (Or.inl h)
      · subst ha; exact Or.inl (Or.inr h)
      · exact Or.inr ⟨a, ha, h⟩

theorem nodup_foldl_Extend (answers : List DNSDetailsAnswers) (e : parsers.PantherEvent)
    (h : e.Values.Nodup) :
    (answers.foldl (fun acc answer => acc.Extend (answerValues answer)) e).Values.Nodup := by
  induction answers generalizing e with
  | nil => exact h
  | cons answer rest ih => exact ih _ (parsers.nodup_Extend e _ h)

theorem foldl_Insert (f : String → Option Value) (records : List String)
    (e : parsers.PantherEvent) :
    (e.Values.Nodup → (records.foldl (fun acc r => acc.Insert [f r]) e).Values.Nodup) ∧
    ∀ x, x ∈ e.Values → x ∈ (records.foldl (fun acc r => acc.Insert [f r]) e).Values := by
  induction records generalizing e with
  | nil => exact ⟨id, fun _ h => h⟩
  | cons r rest ih =>
    simp only [List.foldl_cons]
    constructor
    · intro h
      exact (ih _).1 (parsers.nodup_Extend e _ h)
    · intro x hx
      exact (ih _).2 x ((parsers.mem_Extend e _ x).mpr (Or.inl hx))

theorem groupedValues_keeps (e : parsers.PantherEvent) (grouped : DNSDetailsGrouped) :
    (e.Values.Nodup → (groupedValues e grouped).Values.Nodup) ∧
    ∀ x, x ∈ e.Values → x ∈ (groupedValues e grouped).Values := by
  unfold groupedValues
  constructor
  · intro h
    exact (foldl_Insert _ _ _).1 ((foldl_Insert _ _ _).1 ((foldl_Insert _ _ _).1
      ((foldl_Insert _ _ _).1 h)))
  · intro x hx
    exact (foldl_Insert _ _ _).2 x ((foldl_Insert _ _ _).2 x ((foldl_Insert _ _ _).2 x
      ((foldl_Insert _ _ _).2 x hx)))

theorem PantherEvent_nodup (event : DNS) : event.PantherEvent.Values.Nodup := by
  unfold DNS.PantherEvent
  have h0 := parsers.nodup_NewEvent TypeDNS event.Timestamp
    [parsers.IPAddressP event.SrcIP, parsers.IPAddressP event.DestIP]
  cases event.DNS with
  | none => exact h0
  | some dns =>
    have h2 := nodup_foldl_Extend dns.Answers _
      (parsers.nodup_Extend _ [parsers.DomainNameP dns.Rrname, parsers.IPAddressP dns.RData] h0)
    cases hg : dns.Grouped with
    | none => simpa [hg] using h2
    | some grouped => simpa [hg] using (groupedValues_keeps _ grouped).1 h2

end suricatalogs

namespace apachelogs

theorem AppendAnyDomainNamePtrs_nodup (p : parsers.PantherLog) (values : List (Option String))
    (h : p.Values.Nodup) : (p.AppendAnyDomainNamePtrs values).Values.Nodup := by
  have hfold : ∀ (vs : List pantherlog.Value), vs.Nodup →
      (values.foldl (fun acc value =>
        match value with
        | none => acc
        | some v => parsers.addValue acc (pantherlog.DomainName v)) vs).Nodup := by
    induction values with
    | nil => exact fun vs hvs => hvs
    | cons value rest ih =>
      intro vs hvs
      simp only [List.foldl_cons]
      apply ih
      cases value with
      | none => exact hvs
      | some v => exact parsers.nodup_addValue vs _ hvs
  exact hfold p.Values h

theorem AppendAnyIPAddressPtr_nodup (isIP : String → Bool) (p : parsers.PantherLog)
    (value : Option String) (h : p.Values.Nodup) :
    (p.AppendAnyIPAddressPtr isIP value).1.Values.Nodup := by
  unfold parsers.PantherLog.AppendAnyIPAddressPtr
  cases value with
  | none => exact h
  | some v =>
    by_cases hip : isIP v = true
    · simp only [hip, if_true]
      exact parsers.nodup_addValue _ _ h
    · simp only [hip]
      exact h

theorem updatePantherFields_nodup (isIP : String → Bool) (event : AccessCombined)
    (p : parsers.PantherLog) (h : p.Values.Nodup) :
    (event.updatePantherFields isIP p).Values.Nodup := by
  unfold AccessCombined.updatePantherFields
  have h1 := AppendAnyIPAddressPtr_nodup isIP
    (p.SetCoreFields TypeAccessCombined event.AccessCombinedLog.AccessCommonLog.RequestTime)
    event.AccessCombinedLog.AccessCommonLog.RemoteHostIPAddress h
  rcases hr : (p.SetCoreFields TypeAccessCombined
    event.AccessCombinedLog.AccessCommonLog.RequestTime).AppendAnyIPAddressPtr isIP
    event.AccessCombinedLog.AccessCommonLog.RemoteHostIPAddress with ⟨p2, b⟩
  rw [hr] at h1
  simp only [hr]
  cases b
  · exact AppendAnyDomainNamePtrs_nodup p2 _ h1
  · exact h1

theorem Parse_nodup (isIP : String → Bool) (p : AccessCombinedParser) (line : String) :
    ∀ e ∈ (AccessCombinedParser.Parse isIP p line).1, e.Values.Nodup := by
  intro e he
  simp only [AccessCombinedParser.Parse] at he
  rcases hr : AccessCombined.zero.AccessCombinedLog.ParseString line with ⟨parsed, err⟩
  rw [hr] at he
  cases err with
  | some err => simp at he
  | none =>
    simp only [AccessCombined.Logs, List.mem_singleton] at he
    subst he
    exact updatePantherFields_nodup isIP _ _ List.nodup_nil

end apachelogs

end panther

namespace panther

/-! ## Claims on events -/

section eventClaims

open suricatalogs pantherlog

/-- C30, dedup invariant: the values of the event that `PantherEvent` builds from a Suricata
DNS record, and of every event that the access-combined parser returns, hold no value twice,
so for each kind the data strings are all different. The record with source `10.0.0.1`, an A
answer with that rdata and a grouped A list with it carries the IPAddress `10.0.0.1` once. -/
theorem event_values_no_duplicates (event : DNS) (isIP : String → Bool)
    (p : apachelogs.AccessCombinedParser) (line : String) :
    event.PantherEvent.Values.Nodup ∧
    (∀ kind : ValueKind,
      ((event.PantherEvent.Values.filter fun v => v.Kind = kind).map fun v => v.Data).Nodup) ∧
    (∀ e ∈ (apachelogs.AccessCombinedParser.Parse isIP p line).1, ∀ kind : ValueKind,
      ((e.Values.filter fun v => v.Kind = kind).map fun v => v.Data).Nodup) ∧
    sample.dnsRecord.PantherEvent.Values =
      [⟨.KindIPAddress, "10.0.0.1"⟩, ⟨.KindIPAddress, "10.0.0.2"⟩,
        ⟨.KindDomainName, "example.com"⟩] :=
  ⟨PantherEvent_nodup event,
    parsers.nodup_kind _ (PantherEvent_nodup event),
    fun e he => parsers.nodup_kind _ (apachelogs.Parse_nodup isIP p line e he),
    by decide⟩

end eventClaims

end panther

namespace panther

/-! ## Registering several log types -/

namespace parsers

variable {σ π : Type}

theorem Register_get_self (codec : SchemaCodec σ) (r : Registry σ π) (entry : LogType σ π)
    (hok : (r.Register codec entry).2 = none) :
    (r.Register codec entry).1.Get entry.Name = some entry := by
  rcases Registry.Register_cases codec r entry with ⟨err, _, h1⟩ | ⟨_, _, h1⟩ | ⟨_, hg, _, h2⟩
  · rw [h1] at hok; cases hok
  · rw [h1] at hok; cases hok
  · rw [Registry.Get_eq_stored] at hg
    rw [Registry.Get_eq_stored, h2, GoMap.get?_append, hg]
    simp [GoMap.get?]

theorem Register_get_keeps (codec : SchemaCodec σ) (r : Registry σ π) (entry : LogType σ π)
    (name : String) (e : LogType σ π) (h : r.Get name = some e) :
    (r.Register codec entry).1.Get name = some e := by
  rcases Registry.Register_cases codec r entry with ⟨err, _, h1⟩ | ⟨_, _, h1⟩ | ⟨_, _, _, h2⟩
  · rw [h1]; exact h
  · rw [h1]; exact h
  · rw [Registry.Get_eq_stored] at h
    rw [Registry.Get_eq_stored, h2, GoMap.get?_append, h]
    rfl

theorem Register_all_keeps (codec : SchemaCodec σ) (entries : List (LogType σ π)) :
    ∀ (r : Registry σ π) (name : String) (e : LogType σ π), r.Get name = some e →
      (Register codec r entries).1.Get name = some e := by
  induction entries with
  | nil => exact fun r name e h => h
  | cons entry rest ih =>
    intro r name e h
    have h1 := Register_get_keeps codec r entry name e h
    simp only [Register]
    rcases hr : r.Register codec entry with ⟨r1, err⟩
    rw [hr] at h1
    cases err with
    | some err => exact h1
    | none => exact ih r1 name e h1

theorem Register_all_append (codec : SchemaCodec σ) (before after : List (LogType σ π)) :
    ∀ r : Registry σ π, (Register codec r before).2 = none →
      Register codec r (before ++ after) = Register codec (Register codec r before).1 after := by
  induction before with
  | nil => exact fun r _ => rfl
  | cons entry rest ih =>
    intro r h
    simp only [Register, List.cons_append] at h ⊢
    rcases hr : r.Register codec entry with ⟨r1, err⟩
    rw [hr] at h
    cases err with
    | some err => cases h
    | none => exact ih r1 h

theorem Register_all_registered (codec : SchemaCodec σ) (entries : List (LogType σ π)) :
    ∀ r : Registry σ π, (Register codec r entries).2 = none →
      ∀ e ∈ entries, (Register codec r entries).1.Get e.Name = some e := by
  induction entries with
  | nil => exact fun r _ e he => absurd he (List.not_mem_nil e)
  | cons entry rest ih =>
    intro r h e he
    simp only [Register] at h ⊢
    have hself := Register_get_self codec r entry
    rcases hr : r.Register codec entry with ⟨r1, err⟩
    rw [hr] at h hself
    cases err with
    | some err => cases h
    | none =>
      rcases List.mem_cons.mp he with rfl | hrest
      · exact Register_all_keeps codec rest r1 _ _ (hself rfl)
      · exact ih r1 h e hrest

theorem registerEach_eq (codec : SchemaCodec σ) (entries : List (LogType σ π)) :
    ∀ r : Registry σ π, registerEach codec r entries =
      (match (Register codec r entries).2 with
        | none => some (Register codec r entries).1
        | some _ => none, (Register codec r entries).2) := by
  induction entries with
  | nil => exact fun r => rfl
  | cons entry rest ih =>
    intro r
    simp only [registerEach, Register]
    rcases hr : r.Register codec entry with ⟨r1, err⟩
    cases err with
    | some err => rfl
    | none => exact ih r1

end parsers

end panther

namespace panther

/-! ## Claims on the extractor, the factory and registering several log types -/

section laterRegistryClaims

open parsers awslogs pantherlog

variable {σ π : Type}

/-- C36: for every key and every string value that begins with `arn:` and does not parse as
an ARN, `Extract` appends nothing: the log is as it was, also under the keys of the key-based
rules. -/
theorem extract_unparsed_arn_appends_nothing (pl : AWSPantherLog) (key : gjson.Result)
    (s : String) (hpre : strings.HasPrefix s "arn:" = true) (hparse : arn.Parse s = none) :
    AWSExtractor.Extract pl key (some (.string s)) = pl := by
  simp [AWSExtractor.Extract, gjson.Str, hpre, hparse]

/-- C36 for the value `arn:aws:iam`, which has too few sections, under the keys `accountId`,
`instanceId`, `publicIp` and `domain`. -/
theorem extract_unparsed_arn_appends_nothing_witness :
    strings.HasPrefix "arn:aws:iam" "arn:" = true ∧ arn.Parse "arn:aws:iam" = none ∧
    AWSExtractor.Extract [] (some (.string "accountId")) (some (.string "arn:aws:iam")) = [] ∧
    AWSExtractor.Extract [] (some (.string "instanceId")) (some (.string "arn:aws:iam")) = [] ∧
    AWSExtractor.Extract [] (some (.string "publicIp")) (some (.string "arn:aws:iam")) = [] ∧
    AWSExtractor.Extract [] (some (.string "domain")) (some (.string "arn:aws:iam")) = [] :=
  ⟨by decide, by decide,
    extract_unparsed_arn_appends_nothing [] _ "arn:aws:iam" (by decide) (by decide),
    by decide, by decide, by decide⟩

/-- C37: `Check` and `Register` do not look at the parser factory: an entry and the same
entry with any other factory get the same `Check` result and the same `Register` error. So
when an entry is accepted, the entry with a nil factory is accepted as well, `Get` then
returns it, and `NewParser` for its name panics on the call of the nil function and returns
no error. The sample entry with a nil factory shows it on the empty registry. -/
theorem register_ignores_factory (codec : SchemaCodec σ) (r : Registry σ π)
    (entry : LogType σ π) (f : ParserFactory π) :
    LogType.Check codec (some { entry with NewParser := f }) =
      LogType.Check codec (some entry) ∧
    (r.Register codec { entry with NewParser := f }).2 = (r.Register codec entry).2 ∧
    ((r.Register codec entry).2 = none →
      (r.Register codec { entry with NewParser := none }).2 = none ∧
      (r.Register codec { entry with NewParser := none }).1.Get entry.Name =
        some { entry with NewParser := none } ∧
      NewParser (r.Register codec { entry with NewParser := none }).1 entry.Name =
        .panicked nilDereference) ∧
    (Registry.zero.Register sample.codec sample.nilFactoryLog).2 = none ∧
    NewParser (Registry.zero.Register sample.codec sample.nilFactoryLog).1 "Zeek.DNS" =
      .panicked nilDereference := by
  have hcheck : ∀ g : ParserFactory π, LogType.Check codec (some { entry with NewParser := g }) =
      LogType.Check codec (some entry) := fun g => rfl
  have hreg : ∀ g : ParserFactory π, (r.Register codec { entry with NewParser := g }).2 =
      (r.Register codec entry).2 := by
    intro g
    simp only [Registry.Register, hcheck g]
    cases LogType.Check codec (some entry) with
    | some err => rfl
    | none =>
      cases mapIndex r.entries entry.Name with
      | some e => rfl
      | none => rfl
  refine ⟨hcheck f, hreg f, ?_, rfl, rfl⟩
  intro hok
  have hnil : (r.Register codec { entry with NewParser := none }).2 = none := by
    rw [hreg none]; exact hok
  have hget := Register_get_self codec r { entry with NewParser := none } hnil
  refine ⟨hnil, hget, ?_⟩
  have hget1 : Registry.Get (r.Register codec { entry with NewParser := none }).1 entry.Name =
      some { entry with NewParser := none } := hget
  simp [NewParser, hget1, ParserFactory.call]

/-- C38: when the entries `before` register without error and the entry `bad` then fails,
`Register(before..., bad, after...)` returns the error of `bad` and leaves the registry as
it is after `before`: every entry of `before` is registered, and the result is the same for
every `after`, whose entries are not attempted. `MustRegister` panics with that error on the
same registry, and `NewRegistry` returns nil with that error. -/
theorem register_many_not_atomic (codec : SchemaCodec σ) (r : Registry σ π)
    (before after : List (LogType σ π)) (bad : LogType σ π)
    (hbefore : (Register codec r before).2 = none)
    (hbad : ((Register codec r before).1.Register codec bad).2 ≠ none) :
    Register codec r (before ++ bad :: after) =
      ((Register codec r before).1, ((Register codec r before).1.Register codec bad).2) ∧
    (∀ e ∈ before, (Register codec r (before ++ bad :: after)).1.Get e.Name = some e) ∧
    Register codec r (before ++ bad :: after) = Register codec r (before ++ [bad]) ∧
    (∃ err, ((Register codec r before).1.Register codec bad).2 = some err ∧
      MustRegister codec r (before ++ bad :: after) =
        ((Register codec r before).1, .panicked err)) ∧
    (r = Registry.zero →
      NewRegistry codec (before ++ bad :: after) =
        (none, ((Register codec r before).1.Register codec bad).2)) := by
  have hone : ∀ rest : List (LogType σ π), Register codec r (before ++ bad :: rest) =
      ((Register codec r before).1, ((Register codec r before).1.Register codec bad).2) := by
    intro rest
    rw [Register_all_append codec before (bad :: rest) r hbefore]
    simp only [Register]
    have hfst := Registry.Register_fst_of_error codec (Register codec r before).1 bad hbad
    rcases hr : (Register codec r before).1.Register codec bad with ⟨r1, err⟩
    rw [hr] at hbad hfst
    cases err with
    | none => exact absurd rfl hbad
    | some err =>
      simp only at hfst
      rw [hfst]
  refine ⟨hone after, ?_, ?_, ?_, ?_⟩
  · intro e he
    rw [hone after]
    exact Register_all_registered codec before r hbefore e he
  · rw [hone after, hone []]
  · cases herr : ((Register codec r before).1.Register codec bad).2 with
    | none => exact absurd herr hbad
    | some err =>
      refine ⟨err, rfl, ?_⟩
      simp only [MustRegister, hone after, herr]
  · intro hr
    subst hr
    rw [NewRegistry, registerEach_eq, hone after]
    cases herr : ((Register codec Registry.zero before).1.Register codec bad).2 with
    | none => exact absurd herr hbad
    | some err => rfl

/-- C38 for the access log, then a log type with no description, then the audit log, on the
empty registry: the call fails, the access log stays registered and the audit log is not. -/
theorem register_many_not_atomic_witness :
    (Register sample.codec Registry.zero [sample.accessLog]).2 = none ∧
    ((Register sample.codec Registry.zero [sample.accessLog]).1.Register sample.codec
      sample.noDescriptionLog).2 ≠ none ∧
    (Register sample.codec Registry.zero
      ([sample.accessLog] ++ sample.noDescriptionLog :: [sample.auditLog])).1.Get
        "Apache.AccessCombined" = some sample.accessLog ∧
    ((Register sample.codec Registry.zero
      ([sample.accessLog] ++ sample.noDescriptionLog :: [sample.auditLog])).1.Get
        "GitLab.Audit").isNone = true :=
  ⟨rfl, by decide,
    (register_many_not_atomic sample.codec Registry.zero [sample.accessLog] [sample.auditLog]
      sample.noDescriptionLog rfl (by decide)).2.1 sample.accessLog (List.mem_singleton.mpr rfl),
    rfl⟩

end laterRegistryClaims

end panther

namespace panther

/-! ## Events of the DNS records -/

namespace logs

open pantherlog

theorem mem_Add (e : Event) (values : List (Option Value)) (x : Value) :
    x ∈ (e.Add values).Values ↔ x ∈ e.Values ∨ (some x ∈ values ∧ x.Data ≠ "") :=
  parsers.mem_foldl_add values e.Values x

theorem mem_foldl_Add (hostname : String → Value) (answers : List String) (e : Event)
    (x : Value) :
    x ∈ (answers.foldl (fun acc answer => acc.Add [Hostname hostname answer]) e).Values ↔
      x ∈ e.Values ∨ ((∃ answer ∈ answers, x = hostname answer) ∧ x.Data ≠ "") := by
  induction answers generalizing e with
  | nil => simp
  | cons answer rest ih =>
    simp only [List.foldl_cons, List.mem_cons]
    rw [ih, mem_Add]
    simp only [Hostname, List.mem_singleton, Option.some.injEq]
    constructor
    · rintro ((h | ⟨h, hd⟩) | ⟨⟨a, ha, h⟩, hd⟩)
      · exact Or.inl h
      · exact Or.inr ⟨⟨answer, Or.inl rfl, h⟩, hd⟩
      · exact Or.inr ⟨⟨a, Or.inr ha, h⟩, hd⟩
    · rintro (h | ⟨⟨a, ha | ha, h⟩, hd⟩)
      · exact Or.inl (Or.inl h)
      · subst ha; exact Or.inl (Or.inr ⟨h, hd⟩)
      · exact Or.inr ⟨⟨a, ha, h⟩, hd⟩

end logs

namespace suricatalogs

open pantherlog

theorem Extend_nil (e : parsers.PantherEvent) : e.Extend [] = e := rfl

/-- The event of a record whose details are `dns`, by the answers. -/
theorem PantherEvent_of_details (event : DNS) (dns : DNSDetails) (hdns : event.DNS = some dns) :
    event.PantherEvent =
      (match dns.Grouped with
        | none => dns.Answers.foldl (fun acc answer => acc.Extend (answerValues answer))
            ((parsers.NewEvent TypeDNS event.Timestamp
              [parsers.IPAddressP event.SrcIP, parsers.IPAddressP event.DestIP]).Extend
              [parsers.DomainNameP dns.Rrname, parsers.IPAddressP dns.RData])
        | some grouped => groupedValues
            (dns.Answers.foldl (fun acc answer => acc.Extend (answerValues answer))
              ((parsers.NewEvent TypeDNS event.Timestamp
                [parsers.IPAddressP event.SrcIP, parsers.IPAddressP event.DestIP]).Extend
                [parsers.DomainNameP dns.Rrname, parsers.IPAddressP dns.RData])) grouped) := by
  unfold DNS.PantherEvent
  rw [hdns]

theorem mem_of_top_level (event : DNS) (dns : DNSDetails) (hdns : event.DNS = some dns)
    (x : Value) (hx : some x ∈ [parsers.DomainNameP dns.Rrname, parsers.IPAddressP dns.RData])
    (hdata : x.Data ≠ "") : x ∈ event.PantherEvent.Values := by
  rw [PantherEvent_of_details event dns hdns]
  have h2 : x ∈ (dns.Answers.foldl (fun acc answer => acc.Extend (answerValues answer))
      ((parsers.NewEvent TypeDNS event.Timestamp
        [parsers.IPAddressP event.SrcIP, parsers.IPAddressP event.DestIP]).Extend
        [parsers.DomainNameP dns.Rrname, parsers.IPAddressP dns.RData])).Values :=
    (mem_foldl_Extend _ _ _).mpr (Or.inl ((parsers.mem_Extend _ _ _).mpr (Or.inr ⟨hx, hdata⟩)))
  cases hg : dns.Grouped with
  | none => exact h2
  | some grouped => exact (groupedValues_keeps _ grouped).2 x h2

end suricatalogs

namespace handlers

theorem setDifference_foldl (second : List String) (first result : List String) :
    first.foldl (fun result x => if x ∈ second then result else result ++ [x]) result =
      result ++ first.filter (fun x => decide (x ∉ second)) := by
  induction first generalizing result with
  | nil => simp
  | cons x rest ih =>
    simp only [List.foldl_cons]
    rw [ih]
    by_cases h : x ∈ second
    · simp [h]
    · simp [h]

end handlers

end panther

namespace panther

/-! ## Claims on the DNS events and on the handlers -/

section dnsClaims

open suricatalogs zeeklogs pantherlog handlers

/-- C39: for every Suricata DNS record with DNS details, the top-level rrname, when present
and not empty, is a DomainName of the event and the top-level rdata, when present and not
empty, is an IPAddress of the event, and the event is the same whatever the top-level rrtype
is. An answer whose rrtype is absent, or none of A, AAAA, CNAME, MX, PTR and TXT, hands no
value to the event: the event is the one of the record without that answer. -/
theorem dns_top_level_indicators (event : DNS) (dns : DNSDetails)
    (hdns : event.DNS = some dns) :
    (∀ name, dns.Rrname = some name → name ≠ "" →
      DomainName name ∈ event.PantherEvent.Values) ∧
    (∀ data, dns.RData = some data → data ≠ "" →
      IPAddress data ∈ event.PantherEvent.Values) ∧
    (∀ rrtype : Option String,
      ({ event with DNS := some { dns with Rrtype := rrtype } } : DNS).PantherEvent =
        event.PantherEvent) ∧
    (∀ answer : DNSDetailsAnswers,
      (answer.Rrtype = none ∨
        ∀ t, answer.Rrtype = some t →
          t ≠ "A" ∧ t ≠ "AAAA" ∧ t ≠ "CNAME" ∧ t ≠ "MX" ∧ t ≠ "PTR" ∧ t ≠ "TXT") →
      answerValues answer = [] ∧
      ∀ before after, dns.Answers = before ++ answer :: after →
        event.PantherEvent =
          ({ event with DNS := some { dns with Answers := before ++ after } } :
            DNS).PantherEvent) := by
  refine ⟨?_, ?_, ?_, ?_⟩
  · intro name hname hne
    exact mem_of_top_level event dns hdns _ (by simp [parsers.DomainNameP, hname]) hne
  · intro data hdata hne
    exact mem_of_top_level event dns hdns _ (by simp [parsers.IPAddressP, hdata]) hne
  · intro rrtype
    rw [PantherEvent_of_details event dns hdns,
      PantherEvent_of_details _ { dns with Rrtype := rrtype } rfl]
  · intro answer htype
    have hnil : answerValues answer = [] := by
      rcases htype with h | h
      · simp [answerValues, h, aws.StringValue]
      · cases ht : answer.Rrtype with
        | none => simp [answerValues, ht, aws.StringValue]
        | some t =>
          obtain ⟨h1, h2, h3, h4, h5, h6⟩ := h t ht
          simp [answerValues, ht, aws.StringValue, h1, h2, h3, h4, h5, h6]
    refine ⟨hnil, ?_⟩
    intro before after hanswers
    rw [PantherEvent_of_details event dns hdns,
      PantherEvent_of_details _ { dns with Answers := before ++ after } rfl]
    simp only [hanswers, List.foldl_append, List.foldl_cons, hnil, Extend_nil]

/-- C39 for a record of type CNAME whose rdata is a name, and whose one answer is of type
SOA: the rdata is an IPAddress of the event, and the answer adds nothing. -/
theorem dns_top_level_indicators_witness :
    sample.cnameRecord.DNS ≠ none ∧
    IPAddress "cdn.example.net" ∈ sample.cnameRecord.PantherEvent.Values ∧
    sample.cnameRecord.PantherEvent.Values =
      [⟨.KindDomainName, "www.example.com"⟩, ⟨.KindIPAddress, "cdn.example.net"⟩] :=
  ⟨by decide,
    (dns_top_level_indicators sample.cnameRecord _ rfl).2.1 "cdn.example.net" rfl (by decide),
    by decide⟩

/-- C40: the values of the event of a Zeek DNS record are the host-name values, with data
that is not empty, of the originator host, of the responder host, of every entry of the
answers, and of the query name when the qtype is present and is 1 or 28. When the qtype is
absent or another number the query name is not added: the event is that of the record
without a query name. -/
theorem zeek_dns_hostnames (hostname : String → Value) (event : ZeekDNS) :
    (∀ v : Value, v ∈ (event.PantherEvent hostname).Values ↔
      v.Data ≠ "" ∧
        (event.IDOrigH.map hostname = some v ∨ event.IDRespH.map hostname = some v ∨
          ((event.QType = some 1 ∨ event.QType = some 28) ∧
            event.Query.map hostname = some v) ∨
          ∃ answer ∈ event.Answers, v = hostname answer)) ∧
    (¬ (event.QType = some 1 ∨ event.QType = some 28) →
      event.PantherEvent hostname = ({ event with Query := none } : ZeekDNS).PantherEvent
        hostname) ∧
    (event.QType = some 1 ∨ event.QType = some 28 →
      ∀ query, event.Query = some query → (hostname query).Data ≠ "" →
        hostname query ∈ (event.PantherEvent hostname).Values) ∧
    (sample.zeekRecord.PantherEvent sample.hostname).Values =
      [⟨.KindIPAddress, "10.0.0.1"⟩, ⟨.KindIPAddress, "10.0.0.2"⟩,
        ⟨.KindDomainName, "example.com"⟩, ⟨.KindIPAddress, "93.184.216.34"⟩] ∧
    (({ sample.zeekRecord with QType := some 15 } : ZeekDNS).PantherEvent
        sample.hostname).Values =
      [⟨.KindIPAddress, "10.0.0.1"⟩, ⟨.KindIPAddress, "10.0.0.2"⟩,
        ⟨.KindIPAddress, "93.184.216.34"⟩] := by
  have hmem : ∀ v : Value, v ∈ (event.PantherEvent hostname).Values ↔
      v.Data ≠ "" ∧
        (event.IDOrigH.map hostname = some v ∨ event.IDRespH.map hostname = some v ∨
          ((event.QType = some 1 ∨ event.QType = some 28) ∧
            event.Query.map hostname = some v) ∨
          ∃ answer ∈ event.Answers, v = hostname answer) := by
    intro v
    unfold ZeekDNS.PantherEvent
    simp only [logs.mem_foldl_Add, logs.HostnameP]
    have hbase : v ∈ (logs.NewEvent zeeklogs.TypeDNS event.Ts
        [event.IDOrigH.map hostname, event.IDRespH.map hostname]).Values ↔
        v.Data ≠ "" ∧
          (event.IDOrigH.map hostname = some v ∨ event.IDRespH.map hostname = some v) := by
      rw [show logs.NewEvent zeeklogs.TypeDNS event.Ts
          [event.IDOrigH.map hostname, event.IDRespH.map hostname] =
          (⟨zeeklogs.TypeDNS, event.Ts, []⟩ : logs.Event).Add
            [event.IDOrigH.map hostname, event.IDRespH.map hostname]
        from rfl, logs.mem_Add]
      simp only [List.mem_cons, List.mem_singleton, List.not_mem_nil, false_or, or_false]
      constructor
      · rintro ⟨h | h, hd⟩
        · exact ⟨hd, Or.inl h.symm⟩
        · exact ⟨hd, Or.inr h.symm⟩
      · rintro ⟨hd, h | h⟩
        · exact ⟨Or.inl h.symm, hd⟩
        · exact ⟨Or.inr h.symm, hd⟩
    cases hq : event.QType with
    | none =>
      simp only [hbase]
      simp only [reduceCtorEq, or_self, false_and, false_or]
      tauto
    | some qtype =>
      by_cases hcond : qtype = aQueryType ∨ qtype = aaaaQueryType
      · have hcond1 : qtype = 1 ∨ qtype = 28 := hcond
        simp only [if_pos hcond, logs.mem_Add, hbase, List.mem_singleton,
          Option.some.injEq, hcond1, true_and]
        constructor
        · rintro ((⟨hd, h⟩ | ⟨h, hd⟩) | ⟨h, hd⟩)
          · exact ⟨hd, by tauto⟩
          · exact ⟨hd, Or.inr (Or.inr (Or.inl h.symm))⟩
          · exact ⟨hd, Or.inr (Or.inr (Or.inr h))⟩
        · rintro ⟨hd, h | h | h | h⟩
          · exact Or.inl (Or.inl ⟨hd, Or.inl h⟩)
          · exact Or.inl (Or.inl ⟨hd, Or.inr h⟩)
          · exact Or.inl (Or.inr ⟨h.symm, hd⟩)
          · exact Or.inr ⟨h, hd⟩
      · have hcond1 : ¬ (qtype = 1 ∨ qtype = 28) := hcond
        simp only [if_neg hcond, hbase, Option.some.injEq, hcond1, false_and, false_or]
        tauto
  refine ⟨hmem, ?_, ?_, by decide, by decide⟩
  · intro hcond
    unfold ZeekDNS.PantherEvent
    cases hq : event.QType with
    | none => rfl
    | some qtype =>
      have hcond1 : ¬ (qtype = aQueryType ∨ qtype = aaaaQueryType) := by
        intro h
        apply hcond
        rw [hq]
        rcases h with h | h
        · exact Or.inl (congrArg some h)
        · exact Or.inr (congrArg some h)
      simp only [if_neg hcond1]
  · intro hcond query hquery hdata
    rw [hmem]
    exact ⟨hdata, Or.inr (Or.inr (Or.inl ⟨hcond, by rw [hquery]; rfl⟩))⟩

/-- C31: the outcomes of `ModifyGlobal`. When the request fails parsing the response is the
bad-request response of the error and the table is as it was. Else `writeItem` is called once,
with the item of type global that carries the body, description, id and tags of the request,
with the user id of the request and with `mustExist` true, and the table is as that call
leaves it: the response has status 404 when the call fails with `errNotExists` or
`errWrongType`, status 500 when it fails with another error, and is the marshalled response
of status 200 of the global of the item when it succeeds. -/
theorem modifyGlobal_outcomes {ρ σ ε γ : Type} [DecidableEq ε] (pkg : Package ρ σ ε γ)
    (request : ρ) (table : σ) :
    (∀ err, pkg.parseUpdateGlobal request = .error err →
      ModifyGlobal pkg request table = (pkg.badRequest err, table)) ∧
    (∀ input, pkg.parseUpdateGlobal request = .ok input →
      ∀ item1 change werr table1,
        pkg.writeItem ⟨input.Body, input.Description, input.ID, input.Tags, pkg.typeGlobal⟩
          input.UserID (some true) table = ((item1, change, werr), table1) →
        (ModifyGlobal pkg request table).2 = table1 ∧
        (werr = some pkg.errNotExists ∨ werr = some pkg.errWrongType →
          (ModifyGlobal pkg request table).1 = ⟨404, ""⟩) ∧
        (∀ err, werr = some err → err ≠ pkg.errNotExists → err ≠ pkg.errWrongType →
          (ModifyGlobal pkg request table).1 = ⟨500, ""⟩) ∧
        (werr = none →
          (ModifyGlobal pkg request table).1 = pkg.MarshalResponse (pkg.Global item1) 200 ∧
          ((∀ body code, (pkg.MarshalResponse body code).StatusCode = code) →
            (ModifyGlobal pkg request table).1.StatusCode = 200))) := by
  constructor
  · intro err herr
    simp [ModifyGlobal, herr]
  · intro input hinput item1 change werr table1 hwrite
    cases werr with
    | none =>
      refine ⟨by simp [ModifyGlobal, hinput, hwrite], fun h => ?_, fun err h => ?_, fun _ => ?_⟩
      · rcases h with h | h <;> cases h
      · cases h
      · have hresp : (ModifyGlobal pkg request table).1 =
            pkg.MarshalResponse (pkg.Global item1) 200 := by
          simp [ModifyGlobal, hinput, hwrite, http.StatusOK]
        exact ⟨hresp, fun hm => by rw [hresp]; exact hm _ _⟩
    | some e =>
      by_cases hcond : e = pkg.errNotExists ∨ e = pkg.errWrongType
      · refine ⟨by simp [ModifyGlobal, hinput, hwrite, hcond], fun _ => ?_, fun err h h1 h2 => ?_,
          fun h => by cases h⟩
        · simp [ModifyGlobal, hinput, hwrite, hcond, http.StatusNotFound]
        · cases h
          rcases hcond with h | h
          · exact absurd h h1
          · exact absurd h h2
      · refine ⟨by simp [ModifyGlobal, hinput, hwrite, hcond], fun h => ?_, fun err _ _ _ => ?_,
          fun h => by cases h⟩
        · exfalso
          apply hcond
          rcases h with h | h
          · exact Or.inl (Option.some.inj h)
          · exact Or.inr (Option.some.inj h)
        · simp [ModifyGlobal, hinput, hwrite, hcond, http.StatusInternalServerError]

/-- C32: `setDifference(a, b)` is the list of the elements of `a` that do not occur in `b`,
in their order in `a`: it is empty when every element of `a` occurs in `b`, so when `a` is
empty, and it is `a` when `b` is empty. The calls of `TestSetDifference` give what the test
asserts. -/
theorem setDifference_spec (a b : List String) :
    setDifference a b = a.filter (fun x => decide (x ∉ b)) ∧
    (∀ x, x ∈ setDifference a b ↔ x ∈ a ∧ x ∉ b) ∧
    (setDifference a b).Sublist a ∧
    ((∀ x ∈ a, x ∈ b) → setDifference a b = []) ∧
    setDifference [] b = [] ∧
    setDifference a [] = a ∧
    setDifference [] [] = [] ∧
    setDifference ["a", "b", "c"] ["c", "a", "b"] = [] ∧
    setDifference ["a", "b"] [] = ["a", "b"] ∧
    setDifference [] ["a", "b"] = [] ∧
    setDifference ["panther", "labs", "inc"] ["inc", "runpanther.io"] = ["panther", "labs"] := by
  have hall : ∀ a b : List String, setDifference a b = a.filter (fun x => decide (x ∉ b)) := by
    intro a b
    unfold setDifference
    rw [setDifference_foldl]
    rfl
  have h := hall a b
  refine ⟨h, ?_, ?_, ?_, rfl, ?_, rfl, by decide, by decide, rfl, by decide⟩
  · intro x
    rw [h]
    simp
  · rw [h]
    exact List.filter_sublist a
  · intro hsub
    rw [h]
    simp only [List.filter_eq_nil_iff, decide_eq_true_eq, not_not]
    exact hsub
  · rw [hall a []]
    simp

end dnsClaims

end panther

namespace panther

/-! ## The order of sortCaseInsensitive -/

namespace handlers

theorem lessCaseInsensitive_iff (lower : String → String) (a b : String) :
    lessCaseInsensitive lower a b = true ↔
      lower a < lower b ∨ (lower a = lower b ∧ a < b) := by
  unfold lessCaseInsensitive
  by_cases h : lower a = lower b
  · simp [h]
  · simp [h]

theorem not_lessCaseInsensitive_iff (lower : String → String) (a b : String) :
    lessCaseInsensitive lower b a = false ↔
      lower a < lower b ∨ (lower a = lower b ∧ ¬ b < a) := by
  rw [← Bool.not_eq_true, lessCaseInsensitive_iff]
  constructor
  · intro h
    rw [not_or] at h
    rcases lt_trichotomy (lower a) (lower b) with h1 | h1 | h1
    · exact Or.inl h1
    · exact Or.inr ⟨h1, fun hlt => h.2 ⟨h1.symm, hlt⟩⟩
    · exact absurd h1 h.1
  · rintro (h | ⟨h1, h2⟩)
    · rintro (h3 | ⟨h3, _⟩)
      · exact lt_asymm h h3
      · rw [h3] at h; exact lt_irrefl _ h
    · rintro (h3 | ⟨_, h3⟩)
      · rw [h1] at h3; exact lt_irrefl _ h3
      · exact h2 h3

/-- The relation of two strings of which the first does not come after the second. -/
theorem notAfter_trans (lower : String → String) (a b c : String)
    (hab : lower a < lower b ∨ (lower a = lower b ∧ ¬ b < a))
    (hbc : lower b < lower c ∨ (lower b = lower c ∧ ¬ c < b)) :
    lower a < lower c ∨ (lower a = lower c ∧ ¬ c < a) := by
  rcases hab with h1 | ⟨h1, h2⟩
  · rcases hbc with h3 | ⟨h3, _⟩
    · exact Or.inl (lt_trans h1 h3)
    · exact Or.inl (h3 ▸ h1)
  · rcases hbc with h3 | ⟨h3, h4⟩
    · exact Or.inl (h1 ▸ h3)
    · refine Or.inr ⟨h1.trans h3, fun hlt => ?_⟩
      exact absurd (lt_of_lt_of_le hlt (not_lt.mp h2)) h4

theorem notAfter_antisymm (lower : String → String) (a b : String)
    (hab : lower a < lower b ∨ (lower a = lower b ∧ ¬ b < a))
    (hba : lower b < lower a ∨ (lower b = lower a ∧ ¬ a < b)) : a = b := by
  rcases hab with h1 | ⟨h1, h2⟩
  · rcases hba with h3 | ⟨h3, _⟩
    · exact absurd h3 (lt_asymm h1)
    · rw [h3] at h1; exact absurd h1 (lt_irrefl _)
  · rcases hba with h3 | ⟨_, h4⟩
    · rw [h1] at h3; exact absurd h3 (lt_irrefl _)
    · exact le_antisymm (not_lt.mp h2) (not_lt.mp h4)

/-- The order by the characters of the strings, which can be evaluated. -/
theorem lessCaseInsensitive_eq (lower : String → String) (a b : String) :
    lessCaseInsensitive lower a b =
      if lower a = lower b then decide (a.toList < b.toList)
      else decide ((lower a).toList < (lower b).toList) := by
  simp only [lessCaseInsensitive, String.lt_iff_toList_lt]

theorem insertCaseInsensitive_perm (lower : String → String) (x : String) (l : List String) :
    (insertCaseInsensitive lower x l).Perm (x :: l) := by
  induction l with
  | nil => exact List.Perm.refl _
  | cons y rest ih =>
    unfold insertCaseInsensitive
    cases lessCaseInsensitive lower y x with
    | true =>
      simp only [if_true]
      exact (List.Perm.cons y ih).trans (List.Perm.swap x y rest)
    | false => exact List.Perm.refl _

theorem sortCaseInsensitive_perm (lower : String → String) (values : List String) :
    (sortCaseInsensitive lower values).Perm values := by
  induction values with
  | nil => exact List.Perm.refl _
  | cons x rest ih =>
    exact (insertCaseInsensitive_perm lower x _).trans (List.Perm.cons x ih)

theorem insertCaseInsensitive_sorted (lower : String → String) (x : String) (l : List String)
    (h : l.Pairwise fun a b => lower a < lower b ∨ (lower a = lower b ∧ ¬ b < a)) :
    (insertCaseInsensitive lower x l).Pairwise
      fun a b => lower a < lower b ∨ (lower a = lower b ∧ ¬ b < a) := by
  induction l with
  | nil => exact List.pairwise_singleton _ _
  | cons y rest ih =>
    rw [List.pairwise_cons] at h
    unfold insertCaseInsensitive
    cases hless : lessCaseInsensitive lower y x with
    | true =>
      simp only [if_true]
      rw [List.pairwise_cons]
      refine ⟨?_, ih h.2⟩
      intro z hz
      rcases List.mem_cons.mp ((insertCaseInsensitive_perm lower x rest).mem_iff.mp hz) with
        rfl | hz
      · rcases (lessCaseInsensitive_iff lower y z).mp hless with h1 | ⟨h1, h2⟩
        · exact Or.inl h1
        · exact Or.inr ⟨h1, lt_asymm h2⟩
      · exact h.1 z hz
    | false =>
      simp only [Bool.false_eq_true, if_false]
      have hxy := (not_lessCaseInsensitive_iff lower x y).mp hless
      rw [List.pairwise_cons]
      refine ⟨?_, List.pairwise_cons.mpr h⟩
      intro z hz
      rcases List.mem_cons.mp hz with rfl | hz
      · exact hxy
      · exact notAfter_trans lower x y z hxy (h.1 z hz)

theorem sortCaseInsensitive_sorted (lower : String → String) (values : List String) :
    (sortCaseInsensitive lower values).Pairwise
      fun a b => lower a < lower b ∨ (lower a = lower b ∧ ¬ b < a) := by
  induction values with
  | nil => exact List.Pairwise.nil
  | cons x rest ih => exact insertCaseInsensitive_sorted lower x _ ih

end handlers

end panther

namespace panther

/-! ## Claim on sortCaseInsensitive -/

section sortClaims

open handlers

/-- C33: for every lowercasing function and every slice, the slice that `sortCaseInsensitive`
leaves is a permutation of the slice given, in which of two strings the earlier has the
smaller lowercase form, or the same lowercase form and then is not the greater in the
case-sensitive comparison; it is the only such arrangement. The calls of
`TestSortCaseInsensitive`, with the lowercasing of ASCII, give what the test asserts: of
`Panther` and `panther` the one with the capital comes first. -/
theorem sortCaseInsensitive_spec (lower : String → String) (values : List String) :
    (sortCaseInsensitive lower values).Perm values ∧
    (sortCaseInsensitive lower values).Pairwise
      (fun a b => lower a < lower b ∨ (lower a = lower b ∧ ¬ b < a)) ∧
    (∀ sorted : List String, sorted.Perm values →
      sorted.Pairwise (fun a b => lower a < lower b ∨ (lower a = lower b ∧ ¬ b < a)) →
      sorted = sortCaseInsensitive lower values) ∧
    sortCaseInsensitive sample.toLowerASCII ["AWS.EC2.VPC", "AWS.EC2.Volume"] =
      ["AWS.EC2.Volume", "AWS.EC2.VPC"] ∧
    sortCaseInsensitive sample.toLowerASCII
        ["panther", "Panther", "Panna Cotta", "panna cotta"] =
      ["Panna Cotta", "panna cotta", "Panther", "panther"] := by
  refine ⟨sortCaseInsensitive_perm lower values, sortCaseInsensitive_sorted lower values, ?_,
    ?_, ?_⟩
  rotate_left
  · simp only [sortCaseInsensitive, List.foldr, insertCaseInsensitive, lessCaseInsensitive_eq]
    decide
  · simp only [sortCaseInsensitive, List.foldr, insertCaseInsensitive, lessCaseInsensitive_eq]
    decide
  intro sorted hperm hsorted
  haveI : IsAntisymm String
      (fun a b => lower a < lower b ∨ (lower a = lower b ∧ ¬ b < a)) :=
    ⟨fun a b hab hba => notAfter_antisymm lower a b hab hba⟩
  exact List.eq_of_perm_of_sorted
    (hperm.trans (sortCaseInsensitive_perm lower values).symm) hsorted
    (sortCaseInsensitive_sorted lower values)

end sortClaims

end panther

namespace panther

/-! ## Fields of a line and the groups of the access-combined pattern -/

namespace regexp

/-- A run of a class is the same in a longer text when it ends before the end of the text or
the text goes on with a character outside the class. -/
theorem takeWhile_dropWhile_ext (p : Char → Bool) (s : List Char) (c : Char) (t : List Char)
    (h : s.dropWhile p ≠ [] ∨ p c = false) :
    (s ++ c :: t).takeWhile p = s.takeWhile p ∧
    (s ++ c :: t).dropWhile p = s.dropWhile p ++ c :: t := by
  induction s with
  | nil =>
    rcases h with h | h
    · exact absurd rfl h
    · simp [List.takeWhile, List.dropWhile, h]
  | cons x rest ih =>
    by_cases hx : p x = true
    · have h1 : rest.dropWhile p ≠ [] ∨ p c = false := by
        rcases h with h | h
        · left; simpa [List.dropWhile, hx] using h
        · exact Or.inr h
      simp [List.takeWhile, List.dropWhile, hx, ih h1]
    · simp [List.takeWhile, List.dropWhile, hx]

theorem isSpace_not_digit (c : Char) (h : isSpace c = true) : isDigit c = false := by
  simp only [isSpace, Bool.or_eq_true, decide_eq_true_eq] at h
  rcases h with (((h | h) | h) | h) | h <;> subst h <;> decide

end regexp

namespace apachelogs

open regexp

theorem unquoted_extends (f m : List Char)
    (h : matchAlt (subPattern rxUnquoted) f = some (m, [])) :
    (∀ c t, isSpace c = true →
      matchAlt (subPattern rxUnquoted) (f ++ c :: t) = some (m, c :: t)) ∧
    ∃ x rest, f = x :: rest ∧ isSpace x = false := by
  have hsub : subPattern rxUnquoted = [[.plus fun c => !isSpace c]] := rfl
  rw [hsub] at h ⊢
  simp only [matchAlt, matchSeq, Atom.match?] at h ⊢
  by_cases he : (f.takeWhile fun c => !isSpace c).isEmpty = true
  · simp [he] at h
  · simp only [he] at h
    simp only [Bool.false_eq_true, if_false, List.append_nil, Option.some.injEq,
      Prod.mk.injEq] at h
    obtain ⟨hm, hd⟩ := h
    constructor
    · intro c t hc
      have hext := takeWhile_dropWhile_ext (fun c => !isSpace c) f c t (Or.inr (by simp [hc]))
      rw [hext.1, hext.2, hd, hm]
      have hne : m.isEmpty = false := by rw [← hm]; simpa using he
      simp [hne]
    · cases f with
      | nil => simp at he
      | cons x rest =>
        refine ⟨x, rest, rfl, ?_⟩
        by_contra hx
        simp [List.takeWhile, hx] at he

end apachelogs

end panther

namespace panther

namespace apachelogs

open regexp

theorem delimited_extends (a b : Char) (p : Char → Bool) (ha : isSpace a = false)
    (f m : List Char) (h : matchAlt [[.char a, .plus p, .char b]] f = some (m, [])) :
    (∀ c t, matchAlt [[.char a, .plus p, .char b]] (f ++ c :: t) = some (m, c :: t)) ∧
    ∃ x rest, f = x :: rest ∧ isSpace x = false := by
  cases f with
  | nil => simp [matchAlt, matchSeq, Atom.match?] at h
  | cons x r1 =>
    simp only [matchAlt, matchSeq, Atom.match?] at h
    by_cases hx : x = a
    · subst hx
      simp only [if_true] at h
      by_cases he : (r1.takeWhile p).isEmpty = true
      · simp [he] at h
      · simp only [he, Bool.false_eq_true, if_false] at h
        cases hd : r1.dropWhile p with
        | nil => simp [hd, Atom.match?] at h
        | cons y r2 =>
          simp only [hd, Atom.match?] at h
          by_cases hy : y = b
          · subst hy
            simp only [if_true, List.append_nil, Option.some.injEq, Prod.mk.injEq] at h
            obtain ⟨hm, hr2⟩ := h
            subst hr2
            refine ⟨?_, x, r1, rfl, ha⟩
            intro c t
            have hext := takeWhile_dropWhile_ext p r1 c t (Or.inl (by rw [hd]; simp))
            simp only [matchAlt, matchSeq, Atom.match?, List.cons_append, if_true, hext.1,
              hext.2, he, Bool.false_eq_true, if_false, hd, List.nil_append, List.append_nil]
            rw [← hm]
            rfl
          · simp [hy] at h
    · simp [hx] at h

theorem status_extends (f m : List Char)
    (h : matchAlt (subPattern rxStatusCode) f = some (m, [])) :
    (∀ c t, isSpace c = true →
      matchAlt (subPattern rxStatusCode) (f ++ c :: t) = some (m, c :: t)) ∧
    ∃ x rest, f = x :: rest ∧ isSpace x = false := by
  have hsub : subPattern rxStatusCode = [[.times isDigit 3]] := rfl
  rw [hsub] at h ⊢
  simp only [matchAlt, matchSeq, Atom.match?] at h ⊢
  by_cases hc : (f.take 3).length = 3 ∧ (f.take 3).all isDigit = true
  · simp only [hc, and_self, if_true, List.append_nil, Option.some.injEq, Prod.mk.injEq] at h
    obtain ⟨hm, hd⟩ := h
    have hlen : 3 ≤ f.length := by
      have := hc.1
      rw [List.length_take] at this
      omega
    constructor
    · intro c t _
      rw [List.take_append_of_le_length hlen, List.drop_append_of_le_length hlen, hd, hm]
      rw [← hm]
      simp [hc]
    · cases f with
      | nil => simp at hlen
      | cons x rest =>
        refine ⟨x, rest, rfl, ?_⟩
        have hx : isDigit x = true := by
          have := hc.2
          simp only [List.take_succ_cons, List.all_cons, Bool.and_eq_true] at this
          exact this.1
        cases hs : isSpace x with
        | false => rfl
        | true => rw [isSpace_not_digit x hs] at hx; cases hx
  · rw [if_neg hc] at h
    simp at h

theorem size_extends (f m : List Char)
    (h : matchAlt (subPattern rxSize) f = some (m, [])) :
    (∀ c t, isSpace c = true →
      matchAlt (subPattern rxSize) (f ++ c :: t) = some (m, c :: t)) ∧
    ∃ x rest, f = x :: rest ∧ isSpace x = false := by
  have hsub : subPattern rxSize = [[.char '-'], [.plus isDigit]] := rfl
  rw [hsub] at h ⊢
  cases f with
  | nil => simp [matchAlt, matchSeq, Atom.match?] at h
  | cons x rest =>
    by_cases hx : x = '-'
    · subst hx
      simp only [matchAlt, matchSeq, Atom.match?, if_true, List.append_nil, Option.some.injEq,
        Prod.mk.injEq] at h
      obtain ⟨hm, hrest⟩ := h
      subst hrest
      subst hm
      refine ⟨?_, _, _, rfl, by decide⟩
      intro c t _
      simp [matchAlt, matchSeq, Atom.match?]
    · simp only [matchAlt, matchSeq, Atom.match?, hx, if_false] at h
      by_cases he : ((x :: rest).takeWhile isDigit).isEmpty = true
      · simp [he] at h
      · simp only [he, Bool.false_eq_true, if_false, List.append_nil, Option.some.injEq,
          Prod.mk.injEq] at h
        obtain ⟨hm, hd⟩ := h
        have hdig : isDigit x = true := by
          by_contra hn
          simp [List.takeWhile, hn] at he
        constructor
        · intro c t hc
          have hext := takeWhile_dropWhile_ext isDigit (x :: rest) c t
            (Or.inr (isSpace_not_digit c hc))
          simp only [matchAlt, matchSeq, Atom.match?, List.cons_append, hx, if_false]
          rw [← List.cons_append, hext.1, hext.2, hd]
          simp only [he, Bool.false_eq_true, if_false, List.append_nil, List.nil_append, hm]
          have hne : m.isEmpty = false := by rw [← hm]; simpa using he
          simp [hne]
        · refine ⟨x, rest, rfl, ?_⟩
          cases hs : isSpace x with
          | false => rfl
          | true => rw [isSpace_not_digit x hs] at hdig; cases hdig

/-- A field that a group of the access-combined pattern matches whole is matched the same
when white space follows it, and it does not begin with white space. -/
theorem group_extends (g : List (List Atom)) (hg : g ∈ rxAccessCombined.groups)
    (f m : List Char) (h : matchAlt g f = some (m, [])) :
    (∀ c t, isSpace c = true → matchAlt g (f ++ c :: t) = some (m, c :: t)) ∧
    ∃ x rest, f = x :: rest ∧ isSpace x = false := by
  have hall : g = subPattern rxUnquoted ∨ g = subPattern rxBrackets ∨ g = subPattern rxQuoted ∨
      g = subPattern rxStatusCode ∨ g = subPattern rxSize := by
    simp only [rxAccessCombined, compileFields, List.map_cons, List.map_nil, List.mem_cons,
      List.mem_singleton, List.not_mem_nil, or_false] at hg
    tauto
  rcases hall with rfl | rfl | rfl | rfl | rfl
  · exact unquoted_extends f m h
  · have hd := delimited_extends '[' ']' (fun c => c ≠ ']') (by decide) f m h
    exact ⟨fun c t _ => hd.1 c t, hd.2⟩
  · have hd := delimited_extends '\"' '\"' (fun c => c ≠ '\"') (by decide) f m h
    exact ⟨fun c t _ => hd.1 c t, hd.2⟩
  · exact status_extends f m h
  · exact size_extends f m h

end apachelogs

end panther

namespace panther

namespace apachelogs

open regexp

theorem wholeField_iff (g : List (List Atom)) (f : String) (h : wholeField g f = true) :
    ∃ m, matchAlt g f.data = some (m, []) := by
  unfold wholeField at h
  cases hm : matchAlt g f.data with
  | none => simp [hm] at h
  | some r =>
    obtain ⟨m, rest⟩ := r
    simp only [hm, List.isEmpty_iff] at h
    exact ⟨m, by rw [h]⟩

theorem cellsText_cons (f w : String) (cells : List (String × String)) :
    (cellsText ((f, w) :: cells)).data = f.data ++ (w.data ++ (cellsText cells).data) := by
  simp [cellsText, String.data_append]

/-- The text of cells that fit, followed by a text that does not begin with white space,
does not begin with white space. -/
theorem cellsText_starts (gs : List (List (List Atom)))
    (hgs : ∀ g ∈ gs, g ∈ rxAccessCombined.groups) (cells : List (String × String))
    (hfit : cellsFit gs cells = true) (s : List Char)
    (hs : ∃ x rest, s = x :: rest ∧ isSpace x = false) :
    ∃ x rest, (cellsText cells).data ++ s = x :: rest ∧ isSpace x = false := by
  cases gs with
  | nil =>
    cases cells with
    | nil => simpa [cellsText] using hs
    | cons cell cells1 => simp [cellsFit] at hfit
  | cons g gs1 =>
    cases cells with
    | nil => simp [cellsFit] at hfit
    | cons cell cells1 =>
      obtain ⟨f, w⟩ := cell
      simp only [cellsFit, Bool.and_eq_true] at hfit
      obtain ⟨m, hm⟩ := wholeField_iff g f hfit.1.1.1
      obtain ⟨x, rest, hx, hsp⟩ := (group_extends g (hgs g (List.mem_cons_self _ _)) _ m hm).2
      refine ⟨x, rest ++ (w.data ++ (cellsText cells1).data) ++ s, ?_, hsp⟩
      rw [cellsText_cons, hx]
      simp

theorem blank_then_text (w s : List Char) (hw : w.all isSpace = true)
    (hs : ∃ x rest, s = x :: rest ∧ isSpace x = false) :
    (w ++ s).takeWhile isSpace = w ∧ (w ++ s).dropWhile isSpace = s := by
  obtain ⟨x, rest, rfl, hx⟩ := hs
  have hext := takeWhile_dropWhile_ext isSpace w x rest (Or.inr hx)
  have hall : ∀ c ∈ w, isSpace c = true := by simpa using hw
  have htake : w.takeWhile isSpace = w := List.takeWhile_eq_self_iff.mpr hall
  have hdrop : w.dropWhile isSpace = [] := List.dropWhile_eq_nil_iff.mpr hall
  rw [hext.1, hext.2, htake, hdrop]
  exact ⟨rfl, rfl⟩

/-- When the first groups match the cells of a line and the next group does not match what
follows them, the pattern does not match the line. -/
theorem matchGroups_prefix (g : List (List Atom)) (more : List (List (List Atom)))
    (s : List Char) (hs : ∃ x rest, s = x :: rest ∧ isSpace x = false)
    (hnone : matchGroups (g :: more) s = none) :
    ∀ (gs : List (List (List Atom))) (cells : List (String × String)),
      (∀ g0 ∈ gs, g0 ∈ rxAccessCombined.groups) → cellsFit gs cells = true →
      matchGroups (gs ++ g :: more) ((cellsText cells).data ++ s) = none := by
  intro gs
  induction gs with
  | nil =>
    intro cells _ hfit
    cases cells with
    | nil => simpa [cellsText] using hnone
    | cons cell cells1 => simp [cellsFit] at hfit
  | cons g0 gs1 ih =>
    intro cells hgs hfit
    cases cells with
    | nil => simp [cellsFit] at hfit
    | cons cell cells1 =>
      obtain ⟨f, w⟩ := cell
      simp only [cellsFit, Bool.and_eq_true] at hfit
      obtain ⟨⟨⟨hwhole, hne⟩, hblank⟩, hfit1⟩ := hfit
      have hgs1 : ∀ g1 ∈ gs1, g1 ∈ rxAccessCombined.groups :=
        fun g1 h1 => hgs g1 (List.mem_cons_of_mem _ h1)
      have hnext := cellsText_starts gs1 hgs1 cells1 hfit1 s hs
      have hrec := ih cells1 hgs1 hfit1
      obtain ⟨m, hm⟩ := wholeField_iff g0 f hwhole
      have hext := (group_extends g0 (hgs g0 (List.mem_cons_self _ _)) _ m hm).1
      have hb := blank_then_text w.data ((cellsText cells1).data ++ s) hblank hnext
      obtain ⟨g2, gs2, hg2⟩ : ∃ g2 gs2, gs1 ++ g :: more = g2 :: gs2 := by
        cases gs1 with
        | nil => exact ⟨g, more, rfl⟩
        | cons a rest => exact ⟨a, rest ++ g :: more, rfl⟩
      rw [hg2] at hrec
      rw [List.cons_append, hg2, cellsText_cons, List.append_assoc, List.append_assoc]
      cases hw : w.data with
      | nil => simp [hw] at hne
      | cons c w1 =>
        have hc : isSpace c = true := by
          have : w.data.all isSpace = true := hblank
          rw [hw] at this
          simp only [List.all_cons, Bool.and_eq_true] at this
          exact this.1
        rw [hw] at hb
        simp only [matchGroups, List.cons_append, hext c _ hc]
        rw [← List.cons_append, hb.1, hb.2, hrec]
        simp

theorem quoted_empty_none (rest : List Char) (more : List (List (List Atom))) :
    matchGroups (subPattern rxQuoted :: more) ('\"' :: '\"' :: rest) = none := by
  have hsub : subPattern rxQuoted = [[.char '\"', .plus fun c => c ≠ '\"', .char '\"']] := rfl
  have hnone : matchAlt (subPattern rxQuoted) ('\"' :: '\"' :: rest) = none := by
    rw [hsub]
    simp [matchAlt, matchSeq, Atom.match?, List.takeWhile]
  cases more with
  | nil => simp [matchGroups, hnone]
  | cons g2 gs => simp [matchGroups, hnone]

theorem ParseString_no_match (log : AccessCombinedLog) (line : String)
    (h : rxAccessCombined.FindStringSubmatch line = []) :
    log.ParseString line = (log, some ⟨"invalid access combined log", []⟩) := by
  simp [AccessCombinedLog.ParseString, h]

theorem Parse_no_match (isIP : String → Bool) (p : AccessCombinedParser) (line : String)
    (h : rxAccessCombined.FindStringSubmatch line = []) :
    AccessCombinedParser.Parse isIP p line =
      ([], some ⟨"invalid access combined log", []⟩) := by
  simp [AccessCombinedParser.Parse, ParseString_no_match _ line h]

theorem delimited_shape (a b : Char) (p : Char → Bool) (f m : List Char)
    (h : matchAlt [[.char a, .plus p, .char b]] f = some (m, [])) :
    ∃ body : List Char, f = a :: body ++ [b] ∧ body ≠ [] ∧ ∀ c ∈ body, p c = true := by
  cases f with
  | nil => simp [matchAlt, matchSeq, Atom.match?] at h
  | cons x r1 =>
    simp only [matchAlt, matchSeq, Atom.match?] at h
    by_cases hx : x = a
    · subst hx
      simp only [if_true] at h
      by_cases he : (r1.takeWhile p).isEmpty = true
      · simp [he] at h
      · simp only [he, Bool.false_eq_true, if_false] at h
        cases hd : r1.dropWhile p with
        | nil => simp [hd, Atom.match?] at h
        | cons y r2 =>
          simp only [hd, Atom.match?] at h
          by_cases hy : y = b
          · subst hy
            simp only [if_true, List.append_nil, Option.some.injEq, Prod.mk.injEq] at h
            obtain ⟨_, hr2⟩ := h
            subst hr2
            refine ⟨r1.takeWhile p, ?_, ?_, ?_⟩
            · have := List.takeWhile_append_dropWhile p r1
              rw [hd] at this
              rw [List.cons_append, this]
            · intro hnil
              apply he
              rw [hnil]
              rfl
            · intro c hmem
              exact List.mem_takeWhile_imp hmem
          · simp [hy] at h
    · simp [hx] at h

/-- What a quoted field is: a double quote, one character or more of which none is a double
quote, and a double quote. -/
theorem quoted_shape (f : String) (h : wholeField (subPattern rxQuoted) f = true) :
    ∃ body : List Char, f.data = '\"' :: body ++ ['\"'] ∧ body ≠ [] ∧ '\"' ∉ body := by
  obtain ⟨m, hm⟩ := wholeField_iff _ f h
  obtain ⟨body, h1, h2, h3⟩ := delimited_shape '\"' '\"' (fun c => c ≠ '\"') f.data m hm
  refine ⟨body, h1, h2, fun hmem => ?_⟩
  have := h3 _ hmem
  simp at this

end apachelogs

end panther

namespace panther

/-! ## Claims on the errors of the access-combined parser -/

section patternClaims

open apachelogs regexp

/-- C34: the access-combined pattern has nine capture groups, so for every line `ParseString`
either finds no match and returns `invalid access combined log`, or hands exactly nine fields
to `SetRow` and returns what `AccessCommonLog.SetRow` returns on the first seven of them.
The error of the number of fields is never returned. -/
theorem parseString_errors (log : AccessCombinedLog) (line : String) :
    rxAccessCombined.groups.length = 9 ∧
    (buildRx [rxUnquoted, rxUnquoted, rxUnquoted, rxBrackets, rxQuoted, rxStatusCode, rxSize,
      rxQuoted, rxQuoted]).data.count '(' = 9 ∧
    (rxAccessCombined.FindStringSubmatch line = [] ∨
      ((rxAccessCombined.FindStringSubmatch line).drop 1).length = numFieldsAccessCombined) ∧
    (rxAccessCombined.FindStringSubmatch line = [] →
      log.ParseString line = (log, some ⟨"invalid access combined log", []⟩)) ∧
    (rxAccessCombined.FindStringSubmatch line ≠ [] →
      (log.ParseString line).2 =
        (log.AccessCommonLog.SetRow
          (((rxAccessCombined.FindStringSubmatch line).drop 1).take 7)).2) ∧
    (∀ err, (log.ParseString line).2 = some err →
      err.format ≠ "invalid number of fields %d") := by
  refine ⟨rfl, by decide, ?_, ParseString_no_match log line, ?_, ?_⟩
  · rcases FindStringSubmatch_cases rxAccessCombined line with h | ⟨caps, h, hlen⟩
    · exact Or.inl h
    · right
      rw [h]
      exact hlen
  · intro hmatch
    rcases FindStringSubmatch_cases rxAccessCombined line with h | ⟨caps, h, hlen⟩
    · exact absurd h hmatch
    · rw [rxAccessCombined_groups] at hlen
      obtain ⟨a, b, c, d, e, f, g, h1, i, rfl⟩ := length_nine caps hlen
      simp only [AccessCombinedLog.ParseString, h]
      simp only [List.length_cons, List.length_nil, List.drop_succ_cons, List.drop_zero]
      simp only [AccessCombinedLog.SetRow, numFieldsAccessCombined, numFieldsAccessCommon,
        List.length_cons, List.length_nil, List.take_succ_cons, List.take_zero,
        AccessCommonLog.SetRow]
      cases parseRequestTime d <;> simp
  · intro err herr
    rcases FindStringSubmatch_cases rxAccessCombined line with h | ⟨caps, h, hlen⟩
    · rw [ParseString_no_match log line h] at herr
      simp only [Option.some.injEq] at herr
      rw [← herr]
      show ("invalid access combined log" : String) ≠ "invalid number of fields %d"
      decide
    · rw [rxAccessCombined_groups] at hlen
      obtain ⟨a, b, c, d, e, f, g, h1, i, rfl⟩ := length_nine caps hlen
      simp only [AccessCombinedLog.ParseString, h] at herr
      simp only [List.length_cons, List.length_nil, List.drop_succ_cons, List.drop_zero] at herr
      simp only [AccessCombinedLog.SetRow, numFieldsAccessCombined, numFieldsAccessCommon,
        List.length_cons, List.length_nil, List.take_succ_cons, List.take_zero,
        AccessCommonLog.SetRow] at herr
      cases hp : parseRequestTime d with
      | none =>
        simp [hp] at herr
        rw [← herr]
        show ("invalid request time %q" : String) ≠ "invalid number of fields %d"
        decide
      | some t => simp [hp] at herr

/-- C35: a text that the quoted sub-pattern matches whole is a double quote, one character or
more of which none is a double quote, and a double quote. So take any line in which, after
leading white space, the first four, seven or eight fields are each matched whole by their
sub-pattern and followed by white space, and in which the next field, the request, the
referer or the user agent, is the empty quoted string: whatever follows, the pattern does
not match, `ParseString` fails with `invalid access combined log`, and `Parse` returns that
error and no event. -/
theorem empty_quoted_field_no_match (isIP : String → Bool) (p : AccessCombinedParser)
    (log : AccessCombinedLog) (k : Nat) (lead : String) (cells : List (String × String))
    (rest : String) (hk : k = 4 ∨ k = 7 ∨ k = 8) (hlead : isBlank lead = true)
    (hcells : cellsFit (rxAccessCombined.groups.take k) cells = true) :
    (∀ f : String, wholeField (subPattern rxQuoted) f = true →
      ∃ body : List Char, f.data = '\"' :: body ++ ['\"'] ∧ body ≠ [] ∧ '\"' ∉ body) ∧
    rxAccessCombined.FindStringSubmatch (lead ++ cellsText cells ++ "\"\"" ++ rest) = [] ∧
    log.ParseString (lead ++ cellsText cells ++ "\"\"" ++ rest) =
      (log, some ⟨"invalid access combined log", []⟩) ∧
    AccessCombinedParser.Parse isIP p (lead ++ cellsText cells ++ "\"\"" ++ rest) =
      ([], some ⟨"invalid access combined log", []⟩) := by
  have hsplit : ∃ more, rxAccessCombined.groups =
      rxAccessCombined.groups.take k ++ subPattern rxQuoted :: more := by
    rcases hk with rfl | rfl | rfl
    · exact ⟨_, rfl⟩
    · exact ⟨_, rfl⟩
    · exact ⟨_, rfl⟩
  obtain ⟨more, hmore⟩ := hsplit
  have hs : ∃ x r, ('\"' :: '\"' :: rest.data) = x :: r ∧ isSpace x = false :=
    ⟨_, _, rfl, by decide⟩
  have hgs : ∀ g0 ∈ rxAccessCombined.groups.take k, g0 ∈ rxAccessCombined.groups :=
    fun g0 h0 => List.mem_of_mem_take h0
  have hnone := matchGroups_prefix (subPattern rxQuoted) more _ hs
    (quoted_empty_none rest.data more) _ cells hgs hcells
  rw [← hmore] at hnone
  have hstart := cellsText_starts _ hgs cells hcells _ hs
  have hdrop := (blank_then_text lead.data _ hlead hstart).2
  have hfind : rxAccessCombined.FindStringSubmatch
      (lead ++ cellsText cells ++ "\"\"" ++ rest) = [] := by
    unfold Regexp.FindStringSubmatch
    have hdata : (lead ++ cellsText cells ++ "\"\"" ++ rest).data =
        lead.data ++ ((cellsText cells).data ++ '\"' :: '\"' :: rest.data) := by
      simp [String.data_append]
    rw [hdata, hdrop, hnone]
  exact ⟨quoted_shape, hfind, ParseString_no_match log _ hfind, Parse_no_match isIP p _ hfind⟩

/-- C35 on the line of the scenario with the empty quoted string for its request, and on the
lines with the empty quoted string for the referer and for the user agent. -/
theorem empty_quoted_field_no_match_witness :
    isBlank "" = true ∧
    cellsFit (rxAccessCombined.groups.take 4) sample.accessCells = true ∧
    "" ++ cellsText sample.accessCells ++ "\"\"" ++ " 200 123 \"-\" \"curl/7.64\"" =
      "192.168.0.1 - - [10/Oct/2020:13:55:36] \"\" 200 123 \"-\" \"curl/7.64\"" ∧
    AccessCombinedParser.Parse sample.isIPv4 ⟨⟩
        ("" ++ cellsText sample.accessCells ++ "\"\"" ++ " 200 123 \"-\" \"curl/7.64\"") =
      ([], some ⟨"invalid access combined log", []⟩) ∧
    AccessCombinedParser.Parse sample.isIPv4 ⟨⟩
        "192.168.0.1 - - [10/Oct/2020:13:55:36] \"GET /x HTTP/1.1\" 200 123 \"\" \"curl/7.64\"" =
      ([], some ⟨"invalid access combined log", []⟩) ∧
    AccessCombinedParser.Parse sample.isIPv4 ⟨⟩
        "192.168.0.1 - - [10/Oct/2020:13:55:36] \"GET /x HTTP/1.1\" 200 123 \"-\" \"\"" =
      ([], some ⟨"invalid access combined log", []⟩) :=
  ⟨by decide, by decide, by decide,
    (empty_quoted_field_no_match sample.isIPv4 ⟨⟩ AccessCombined.zero.AccessCombinedLog 4 ""
      sample.accessCells " 200 123 \"-\" \"curl/7.64\"" (Or.inl rfl) (by decide)
      (by decide)).2.2.2,
    by decide, by decide⟩

end patternClaims

end panther
